import Mathlib

/-!
# file_vault: envelope codec, namespace tree and quota guard

A shallow embedding of `src/utils/encryption.js`, `src/models/File.js`,
`src/models/User.js` and `src/routes/files.js`, followed by theorems that
compare the properties stated in the specification with what this code does.

Conventions of the embedding:

* a Node.js `Buffer` is a list of bytes, a path or name is a `String`;
* `crypto.randomBytes`, `Date.now` and fresh ObjectIds are explicit inputs;
* `crypto.scrypt` and the `aes-256-gcm` cipher objects belong to the Node.js
  runtime, not to this repository: they are fields of `Crypto`, together with
  the two facts about them the code relies on;
* the `archiver` package is a parameter as well: `Archiver.append` says which
  entry the archive holds for a call, or that the call raises;
* a thrown exception is `Except.error`, a loop that never ends is `none`.
-/

namespace FileVault

/-! ## Part 1. `src/utils/encryption.js` -/

/-- A Node.js `Buffer`. -/
abbrev Buffer := List Nat

/-- The files on disk: path and content, the most recent write first. -/
abbrev Disk := List (String × Buffer)

/-- Exceptions the embedded code can throw. -/
inductive JsError where
  /-- `fs.promises.readFile` or `unlink` on a path that does not exist. -/
  | enoent
  /-- The decipher rejected the key, iv, tag or data (`decipher.final()` threw). -/
  | decipherFailed
  /-- A property was read from `null`. -/
  | typeError
  deriving DecidableEq, Repr

/-- The runtime pieces `encryption.js` calls into. -/
structure Crypto where
  /-- Value of `process.env.ENCRYPTION_KEY`, when set. -/
  envKey : Option String
  /-- Function `crypto.scrypt(password, salt, keylen)`. -/
  scrypt : String → Buffer → Nat → Buffer
  /-- Cipher `createCipheriv('aes-256-gcm', key, iv)` run on the plaintext:
  the bytes of `update` and `final`, and `getAuthTag()`. -/
  gcmEncrypt : Buffer → Buffer → Buffer → Buffer × Buffer
  /-- Decipher `createDecipheriv('aes-256-gcm', key, iv)` with `setAuthTag(tag)`
  run on the data; `none` when it throws. -/
  gcmDecrypt : Buffer → Buffer → Buffer → Buffer → Option Buffer
  /-- Key derivation returns `keylen` bytes. -/
  scrypt_length : ∀ pw salt n, (scrypt pw salt n).length = n
  /-- The tag of `aes-256-gcm` is 16 bytes long (the default `authTagLength`). -/
  tag_length : ∀ key iv p, key.length = 32 → (gcmEncrypt key iv p).2.length = 16
  /-- Deciphering with the same key, iv and tag gives the plaintext back. -/
  gcm_open_seal : ∀ key iv p, key.length = 32 →
    gcmDecrypt key iv (gcmEncrypt key iv p).2 (gcmEncrypt key iv p).1 = some p

/-- Constant `ENCRYPTION_KEY = process.env.ENCRYPTION_KEY || 'your-secure-encryption-key'`. -/
def ENCRYPTION_KEY (c : Crypto) : String :=
  match c.envKey with
  | some s => if s = "" then "your-secure-encryption-key" else s
  | none => "your-secure-encryption-key"

def IV_LENGTH : Nat := 16
def SALT_LENGTH : Nat := 16
def TAG_LENGTH : Nat := 16

/-- Method `buf.slice(start, end)` for in-range, non-negative arguments. -/
def slice (b : Buffer) (start stop : Nat) : Buffer := (b.take stop).drop start

/-- Method `buf.slice(start)`. -/
def sliceFrom (b : Buffer) (start : Nat) : Buffer := b.drop start

/-- Function `fs.promises.readFile(path)`. -/
def readFile (d : Disk) (path : String) : Except JsError Buffer :=
  match d.lookup path with
  | some data => .ok data
  | none => .error .enoent

/-- Function `fs.promises.writeFile(path, data)`. -/
def writeFile (d : Disk) (path : String) (data : Buffer) : Disk := (path, data) :: d

/-- Function `fs.existsSync(path)`. -/
def existsSync (d : Disk) (path : String) : Bool := (d.lookup path).isSome

/-- Function `fs.promises.unlink(path)`. -/
def unlink (d : Disk) (path : String) : Except JsError Disk :=
  if existsSync d path then .ok (d.filter (fun e => e.1 ≠ path)) else .error .enoent

/-- Function `deriveKey(password, salt)`: `scrypt(password || ENCRYPTION_KEY, salt, 32)`. -/
def deriveKey (c : Crypto) (password : String) (salt : Buffer) : Buffer :=
  c.scrypt (if password = "" then ENCRYPTION_KEY c else password) salt 32

/-- The buffer `finalData` that `encryptFile` builds from the plaintext. -/
def envelope (c : Crypto) (fileData : Buffer) (password : String) (salt iv : Buffer) : Buffer :=
  let key := deriveKey c password salt
  let sealed := c.gcmEncrypt key iv fileData
  let encryptedData := sealed.1
  let authTag := sealed.2
  salt ++ iv ++ authTag ++ encryptedData

/-- Function `encryptFile(inputPath, outputPath, password)`; `salt` and `iv` are the
draws of `generateSalt()` and `generateIV()`. -/
def encryptFile (c : Crypto) (d : Disk) (inputPath outputPath : String) (password : String)
    (salt iv : Buffer) : Except JsError (Disk × Bool) :=
  match readFile d inputPath with
  | .error e => .error e
  | .ok fileData =>
    let finalData := envelope c fileData password salt iv
    .ok (writeFile d outputPath finalData, true)

/-- The four segments `decryptFile` cuts out of the stored bytes:
salt, iv, authTag and data. -/
def extractComponents (encryptedData : Buffer) : Buffer × Buffer × Buffer × Buffer :=
  let salt := slice encryptedData 0 SALT_LENGTH
  let iv := slice encryptedData SALT_LENGTH (SALT_LENGTH + IV_LENGTH)
  let authTag := slice encryptedData (SALT_LENGTH + IV_LENGTH) (SALT_LENGTH + IV_LENGTH + TAG_LENGTH)
  let data := sliceFrom encryptedData (SALT_LENGTH + IV_LENGTH + TAG_LENGTH)
  (salt, iv, authTag, data)

/-- The body of `decryptFile` once the stored bytes are read. -/
def decryptBuffer (c : Crypto) (encryptedData : Buffer) (password : String) :
    Except JsError Buffer :=
  let (salt, iv, authTag, data) := extractComponents encryptedData
  let key := deriveKey c password salt
  match c.gcmDecrypt key iv authTag data with
  | some decryptedData => .ok decryptedData
  | none => .error .decipherFailed

/-- Function `decryptFile(inputPath, password)`. -/
def decryptFile (c : Crypto) (d : Disk) (inputPath : String) (password : String) :
    Except JsError Buffer :=
  match readFile d inputPath with
  | .error e => .error e
  | .ok encryptedData => decryptBuffer c encryptedData password

/-- A small stand-in cipher used to run the definitions on concrete inputs:
the key is the password bytes followed by the salt, cut or zero-padded to
`keylen`; the ciphertext is the plaintext reversed and the tag is the first
16 key bytes, which the decipher compares with its own key. -/
def toyScrypt (pw : String) (salt : Buffer) (n : Nat) : Buffer :=
  ((pw.toList.map Char.toNat ++ salt) ++ List.replicate n 0).take n

def toyEncrypt (key _iv p : Buffer) : Buffer × Buffer :=
  (p.reverse, (key ++ List.replicate 16 0).take 16)

def toyDecrypt (key _iv tag data : Buffer) : Option Buffer :=
  if tag = (key ++ List.replicate 16 0).take 16 then some data.reverse else none

def toyCrypto : Crypto where
  envKey := none
  scrypt := toyScrypt
  gcmEncrypt := toyEncrypt
  gcmDecrypt := toyDecrypt
  scrypt_length := by
    intro pw salt n
    simp [toyScrypt]
    omega
  tag_length := by
    intro key iv p _
    simp [toyEncrypt]
  gcm_open_seal := by
    intro key iv p _
    simp [toyEncrypt, toyDecrypt]

/-- The idealised cipher suite that rejecting another passphrase relies on:
`crypto.scrypt` derives different 32-byte keys from different passwords, and the
`aes-256-gcm` decipher throws on a tag and ciphertext sealed under another
32-byte key. Collisions, which the real functions have with negligible
probability, are left out. -/
structure Authenticated (c : Crypto) : Prop where
  scrypt_injective : ∀ pw1 pw2 salt, pw1 ≠ pw2 → c.scrypt pw1 salt 32 ≠ c.scrypt pw2 salt 32
  gcm_rejects : ∀ key1 key2 iv p, key1.length = 32 → key2.length = 32 → key1 ≠ key2 →
    c.gcmDecrypt key2 iv (c.gcmEncrypt key1 iv p).2 (c.gcmEncrypt key1 iv p).1 = none

/-- A second stand-in cipher, which tells every two keys apart: the key starts
with a number that encodes the whole password, the tag starts with a number that
encodes the whole key, and the decipher compares the tag with that of its own key. -/
def codeScrypt (pw : String) (salt : Buffer) (n : Nat) : Buffer :=
  (Encodable.encode (pw.toList.map Char.toNat) :: (salt ++ List.replicate n 0)).take n

def codeEncrypt (key _iv p : Buffer) : Buffer × Buffer :=
  (p.reverse, (Encodable.encode key :: List.replicate 16 0).take 16)

def codeDecrypt (key _iv tag data : Buffer) : Option Buffer :=
  if tag = (Encodable.encode key :: List.replicate 16 0).take 16 then some data.reverse else none

def codeCrypto : Crypto where
  envKey := none
  scrypt := codeScrypt
  gcmEncrypt := codeEncrypt
  gcmDecrypt := codeDecrypt
  scrypt_length := by
    intro pw salt n
    simp [codeScrypt]
    omega
  tag_length := by
    intro key iv p _
    simp [codeEncrypt]
  gcm_open_seal := by
    intro key iv p _
    simp [codeEncrypt, codeDecrypt]

/-! ## Part 2. `src/models/File.js` and `src/models/User.js` -/

/-- A document of the `File` collection (`fileSchema`). ObjectIds are numbers,
`null` is `none`, dates are milliseconds since the epoch. -/
structure FileDoc where
  id : Nat
  originalName : String
  encryptedName : String
  mimeType : String
  size : Nat
  owner : Nat
  password : Option String
  maxDownloads : Option Int
  downloadCount : Nat
  expiresAt : Option Int
  isFolder : Bool
  isHomeFolder : Bool
  parentFolder : Option Nat
  deriving DecidableEq, Repr

/-- A document of the `User` collection (`userSchema`). -/
structure UserDoc where
  id : Nat
  name : String
  email : String
  password : String
  storageLimit : Nat
  storageUsed : Nat
  homeFolder : Option Nat
  deriving DecidableEq, Repr

/-- The database, the disk and the source of fresh ObjectIds. -/
structure State where
  files : List FileDoc
  users : List UserDoc
  disk : Disk
  nextId : Nat
  deriving DecidableEq, Repr

/-- What a route handler sends back: `res.status(..).json(..)`. -/
structure Response where
  status : Nat
  message : String
  deriving DecidableEq, Repr

/-- Query `File.findById(id)`; `findById(null)` finds nothing. -/
def findById (files : List FileDoc) (id : Option Nat) : Option FileDoc :=
  match id with
  | none => none
  | some i => files.find? (fun d => decide (d.id = i))

/-- Query `File.find({ parentFolder: id })`. -/
def findChildren (files : List FileDoc) (id : Nat) : List FileDoc :=
  files.filter (fun d => decide (d.parentFolder = some id))

/-- Call `doc.save()` after `this.size = totalSize`: the modified path `size`
of the document with that `_id` is written. -/
def saveSize (files : List FileDoc) (id : Nat) (totalSize : Nat) : List FileDoc :=
  files.map (fun d => if d.id = id then { d with size := totalSize } else d)

/-- The `for (const file of files)` loop of `calculateFolderSize`, with the
recursive call passed in as `recurse`; it threads `totalSize` and the collection. -/
def sumChildren (recurse : List FileDoc → FileDoc → Option (Nat × List FileDoc)) :
    List FileDoc → Nat → List FileDoc → Option (Nat × List FileDoc)
  | [], totalSize, files => some (totalSize, files)
  | file :: rest, totalSize, files =>
    if file.isFolder then
      match recurse files file with
      | none => none
      | some (sz, files1) => sumChildren recurse rest (totalSize + sz) files1
    else sumChildren recurse rest (totalSize + file.size) files

/-- Method `calculateFolderSize` with a bound on the recursion depth; `none`
when the bound is reached. -/
def calculateFolderSizeAux : Nat → List FileDoc → FileDoc → Option (Nat × List FileDoc)
  | 0, _, _ => none
  | fuel + 1, files, this =>
    if !this.isFolder then some (this.size, files)
    else
      match sumChildren (calculateFolderSizeAux fuel) (findChildren files this.id) 0 files with
      | none => none
      | some (totalSize, files1) => some (totalSize, saveSize files1 this.id totalSize)

/-- Method `fileSchema.methods.calculateFolderSize`: the recomputed size and the
collection after the saves. A chain of nested folders is no longer than the
collection, so the bound is only reached when the recursion would not end. -/
def calculateFolderSize (files : List FileDoc) (this : FileDoc) : Option (Nat × List FileDoc) :=
  calculateFolderSizeAux (files.length + 1) files this

/-- Static `fileSchema.statics.calculateUserStorage`. -/
def calculateUserStorage (files : List FileDoc) (userId : Nat) : Nat :=
  ((files.filter (fun d => decide (d.owner = userId) && !d.isFolder)).map
    (fun file => file.size)).foldl (fun total sz => total + sz) 0

/-- Method `userSchema.methods.updateStorageUsed` on the fetched document `this`:
`Math.max(0, this.storageUsed + sizeChange)` is saved under its `_id`. -/
def updateStorageUsed (users : List UserDoc) (this : UserDoc) (sizeChange : Int) :
    Nat × List UserDoc :=
  let newStorageUsed := ((this.storageUsed : Int) + sizeChange).toNat
  (newStorageUsed,
    users.map (fun u => if u.id = this.id then { u with storageUsed := newStorageUsed } else u))

/-! ## Part 3. `src/routes/files.js` -/

/-- The `while (currentFolder)` loop of `updateFolderSizes`, entered with the id
the next `File.findById` is called on, with a bound on the number of rounds. -/
def updateFolderSizesAux : Nat → List FileDoc → Option Nat → Option (List FileDoc)
  | 0, _, _ => none
  | fuel + 1, files, folderId =>
    match findById files folderId with
    | none => some files
    | some currentFolder =>
      match calculateFolderSize files currentFolder with
      | none => none
      | some (_, files1) => updateFolderSizesAux fuel files1 currentFolder.parentFolder

/-- Helper `updateFolderSizes(folderId)`. A parent chain without a cycle has at
most as many nodes as the collection. -/
def updateFolderSizes (files : List FileDoc) (folderId : Nat) : Option (List FileDoc) :=
  updateFolderSizesAux (files.length + 1) files (some folderId)

/-- The object `req.file` that multer hands to the upload handler. -/
structure UploadedFile where
  originalname : String
  mimetype : String
  size : Nat
  path : String
  deriving DecidableEq, Repr

/-- An upload request after the `auth` and `upload.single('file')` middleware,
with the values the handler draws while it runs. -/
structure UploadReq where
  /-- Field `req.user._id`. -/
  user : Nat
  file : Option UploadedFile
  /-- Field `req.body.folderId`, a well-formed ObjectId when present. -/
  folderId : Option Nat
  maxDownloads : Option String
  expiresIn : Option String
  password : Option String
  /-- Value of `new Date()`. -/
  now : Int
  /-- Result of `generateEncryptedFileName(req.file.originalname)`. -/
  encryptedFilename : String
  /-- Draw of `generateSalt()`. -/
  salt : Buffer
  /-- Draw of `generateIV()`. -/
  iv : Buffer
  deriving DecidableEq, Repr

/-- Whether a string is truthy. -/
def truthy (s : Option String) : Bool :=
  match s with
  | some v => v ≠ ""
  | none => false

/-- The value of a character as a digit in the given radix (10 or 16). -/
def digitValue (radix : Nat) (ch : Char) : Option Nat :=
  if ch.isDigit then some (ch.toNat - 48)
  else if radix = 16 ∧ 'a'.toNat ≤ ch.toNat ∧ ch.toNat ≤ 'f'.toNat then some (ch.toNat - 87)
  else if radix = 16 ∧ 'A'.toNat ≤ ch.toNat ∧ ch.toNat ≤ 'F'.toNat then some (ch.toNat - 55)
  else none

/-- The digits `parseInt` reads at the head of a string, most significant first. -/
def leadingDigits (radix : Nat) : List Char → List Nat
  | [] => []
  | ch :: rest =>
    match digitValue radix ch with
    | some k => k :: leadingDigits radix rest
    | none => []

/-- The characters `parseInt` skips at the head of a string: the white space
and line terminator code points of ECMAScript (`StrWhiteSpaceChar`). -/
def isStrWhiteSpaceChar (ch : Char) : Bool :=
  ch.toNat ∈ [9, 10, 11, 12, 13, 32, 160, 5760, 8232, 8233, 8239, 8287, 12288, 65279] ||
    (decide (8192 ≤ ch.toNat) && decide (ch.toNat ≤ 8202))

/-- The Number value of a natural number: the nearest double, ties to the even
significand of 53 bits. Numbers that overflow the double range (`Infinity`, more
than 308 decimal digits) are outside the embedding. -/
def toNumber (n : Nat) : Nat :=
  if n < 2 ^ 53 then n
  else
    let e := Nat.log2 n - 52
    let q := n / 2 ^ e
    let r := n % 2 ^ e
    if 2 * r > 2 ^ e ∨ (2 * r = 2 ^ e ∧ q % 2 = 1) then (q + 1) * 2 ^ e else q * 2 ^ e

/-- Builtin `parseInt(s)` without a radix argument: leading white space, an
optional sign, an optional `0x` and the longest run of digits, as a Number;
`none` is `NaN`. -/
def parseInt (s : Option String) : Option Int :=
  match s with
  | none => none
  | some v =>
    let chars := v.toList.dropWhile isStrWhiteSpaceChar
    let (negative, unsigned) :=
      match chars with
      | '-' :: rest => (true, rest)
      | '+' :: rest => (false, rest)
      | _ => (false, chars)
    let (radix, body) :=
      match unsigned with
      | '0' :: 'x' :: rest => (16, rest)
      | '0' :: 'X' :: rest => (16, rest)
      | _ => (10, unsigned)
    match leadingDigits radix body with
    | [] => none
    | ds =>
      let n : Int := ((toNumber (ds.foldl (fun acc k => radix * acc + k) 0) : Nat) : Int)
      some (if negative then -n else n)

/-- Expression `parseInt(x) || dflt`: `NaN` and `0` are falsy. -/
def parseIntOr (s : Option String) (dflt : Option Int) : Option Int :=
  match parseInt s with
  | some n => if n = 0 then dflt else some n
  | none => dflt

/-- Path `path.join(process.env.FILE_STORAGE_PATH || 'uploads', name)`, with the
variable unset. -/
def storagePath (name : String) : String := "uploads/" ++ name

/-- Path `path.join(__dirname, '..', 'uploads', name)` of the delete handler. -/
def deletePath (name : String) : String := "src/uploads/" ++ name

/-- Whether a time value lies in the range of `Date`; outside of it `setDate`
leaves an Invalid Date. -/
def validDate (t : Int) : Bool :=
  decide (-8640000000000000 ≤ t) && decide (t ≤ 8640000000000000)

/-- Mongoose validation run by `save()`: the `required` paths of `fileSchema`
(a required string may not be empty), and the cast of `expiresAt`, which an
Invalid Date fails. -/
def validFileDoc (d : FileDoc) : Bool :=
  decide (d.originalName ≠ "") &&
    (d.isFolder || (decide (d.encryptedName ≠ "") && decide (d.mimeType ≠ ""))) &&
    (match d.expiresAt with
      | some t => validDate t
      | none => true)

/-- The `catch` block of the upload handler: the temporary file is removed when
that is possible, and the answer is 500. -/
def uploadCatch (s : State) (path : String) (message : String) : State × Response :=
  match unlink s.disk path with
  | .ok disk1 => ({ s with disk := disk1 }, ⟨500, message⟩)
  | .error _ => (s, ⟨500, message⟩)

/-- Query `File.findOne({ owner, isFolder: true, isHomeFolder: true })`. -/
def findHomeFolder (files : List FileDoc) (owner : Nat) : Option FileDoc :=
  files.find? (fun d => decide (d.owner = owner) && d.isFolder && d.isHomeFolder)

/-- The parent folder id the upload and create-folder handlers settle on:
the requested one, else the id of the home folder when there is one. -/
def resolveParent (files : List FileDoc) (owner : Nat) (folderId : Option Nat) : Option Nat :=
  match folderId with
  | some id => some id
  | none =>
    match findHomeFolder files owner with
    | some homeFolder => some homeFolder.id
    | none => none

/-- Query `File.findOne({ _id: parentFolderId, owner, isFolder: true })`. -/
def findOwnedFolder (files : List FileDoc) (owner : Nat) (id : Nat) : Option FileDoc :=
  files.find? (fun d => decide (d.id = id) && decide (d.owner = owner) && d.isFolder)

/-- The document `new File({...})` of the upload handler. The clock is read in
UTC, where `setDate(getDate() + days)` adds `days * 86400000` to the time value;
a result outside the range of `Date` stands for the Invalid Date. -/
def newFileDoc (s : State) (req : UploadReq) (file : UploadedFile) (parentFolderId : Option Nat) :
    FileDoc :=
  { id := s.nextId
    originalName := file.originalname
    encryptedName := req.encryptedFilename
    mimeType := file.mimetype
    size := file.size
    owner := req.user
    password := if truthy req.password then req.password else none
    maxDownloads := parseIntOr req.maxDownloads none
    downloadCount := 0
    expiresAt :=
      if truthy req.maxDownloads then
        some (req.now + (parseIntOr req.expiresIn (some 7)).getD 7 * 86400000)
      else none
    isFolder := false
    isHomeFolder := false
    parentFolder := parentFolderId }

/-- Handler `router.post('/upload')`. The result is `none` when
`updateFolderSizes` does not come back. -/
def upload (c : Crypto) (s : State) (req : UploadReq) : Option (State × Response) :=
  match req.file with
  | none => some (s, ⟨400, "No file uploaded"⟩)
  | some file =>
    let parentFolderId := resolveParent s.files req.user req.folderId
    let parentMissing : Bool :=
      match parentFolderId with
      | some pid => (findOwnedFolder s.files req.user pid).isNone
      | none => false
    if parentMissing then some (s, ⟨400, "Invalid parent folder"⟩)
    else
      match s.users.find? (fun u => decide (u.id = req.user)) with
      | none => some (uploadCatch s file.path "Cannot read properties of null")
      | some user =>
        if user.storageUsed + file.size > user.storageLimit then
          match unlink s.disk file.path with
          | .error _ => some (uploadCatch s file.path "ENOENT")
          | .ok disk1 => some ({ s with disk := disk1 }, ⟨400, "Storage quota exceeded"⟩)
        else
          match encryptFile c s.disk file.path (storagePath req.encryptedFilename)
              (req.password.getD "") req.salt req.iv with
          | .error _ => some (uploadCatch s file.path "ENOENT")
          | .ok (disk1, _) =>
            match unlink disk1 file.path with
            | .error _ => some (uploadCatch { s with disk := disk1 } file.path "ENOENT")
            | .ok disk2 =>
              let doc := newFileDoc s req file parentFolderId
              if !validFileDoc doc then
                some (uploadCatch { s with disk := disk2 } file.path "File validation failed")
              else
                let files1 := s.files ++ [doc]
                let (_, users1) := updateStorageUsed s.users user file.size
                let s1 : State :=
                  { files := files1, users := users1, disk := disk2, nextId := s.nextId + 1 }
                match parentFolderId with
                | none => some (s1, ⟨201, "File uploaded successfully"⟩)
                | some pid =>
                  match updateFolderSizes files1 pid with
                  | none => none
                  | some files2 =>
                    some ({ s1 with files := files2 }, ⟨201, "File uploaded successfully"⟩)

/-- A request to `router.delete('/:id')` after the `auth` middleware. -/
structure DeleteReq where
  user : Nat
  id : Nat
  deriving DecidableEq, Repr

/-- Handler `router.delete('/:id')`. -/
def deleteFile (s : State) (req : DeleteReq) : State × Response :=
  match s.files.find? (fun d => decide (d.id = req.id) && decide (d.owner = req.user)) with
  | none => (s, ⟨404, "File not found"⟩)
  | some file =>
    if file.isFolder then
      ({ s with files := s.files.filter (fun d =>
          !(decide (d.owner = req.user) &&
            (decide (d.id = file.id) || decide (d.parentFolder = some file.id)))) },
        ⟨200, "File deleted successfully"⟩)
    else
      let filePath := deletePath file.encryptedName
      let disk1 := if existsSync s.disk filePath then s.disk.filter (fun e => e.1 ≠ filePath)
        else s.disk
      ({ s with files := s.files.filter (fun d => decide (d.id ≠ file.id)), disk := disk1 },
        ⟨200, "File deleted successfully"⟩)

/-- A request to `router.post('/create-folder')` after the `auth` middleware. -/
structure CreateFolderReq where
  user : Nat
  name : Option String
  parentFolderId : Option Nat
  deriving DecidableEq, Repr

/-- Test `/[<>:"/\\|?*]/.test(name)`. -/
def hasReservedChar (name : String) : Bool :=
  name.toList.any (fun ch => ch ∈ ['<', '>', ':', '"', '/', '\\', '|', '?', '*'])

/-- Handler `router.post('/create-folder')`. -/
def createFolder (s : State) (req : CreateFolderReq) : State × Response :=
  let finalParentId := resolveParent s.files req.user req.parentFolderId
  match req.name with
  | none => (s, ⟨400, "Invalid folder name"⟩)
  | some name =>
    if name = "" || hasReservedChar name then (s, ⟨400, "Invalid folder name"⟩)
    else
      match s.files.find? (fun d => decide (d.owner = req.user) &&
          decide (d.parentFolder = finalParentId) && decide (d.originalName = name) &&
          d.isFolder) with
      | some _ => (s, ⟨400, "Folder already exists"⟩)
      | none =>
        let folder : FileDoc :=
          { id := s.nextId
            originalName := name
            encryptedName := name
            mimeType := "folder"
            size := 0
            owner := req.user
            password := none
            maxDownloads := none
            downloadCount := 0
            expiresAt := none
            isFolder := true
            isHomeFolder := false
            parentFolder := finalParentId }
        ({ s with files := s.files ++ [folder], nextId := s.nextId + 1 }, ⟨201, ""⟩)

/-- A request to `router.put('/:id/rename')` after the `auth` middleware. -/
structure RenameReq where
  user : Nat
  id : Nat
  newName : Option String
  deriving DecidableEq, Repr

/-- Handler `router.put('/:id/rename')`. -/
def rename (s : State) (req : RenameReq) : State × Response :=
  match req.newName with
  | none => (s, ⟨400, "Invalid name"⟩)
  | some newName =>
    if newName = "" || hasReservedChar newName then (s, ⟨400, "Invalid name"⟩)
    else
      match s.files.find? (fun d => decide (d.id = req.id) && decide (d.owner = req.user)) with
      | none => (s, ⟨404, "File not found"⟩)
      | some file =>
        match s.files.find? (fun d => decide (d.owner = req.user) &&
            decide (d.parentFolder = file.parentFolder) && decide (d.originalName = newName) &&
            decide (d.id ≠ file.id)) with
        | some _ => (s, ⟨400, "A file with this name already exists in this folder"⟩)
        | none =>
          ({ s with files := s.files.map (fun d =>
              if d.id = file.id then
                { d with originalName := newName
                         encryptedName := if file.isFolder then newName else d.encryptedName }
              else d) },
            ⟨200, ""⟩)


/-! ## Part 4. Concrete states used to run the handlers -/

/-- A folder document as `create-folder` and `register` write it. -/
def mkFolder (id : Nat) (name : String) (owner : Nat) (parent : Option Nat) (size : Nat)
    (home : Bool) : FileDoc :=
  { id := id, originalName := name, encryptedName := name, mimeType := "folder", size := size,
    owner := owner, password := none, maxDownloads := none, downloadCount := 0,
    expiresAt := none, isFolder := true, isHomeFolder := home, parentFolder := parent }

/-- A file document as `upload` writes it, without password, limit or expiry. -/
def mkFile (id : Nat) (name : String) (owner : Nat) (parent : Option Nat) (size : Nat) :
    FileDoc :=
  { id := id, originalName := name, encryptedName := "0_00" ++ name, mimeType := "text/plain",
    size := size, owner := owner, password := none, maxDownloads := none, downloadCount := 0,
    expiresAt := none, isFolder := false, isHomeFolder := false, parentFolder := parent }

/-- The user 7 with the given quota record; its home folder is node 1. -/
def mkUser (used limit : Nat) : UserDoc :=
  { id := 7, name := "ann", email := "ann@example.org", password := "hash",
    storageLimit := limit, storageUsed := used, homeFolder := some 1 }

/-- An upload request of user 7: `size` bytes stored by multer at `tmp/up`. -/
def mkUpload (name : String) (size : Nat) (folderId : Option Nat) : UploadReq :=
  { user := 7, file := some ⟨name, "text/plain", size, "tmp/up"⟩, folderId := folderId,
    maxDownloads := none, expiresIn := none, password := none, now := 0,
    encryptedFilename := "0_00" ++ name, salt := List.replicate 16 1, iv := List.replicate 16 2 }

/-- A fresh account: user 7 with limit 100 and nothing but an empty home folder;
multer has stored a 5-byte upload. -/
def freshState : State :=
  { files := [mkFolder 1 "home" 7 none 0 true], users := [mkUser 0 100],
    disk := [("tmp/up", [1, 2, 3, 4, 5])], nextId := 2 }

/-- User 7 with limit 100 and 60 bytes used by `big.bin` in the home folder;
multer has stored an upload. -/
def quotaState : State :=
  { files := [mkFolder 1 "home" 7 none 60 true, mkFile 2 "big.bin" 7 (some 1) 60],
    users := [mkUser 60 100], disk := [("tmp/up", [1, 2, 3])], nextId := 3 }

/-- The tree `home / docs / (a.txt, nested / b.txt)` of user 7, with 12 bytes used. -/
def nestedState : State :=
  { files := [mkFolder 1 "home" 7 none 12 true, mkFolder 2 "docs" 7 (some 1) 12 false,
      mkFile 3 "a.txt" 7 (some 2) 5, mkFolder 4 "nested" 7 (some 2) 7 false,
      mkFile 5 "b.txt" 7 (some 4) 7],
    users := [mkUser 12 100], disk := [], nextId := 6 }


/-- The state after the upload of the 5-byte `a.txt` into the home folder of the
fresh account. -/
def afterUpload : Option State :=
  (upload toyCrypto freshState (mkUpload "a.txt" 5 none)).map (fun x => x.1)

/-- The state after that upload and the deletion of the uploaded file (node 2). -/
def afterUploadDelete : Option State :=
  afterUpload.map (fun s => (deleteFile s ⟨7, 2⟩).1)

/-- The quota counter of a user, `User.findById(id).storageUsed`. -/
def storageUsedOf (users : List UserDoc) (id : Nat) : Option Nat :=
  (users.find? (fun u => decide (u.id = id))).map (fun u => u.storageUsed)

/-- The stored size of a node, `File.findById(id).size`. -/
def sizeOf (files : List FileDoc) (id : Nat) : Option Nat :=
  (findById files (some id)).map (fun d => d.size)

/-- The sum of the sizes of the direct children of a node. -/
def childSum (files : List FileDoc) (id : Nat) : Nat :=
  ((findChildren files id).map (fun d => d.size)).sum


/-! ## Part 5. Predicates on the collection -/

/-- A document with its `size` blanked: all that `calculateFolderSize` and
`updateFolderSizes` leave untouched. -/
def eraseSize (d : FileDoc) : FileDoc := { d with size := 0 }

/-- Two collections that hold the same documents in the same order, up to sizes. -/
def SameShape (a b : List FileDoc) : Prop := a.map eraseSize = b.map eraseSize

/-- Sibling folder names are unique: two folders with the same owner, the same
`parentFolder` and the same `originalName` are the same node. -/
def SiblingFoldersUnique (files : List FileDoc) : Prop :=
  ∀ a ∈ files, ∀ b ∈ files, a.isFolder = true → b.isFolder = true → a.owner = b.owner →
    a.parentFolder = b.parentFolder → a.originalName = b.originalName → a.id = b.id

/-- The state after the upload of the file `notes` into the home folder of the
fresh account, followed by create-folder `notes` in the same folder. -/
def afterUploadCreate : Option State :=
  (upload toyCrypto freshState (mkUpload "notes" 5 none)).map
    (fun x => (createFolder x.1 ⟨7, some "notes", none⟩).1)

/-- Ids are unique and below the counter that hands out the next one. -/
def IdsFresh (s : State) : Prop :=
  (s.files.map (fun d => d.id)).Nodup ∧ ∀ d ∈ s.files, d.id < s.nextId

/-- The ranking `r` of node ids grows from every node to its children and stays
below `bound` on the collection. -/
def RankedBy (r : Nat → Nat) (bound : Nat) (files : List FileDoc) : Prop :=
  ∀ d ∈ files, r d.id < bound ∧ ∀ q ∈ files, d.parentFolder = some q.id → r q.id < r d.id

/-- The `parentFolder` pointers form no cycle: the nodes can be ranked by depth,
and the depth of a node in a collection of n nodes is below n. -/
def Acyclic (files : List FileDoc) : Prop := ∃ r, RankedBy r files.length files

/-- Ids and parent pointers are below the counter that hands out the next id,
and the parent pointers form no cycle. -/
def WellFormed (s : State) : Prop :=
  (∀ d ∈ s.files, d.id < s.nextId ∧ ∀ p, d.parentFolder = some p → p < s.nextId) ∧
    Acyclic s.files

/-- A run of upload requests handled one after another, with their answers. -/
def uploads (c : Crypto) : State → List UploadReq → Option (State × List Response)
  | s, [] => some (s, [])
  | s, req :: rest =>
    match upload c s req with
    | none => none
    | some (s1, resp) =>
      match uploads c s1 rest with
      | none => none
      | some (s2, resps) => some (s2, resp :: resps)

/-- The bytes of the uploads of user `u` that were answered 201, over a run of
requests and its answers. -/
def admittedTotal (u : Nat) : List UploadReq → List Response → Nat
  | req :: reqs, resp :: resps =>
    (if req.user = u ∧ resp.status = 201 then (req.file.map (fun f => f.size)).getD 0 else 0) +
      admittedTotal u reqs resps
  | _, _ => 0

/-- A fresh account with limit 100 for which multer has stored three uploads. -/
def quotaRunState : State :=
  { freshState with disk := [("tmp/u1", [1]), ("tmp/u2", [2]), ("tmp/u3", [3])] }

/-- Three uploads of user 7 into the home folder: 60, 50 and 30 bytes. -/
def quotaRun : List UploadReq :=
  [{ mkUpload "a.bin" 60 none with file := some ⟨"a.bin", "text/plain", 60, "tmp/u1"⟩ },
   { mkUpload "b.bin" 50 none with file := some ⟨"b.bin", "text/plain", 50, "tmp/u2"⟩ },
   { mkUpload "c.bin" 30 none with file := some ⟨"c.bin", "text/plain", 30, "tmp/u3"⟩ }]

/-- The ids met by following `parentFolder` from the node `x` upwards, `x` first,
with a bound on the number of steps. -/
def ancestorChainAux : Nat → List FileDoc → Option Nat → List Nat
  | 0, _, _ => []
  | fuel + 1, files, x =>
    match findById files x with
    | none => []
    | some d => d.id :: ancestorChainAux fuel files d.parentFolder

/-- The `parentFolder` chain from the node `x` up to the root, `x` included. -/
def ancestorChain (files : List FileDoc) (x : Option Nat) : List Nat :=
  ancestorChainAux (files.length + 1) files x

/-- The folder-size invariant: the size of every folder is the sum of the sizes
of its direct children. -/
def SizesConsistent (files : List FileDoc) : Prop :=
  ∀ g ∈ files, g.isFolder = true → g.size = childSum files g.id

/-- Only folders have children: a node of the collection that another node names
as its `parentFolder` is a folder. -/
def ParentsAreFolders (files : List FileDoc) : Prop :=
  ∀ d ∈ files, ∀ q ∈ files, d.parentFolder = some q.id → q.isFolder = true

/-- User 7 with an empty home folder (node 1) and an empty folder `docs` (node 2)
in it; multer has stored a 5-byte upload. -/
def docsState : State :=
  { files := [mkFolder 1 "home" 7 none 0 true, mkFolder 2 "docs" 7 (some 1) 0 false],
    users := [mkUser 0 100], disk := [("tmp/up", [1, 2, 3, 4, 5])], nextId := 3 }

/-- The upload of the 10-byte `a.txt` of user 7 into the home folder, stored by
multer at `tmp/u1`. -/
def uploadA : UploadReq :=
  { mkUpload "a.txt" 10 none with file := some ⟨"a.txt", "text/plain", 10, "tmp/u1"⟩ }

/-- The upload of the 5-byte `b.txt` of user 7 into node 3, stored by multer at
`tmp/u2`. -/
def uploadB : UploadReq :=
  { mkUpload "b.txt" 5 (some 3) with file := some ⟨"b.txt", "text/plain", 5, "tmp/u2"⟩ }

/-- The tree `home / a.txt / sub`: the folder `sub` (node 3) has the file `a.txt`
(node 2, 10 bytes) as its parent. This is the state of the fresh account after
the upload of `a.txt` and create-folder `sub` with `parentFolderId` 2. -/
def fileParentState : State :=
  { files := [mkFolder 1 "home" 7 none 10 true, mkFile 2 "a.txt" 7 (some 1) 10,
      mkFolder 3 "sub" 7 (some 2) 0 false],
    users := [mkUser 10 100],
    disk := [(storagePath "0_00a.txt",
        envelope toyCrypto [1] "" (List.replicate 16 1) (List.replicate 16 2)),
      ("tmp/u2", [2]), ("tmp/u3", [3])],
    nextId := 4 }

/-! ## Part 6. Path resolution, download, export, accounts -/

/-- The `while (current && !current.isHomeFolder)` loop of `getFullPath`, with
the array `path` and a bound on the number of rounds. -/
def getFullPathAux : Nat → List FileDoc → Option FileDoc → List String → Option (List String)
  | 0, _, _, _ => none
  | fuel + 1, files, current, path =>
    match current with
    | none => some path
    | some cur =>
      if cur.isHomeFolder then some path
      else
        match cur.parentFolder with
        | some p => getFullPathAux fuel files (findById files (some p)) (cur.originalName :: path)
        | none => some (cur.originalName :: path)

/-- Method `fileSchema.methods.getFullPath`; `none` when the loop does not end. -/
def getFullPath (files : List FileDoc) (this : FileDoc) : Option String :=
  if this.isHomeFolder then some "/"
  else
    match getFullPathAux (files.length + 1) files (some this) [] with
    | some path => some ("/" ++ "/".intercalate path)
    | none => none

/-- A request to `router.get('/download/:id')` after the `auth` middleware. -/
structure DownloadReq where
  user : Nat
  id : Nat
  /-- Header `x-file-password`. -/
  password : Option String
  /-- Value of `new Date()`. -/
  now : Int
  deriving DecidableEq, Repr

/-- The answer of the download handler: status, message and the bytes sent. -/
structure DownloadResult where
  status : Nat
  message : String
  data : Option Buffer
  deriving DecidableEq, Repr

/-- The password test of the download handler: the file has a password and the
header is missing or different. -/
def secretDenied (file : FileDoc) (provided : Option String) : Bool :=
  truthy file.password && (!truthy provided || decide (provided ≠ file.password))

/-- Test `file.expiresAt && new Date() > file.expiresAt`. -/
def isExpired (file : FileDoc) (now : Int) : Bool :=
  match file.expiresAt with
  | some e => decide (now > e)
  | none => false

/-- Test `file.maxDownloads && file.downloadCount >= file.maxDownloads`. -/
def limitReached (file : FileDoc) : Bool :=
  match file.maxDownloads with
  | some m => decide (m ≠ 0) && decide ((file.downloadCount : Int) ≥ m)
  | none => false

/-- The download handler once password, expiry and limit have been checked:
the blob is looked up, decrypted, the count is saved and the bytes are sent.
The `res.setHeader` calls between `file.save()` and `res.send` are taken to
succeed, which they do for a name in latin1 without control characters. -/
def fetchAndDecrypt (c : Crypto) (s : State) (file : FileDoc) : State × DownloadResult :=
  let encryptedFilePath := storagePath file.encryptedName
  if !existsSync s.disk encryptedFilePath then (s, ⟨404, "File not found on disk", none⟩)
  else
    match decryptFile c s.disk encryptedFilePath (file.password.getD "") with
    | .error _ => (s, ⟨500, "Error downloading file", none⟩)
    | .ok decryptedData =>
      ({ s with files := s.files.map (fun d =>
          if d.id = file.id then { d with downloadCount := file.downloadCount + 1 } else d) },
        ⟨200, "", some decryptedData⟩)

/-- Handler `router.get('/download/:id')`. -/
def download (c : Crypto) (s : State) (req : DownloadReq) : State × DownloadResult :=
  match s.files.find? (fun d => decide (d.id = req.id) && decide (d.owner = req.user)) with
  | none => (s, ⟨404, "File not found", none⟩)
  | some file =>
    if file.isFolder then (s, ⟨400, "Cannot download a folder directly", none⟩)
    else if secretDenied file req.password then (s, ⟨401, "Invalid password", none⟩)
    else if isExpired file req.now then (s, ⟨400, "File has expired", none⟩)
    else if limitReached file then (s, ⟨400, "Download limit reached", none⟩)
    else fetchAndDecrypt c s file

/-- A run of download requests handled one after another, with their answers. -/
def downloads (c : Crypto) : State → List DownloadReq → State × List DownloadResult
  | s, [] => (s, [])
  | s, req :: rest =>
    let (s1, res) := download c s req
    let (s2, ress) := downloads c s1 rest
    (s2, res :: ress)

/-- An entry of the zip archive: its name and its content. -/
structure ArchiveEntry where
  name : String
  data : Buffer
  deriving DecidableEq, Repr

/-- The `archiver` package as far as the export uses it; like the cipher it
belongs to the runtime, not to this repository. -/
structure Archiver where
  /-- Call `archive.append(source, { name })`: the entry the archive holds for
  it, `none` when the call raises (it emits `error`, and the export has no
  listener attached while it appends). -/
  append : Buffer → String → Option ArchiveEntry

/-- The character class `[/\\]` of the name sanitiser. -/
def isSlash (ch : Char) : Bool := ch = '/' || ch = Char.ofNat 92

/-- Every run of slashes and backslashes becomes one `/`. -/
def collapseSlashes : Bool → List Char → List Char
  | _, [] => []
  | afterSlash, ch :: rest =>
    if isSlash ch then
      if afterSlash then collapseSlashes true rest else '/' :: collapseSlashes true rest
    else ch :: collapseSlashes false rest

/-- The character class `\w`. -/
def isWordChar (ch : Char) : Bool := ch.isAlphanum || ch = '_'

/-- A leading `word:` is cut. -/
def stripScheme (cs : List Char) : List Char :=
  match cs.takeWhile isWordChar, cs.dropWhile isWordChar with
  | _ :: _, ':' :: rest => rest
  | _, _ => cs

/-- Leading `../` and `/` are cut. -/
def stripLeading : List Char → List Char
  | '.' :: '.' :: '/' :: rest => stripLeading rest
  | '/' :: rest => stripLeading rest
  | cs => cs

/-- The name under which the stand-in archiver records an entry. -/
def sanitizePath (name : String) : String :=
  String.mk (stripLeading (stripScheme (collapseSlashes false name.toList)))

/-- A stand-in archiver used to run the export on concrete inputs. It treats
names the way `archiver` is documented to: slash runs are collapsed, a leading
`word:` and leading `../` and `/` are cut, and a name that ends up empty makes
`append` raise. -/
def zipArchiver : Archiver where
  append := fun source name =>
    if sanitizePath name = "" then none else some ⟨sanitizePath name, source⟩

/-- How a walk over the children of a folder ends: every entry was appended,
or an `archive.append` outside a `try` raised after some entries were queued. -/
inductive Walk where
  | done (entries : List ArchiveEntry)
  | raised (queued : List ArchiveEntry)
  deriving DecidableEq, Repr

/-- The `for (const file of files)` loop of `addFilesToArchive`, with the
recursive call passed in as `recurse`: the entries it appends, in order. The
`append` of a folder entry stands outside any `try`, so when it raises the walk
stops; the `append` of a file stands inside the `try` of the loop body, so when
it raises the file is skipped. -/
def archiveChildren (a : Archiver) (c : Crypto) (disk : Disk)
    (recurse : FileDoc → String → Option Walk) (currentPath : String) :
    List FileDoc → Option Walk
  | [] => some (.done [])
  | file :: rest =>
    let filePath :=
      if currentPath ≠ "" then currentPath ++ "/" ++ file.originalName else file.originalName
    if file.isFolder then
      match a.append [] (filePath ++ "/") with
      | none => some (.raised [])
      | some entry =>
        match recurse file filePath with
        | none => none
        | some (.raised queued) => some (.raised (entry :: queued))
        | some (.done below) =>
          match archiveChildren a c disk recurse currentPath rest with
          | none => none
          | some (.raised queued) => some (.raised (entry :: below ++ queued))
          | some (.done after) => some (.done (entry :: below ++ after))
    else
      let encryptedFilePath := storagePath file.encryptedName
      if !existsSync disk encryptedFilePath then
        archiveChildren a c disk recurse currentPath rest
      else
        match decryptFile c disk encryptedFilePath (file.password.getD "") with
        | .error _ => archiveChildren a c disk recurse currentPath rest
        | .ok decryptedData =>
          match a.append decryptedData filePath with
          | none => archiveChildren a c disk recurse currentPath rest
          | some entry =>
            match archiveChildren a c disk recurse currentPath rest with
            | none => none
            | some (.raised queued) => some (.raised (entry :: queued))
            | some (.done after) => some (.done (entry :: after))

/-- Function `addFilesToArchive(currentFolder, currentPath)` with a bound on the
recursion depth: the entries appended to the archive, in order. -/
def addFilesToArchiveAux (a : Archiver) (c : Crypto) (disk : Disk) (files : List FileDoc) :
    Nat → FileDoc → String → Option Walk
  | 0, _, _ => none
  | fuel + 1, currentFolder, currentPath =>
    archiveChildren a c disk (addFilesToArchiveAux a c disk files fuel) currentPath
      (findChildren files currentFolder.id)

/-- Call `addFilesToArchive(folder)` of the folder export. -/
def addFilesToArchive (a : Archiver) (c : Crypto) (disk : Disk) (files : List FileDoc)
    (folder : FileDoc) : Option Walk :=
  addFilesToArchiveAux a c disk files (files.length + 1) folder ""

/-- The outcome of the folder export. -/
inductive ExportResult where
  /-- Answer 404 `Folder not found`. -/
  | notFound
  /-- Answer 200 with the finalised archive holding these entries, in order. -/
  | archive (entries : List ArchiveEntry)
  /-- An `archive.append` raised after these entries were queued: the walk
  stops, `archive.finalize()` is not reached, and the `catch` block answers 500
  unless bytes of the archive were sent already. -/
  | aborted (queued : List ArchiveEntry)
  deriving DecidableEq, Repr

/-- Handler `router.get('/download-folder/:id')`; `none` when the walk over the
tree does not end. -/
def downloadFolder (a : Archiver) (c : Crypto) (s : State) (req : DeleteReq) :
    Option ExportResult :=
  match s.files.find? (fun d => decide (d.id = req.id) && decide (d.owner = req.user) &&
      d.isFolder) with
  | none => some .notFound
  | some folder =>
    match addFilesToArchive a c s.disk s.files folder with
    | none => none
    | some (.raised queued) => some (.aborted queued)
    | some (.done entries) => some (.archive entries)

/-- The bcrypt calls of `User.js`: `bcrypt.hash(password, salt)` and
`bcrypt.compare(candidate, hash)`. They belong to the bcryptjs package. -/
structure Bcrypt where
  hash : String → String → String
  compare : String → String → Bool

/-- A stand-in for bcrypt used to run the account handlers. -/
def toyBcrypt : Bcrypt where
  hash := fun password _salt => "h(" ++ password ++ ")"
  compare := fun candidate hashed => hashed = "h(" ++ candidate ++ ")"

/-- A request to `router.post('/register')`; a missing field is the empty string. -/
structure RegisterReq where
  name : String
  email : String
  password : String
  /-- Draw of `bcrypt.genSalt(10)`. -/
  salt : String
  deriving DecidableEq, Repr

/-- Handler `router.post('/register')`. -/
def register (b : Bcrypt) (s : State) (req : RegisterReq) : State × Response :=
  match s.users.find? (fun u => decide (u.email = req.email)) with
  | some _ => (s, ⟨400, "User already exists"⟩)
  | none =>
    if req.name = "" ∨ req.email = "" ∨ req.password = "" then
      (s, ⟨500, "Error registering user"⟩)
    else
      let user : UserDoc :=
        { id := s.nextId, name := req.name, email := req.email,
          password := b.hash req.password req.salt, storageLimit := 5368709120,
          storageUsed := 0, homeFolder := none }
      let homeFolder : FileDoc :=
        { id := s.nextId + 1
          originalName := req.name ++ "\x27s Home"
          encryptedName := req.name ++ "\x27s Home"
          mimeType := "folder"
          size := 0
          owner := user.id
          password := none
          maxDownloads := none
          downloadCount := 0
          expiresAt := none
          isFolder := true
          isHomeFolder := true
          parentFolder := none }
      ({ files := s.files ++ [homeFolder],
         users := s.users ++ [{ user with homeFolder := some homeFolder.id }],
         disk := s.disk, nextId := s.nextId + 2 }, ⟨201, ""⟩)

/-- Method `userSchema.methods.ensureHomeFolder` on the fetched document `this`. -/
def ensureHomeFolder (s : State) (this : UserDoc) : State × Option Nat :=
  match this.homeFolder with
  | some h => (s, some h)
  | none =>
    let homeFolder : FileDoc :=
      { id := s.nextId
        originalName := toString this.id
        encryptedName := toString this.id
        mimeType := "folder"
        size := 0
        owner := this.id
        password := none
        maxDownloads := none
        downloadCount := 0
        expiresAt := none
        isFolder := true
        isHomeFolder := true
        parentFolder := none }
    ({ s with files := s.files ++ [homeFolder],
              users := s.users.map (fun u =>
                if u.id = this.id then { u with homeFolder := some homeFolder.id } else u),
              nextId := s.nextId + 1 }, some homeFolder.id)

/-- A request to `router.post('/login')`. -/
structure LoginReq where
  email : String
  password : String
  deriving DecidableEq, Repr

/-- Handler `router.post('/login')`. -/
def login (b : Bcrypt) (s : State) (req : LoginReq) : State × Response :=
  match s.users.find? (fun u => decide (u.email = req.email)) with
  | none => (s, ⟨401, "Invalid credentials"⟩)
  | some user =>
    if !b.compare req.password user.password then (s, ⟨401, "Invalid credentials"⟩)
    else ((ensureHomeFolder s user).1, ⟨200, ""⟩)

/-- Handler `router.get('/storage-info')` for the user `userId`. -/
def storageInfo (s : State) (userId : Nat) : State × Response :=
  let userStorageUsed := calculateUserStorage s.files userId
  match s.users.find? (fun u => decide (u.id = userId)) with
  | none => (s, ⟨500, "Error getting storage info"⟩)
  | some user =>
    ({ s with users := s.users.map (fun u =>
        if u.id = user.id then { u with storageUsed := userStorageUsed } else u) }, ⟨200, ""⟩)


/-- The empty database. -/
def emptyState : State := { files := [], users := [], disk := [], nextId := 0 }

/-- The registration of `ann`. -/
def registerAnn : RegisterReq :=
  { name := "ann", email := "ann@example.org", password := "secret", salt := "salt" }

/-- The state after `ann` has registered: user 0 with the home folder 1. -/
def registeredState : State := (register toyBcrypt emptyState registerAnn).1

/-- The state after `ann` has registered and deleted node 1, her home folder. -/
def homeDeletedState : State := (deleteFile registeredState ⟨0, 1⟩).1

/-- The nodes of an owner that are marked as home folder. -/
def homeFoldersOf (files : List FileDoc) (owner : Nat) : List FileDoc :=
  files.filter (fun d => decide (d.owner = owner) && d.isHomeFolder)

/-- A stored download limit is never 0: upload stores `parseInt(maxDownloads) ||
null`, the other writers store `null`. -/
def LimitsNonZero (files : List FileDoc) : Prop :=
  ∀ d ∈ files, d.maxDownloads ≠ some 0

/-- The states the server can be in: starting from an empty database, any
sequence of handled requests, and any change of the files on disk (multer
stores uploads there before the upload handler runs). -/
inductive Reachable (c : Crypto) (b : Bcrypt) : State → Prop where
  | init (disk : Disk) (nextId : Nat) :
      Reachable c b { files := [], users := [], disk := disk, nextId := nextId }
  | disk {s : State} (d : Disk) : Reachable c b s → Reachable c b { s with disk := d }
  | register {s : State} (req : RegisterReq) :
      Reachable c b s → Reachable c b (register b s req).1
  | login {s : State} (req : LoginReq) : Reachable c b s → Reachable c b (login b s req).1
  | upload {s s1 : State} (req : UploadReq) (resp : Response) :
      Reachable c b s → upload c s req = some (s1, resp) → Reachable c b s1
  | createFolder {s : State} (req : CreateFolderReq) :
      Reachable c b s → Reachable c b (createFolder s req).1
  | rename {s : State} (req : RenameReq) : Reachable c b s → Reachable c b (rename s req).1
  | deleteFile {s : State} (req : DeleteReq) :
      Reachable c b s → Reachable c b (deleteFile s req).1
  | download {s : State} (req : DownloadReq) :
      Reachable c b s → Reachable c b (download c s req).1
  | storageInfo {s : State} (userId : Nat) :
      Reachable c b s → Reachable c b (storageInfo s userId).1

/-- The number of requests of a run that ask for node `id` and are answered 200
with the file. -/
def servedCount (id : Nat) : List DownloadReq → List DownloadResult → Nat
  | req :: reqs, res :: ress =>
    (if req.id = id ∧ res.status = 200 then 1 else 0) + servedCount id reqs ress
  | _, _ => 0

/-- The upload of the 3-byte `once.txt` by user 0 at time 1000, with
`maxDownloads` 1 and `expiresIn` 7. -/
def limitedUpload : UploadReq :=
  { user := 0, file := some ⟨"once.txt", "text/plain", 3, "tmp/up"⟩, folderId := none,
    maxDownloads := some "1", expiresIn := some "7", password := none, now := 1000,
    encryptedFilename := "0_00once.txt", salt := List.replicate 16 1,
    iv := List.replicate 16 2 }

/-- The state after `ann` has registered and uploaded `once.txt` (node 2). -/
def limitedState : State :=
  ((upload toyCrypto { registeredState with disk := [("tmp/up", [7, 8, 9])] }
    limitedUpload).map (fun x => x.1)).getD emptyState

/-- The node `d` is not a home folder and its `parentFolder` chain reaches a home
folder; `names` are the names of the nodes on the way, from the child of the
home folder down to `d` itself. -/
inductive PathFromHome (files : List FileDoc) : FileDoc → List String → Prop where
  | child {d home : FileDoc} : d.isHomeFolder = false →
      findById files d.parentFolder = some home → home.isHomeFolder = true →
      PathFromHome files d [d.originalName]
  | step {d q : FileDoc} {names : List String} : d.isHomeFolder = false →
      findById files d.parentFolder = some q → PathFromHome files q names →
      PathFromHome files d (names ++ [d.originalName])

/-- The node `d` is a proper descendant of the node with id `root`, and `path`
is its root-relative path: the names of the nodes from the child of `root` down
to `d` itself, joined with `/`. -/
inductive PathBelow (files : List FileDoc) (root : Nat) : FileDoc → String → Prop where
  | child {d : FileDoc} : d ∈ files → d.parentFolder = some root →
      PathBelow files root d d.originalName
  | step {d q : FileDoc} {path : String} : d ∈ files → q ∈ files →
      d.parentFolder = some q.id → PathBelow files root q path →
      PathBelow files root d (path ++ "/" ++ d.originalName)

/-- The node `f` is the node `root` or one of its proper descendants. -/
def InSubtree (files : List FileDoc) (root : Nat) (f : FileDoc) : Prop :=
  f.id = root ∨ ∃ path, PathBelow files root f path

/-- The ranking `r` grows along every edge that ends in the subtree of `root`,
and stays below the number of nodes: the subtree is finite and has no cycle. -/
def RankedBelow (r : Nat → Nat) (files : List FileDoc) (root : Nat) : Prop :=
  ∀ d ∈ files, ∀ q ∈ files, d.parentFolder = some q.id → InSubtree files root q →
    r q.id < r d.id ∧ r d.id < files.length

/-- The archive entry of the export for the node `d` at the path `path`: an
empty entry named `path/` for a folder, the decrypted bytes named `path` for a file. -/
def EntryFor (c : Crypto) (disk : Disk) (d : FileDoc) (path : String) (e : ArchiveEntry) :
    Prop :=
  if d.isFolder then e = ⟨path ++ "/", []⟩
  else decryptFile c disk (storagePath d.encryptedName) (d.password.getD "") = .ok e.data ∧
    e.name = path

/-- The path the export gives to a node whose path below `currentFolder` is
`path`: `currentPath ? currentPath/path : path`. -/
def joinPath (currentPath path : String) : String :=
  if currentPath ≠ "" then currentPath ++ "/" ++ path else path

/-- The archiver records the entry of the node `d` at the path `path` as the
export appends it: `path/` with no content for a folder, `path` with the
decrypted bytes for a file. -/
def EntryKept (a : Archiver) (c : Crypto) (disk : Disk) (d : FileDoc) (path : String) : Prop :=
  if d.isFolder then a.append [] (path ++ "/") = some ⟨path ++ "/", []⟩
  else ∀ data, decryptFile c disk (storagePath d.encryptedName) (d.password.getD "") = .ok data →
    a.append data path = some ⟨path, data⟩

/-- What the export needs of the subtree of `root`: unique ids, no cycle (with
the depth ranking `r`), only folders have children, no node has an empty name,
the blob of every file exists and decrypts, and the archiver records the entry
of every node under its root-relative path as it is appended. -/
structure ExportReady (a : Archiver) (c : Crypto) (disk : Disk) (files : List FileDoc)
    (root : Nat) (r : Nat → Nat) : Prop where
  ids : (files.map (fun d => d.id)).Nodup
  ranked : RankedBelow r files root
  leaves : ∀ q p, PathBelow files root q p → ∀ d ∈ files, d.parentFolder = some q.id →
    q.isFolder = true
  names : ∀ d p, PathBelow files root d p → d.originalName ≠ ""
  blobs : ∀ d p, PathBelow files root d p → d.isFolder = false →
    existsSync disk (storagePath d.encryptedName) = true ∧
    ∃ data, decryptFile c disk (storagePath d.encryptedName) (d.password.getD "") = .ok data
  kept : ∀ d p, PathBelow files root d p → EntryKept a c disk d p

/-- The tree of the export example: folders `A` (node 1) and `A/B` (node 3),
files `A/x` (node 2, 10 bytes) and `A/B/y` (node 4, 20 bytes), all of user 7, with
the two blobs stored under the deployment key. -/
def exportState : State :=
  { files := [mkFolder 1 "A" 7 none 30 false, mkFile 2 "x" 7 (some 1) 10,
      mkFolder 3 "B" 7 (some 1) 20 false, mkFile 4 "y" 7 (some 3) 20],
    users := [mkUser 30 100],
    disk := [(storagePath "0_00x",
        envelope toyCrypto (List.replicate 10 1) "" (List.replicate 16 1) (List.replicate 16 2)),
      (storagePath "0_00y",
        envelope toyCrypto (List.replicate 20 2) "" (List.replicate 16 3) (List.replicate 16 4))],
    nextId := 5 }

/-- A tree in which the home folder of user 7 (node 1) holds a folder named
`..` (node 2) and a file named `c:x.txt` (node 3) with its blob. -/
def dotNamesState : State :=
  { files := [mkFolder 1 "home" 7 none 10 true, mkFolder 2 ".." 7 (some 1) 0 false,
      mkFile 3 "c:x.txt" 7 (some 1) 10],
    users := [mkUser 10 100],
    disk := [(storagePath "0_00c:x.txt",
      envelope toyCrypto [1] "" (List.replicate 16 0) (List.replicate 16 0))],
    nextId := 4 }

/-! ## Theorems: envelope codec -/

theorem extractComponents_concat (salt iv tag data : Buffer)
    (hs : salt.length = SALT_LENGTH) (hi : iv.length = IV_LENGTH) (ht : tag.length = TAG_LENGTH) :
    extractComponents (salt ++ iv ++ tag ++ data) = (salt, iv, tag, data) := by
  simp only [SALT_LENGTH, IV_LENGTH, TAG_LENGTH] at hs hi ht
  simp [extractComponents, slice, sliceFrom, SALT_LENGTH, IV_LENGTH, TAG_LENGTH,
    List.take_append_eq_append_take, List.drop_append_eq_append_drop, hs, hi, ht,
    List.take_of_length_le, List.drop_of_length_le]

theorem deriveKey_length (c : Crypto) (password : String) (salt : Buffer) :
    (deriveKey c password salt).length = 32 := by
  simp [deriveKey, c.scrypt_length]

theorem readFile_writeFile (d : Disk) (path : String) (data : Buffer) :
    readFile (writeFile d path data) path = .ok data := by
  simp [readFile, writeFile, List.lookup]

theorem extract_envelope (c : Crypto) (p : Buffer) (k : String) (salt iv : Buffer)
    (hs : salt.length = SALT_LENGTH) (hi : iv.length = IV_LENGTH) :
    extractComponents (envelope c p k salt iv) =
      (salt, iv, (c.gcmEncrypt (deriveKey c k salt) iv p).2,
        (c.gcmEncrypt (deriveKey c k salt) iv p).1) := by
  unfold envelope
  exact extractComponents_concat salt iv _ _ hs hi
    (c.tag_length _ iv p (deriveKey_length c k salt))

/-- The bytes the decipher is run on when `decryptFile` is given the envelope of
`encryptFile(p, k1)` and the passphrase `k2`. -/
theorem decryptBuffer_envelope (c : Crypto) (p : Buffer) (k1 k2 : String) (salt iv : Buffer)
    (hs : salt.length = SALT_LENGTH) (hi : iv.length = IV_LENGTH) :
    decryptBuffer c (envelope c p k1 salt iv) k2 =
      match c.gcmDecrypt (deriveKey c k2 salt) iv (c.gcmEncrypt (deriveKey c k1 salt) iv p).2
          (c.gcmEncrypt (deriveKey c k1 salt) iv p).1 with
      | some decryptedData => .ok decryptedData
      | none => .error .decipherFailed := by
  unfold decryptBuffer
  rw [extract_envelope c p k1 salt iv hs hi]

/-- C1. Round trip: for every plaintext `p`, every passphrase `k` (the empty one
included, where both sides use the deployment key) and every 16-byte salt and iv
that `encryptFile` may draw, `encryptFile` writes an envelope and `decryptFile`
with `k` on that envelope returns exactly `p`. -/
theorem encrypt_decrypt_roundtrip (c : Crypto) (d : Disk) (inputPath outputPath k : String)
    (p salt iv : Buffer) (hs : salt.length = SALT_LENGTH) (hi : iv.length = IV_LENGTH)
    (hread : readFile d inputPath = .ok p) :
    ∃ d1, encryptFile c d inputPath outputPath k salt iv = .ok (d1, true) ∧
      decryptFile c d1 outputPath k = .ok p := by
  refine ⟨writeFile d outputPath (envelope c p k salt iv), ?_, ?_⟩
  · simp [encryptFile, hread]
  · simp only [decryptFile, readFile_writeFile]
    rw [decryptBuffer_envelope c p k k salt iv hs hi,
      c.gcm_open_seal _ iv p (deriveKey_length c k salt)]

theorem encrypt_decrypt_roundtrip_witness :
    ∃ d1, encryptFile toyCrypto [("tmp/a", [104, 105])] "tmp/a" "uploads/b" ""
        (List.replicate 16 7) (List.replicate 16 9) = .ok (d1, true) ∧
      decryptFile toyCrypto d1 "uploads/b" "" = .ok [104, 105] :=
  encrypt_decrypt_roundtrip toyCrypto [("tmp/a", [104, 105])] "tmp/a" "uploads/b" ""
    [104, 105] (List.replicate 16 7) (List.replicate 16 9) (by decide) (by decide) (by rfl)

/-- C2, as stated, fails: the empty passphrase and the deployment key are two
different passphrases, yet for every cipher the envelope written under the
empty passphrase decrypts under the deployment key to the plaintext `[1, 2, 3]`. -/
theorem wrong_passphrase_accepted :
    (∀ c : Crypto, ("" : String) ≠ ENCRYPTION_KEY c) ∧
    (∀ c : Crypto, ∃ d1,
      encryptFile c [("tmp/a", [1, 2, 3])] "tmp/a" "uploads/b" ""
        (List.replicate 16 0) (List.replicate 16 0) = .ok (d1, true) ∧
      decryptFile c d1 "uploads/b" (ENCRYPTION_KEY c) = .ok [1, 2, 3]) := by
  have hne : ∀ c : Crypto, ("" : String) ≠ ENCRYPTION_KEY c := by
    intro c
    unfold ENCRYPTION_KEY
    split
    · split
      · decide
      · rename_i h
        exact fun e => h e.symm
    · decide
  refine ⟨hne, fun c => ?_⟩
  refine ⟨writeFile [("tmp/a", [1, 2, 3])] "uploads/b"
    (envelope c [1, 2, 3] "" (List.replicate 16 0) (List.replicate 16 0)), ?_, ?_⟩
  · simp [encryptFile, readFile, List.lookup]
  · simp only [decryptFile, readFile_writeFile]
    rw [decryptBuffer_envelope c _ _ _ _ _ (by decide) (by decide)]
    have hk : deriveKey c (ENCRYPTION_KEY c) (List.replicate 16 0) =
        deriveKey c "" (List.replicate 16 0) := by
      simp only [deriveKey]
      rw [if_neg (fun e => hne c e.symm)]
      simp
    rw [hk, c.gcm_open_seal _ _ _ (deriveKey_length c "" _)]

theorem char_toNat_inj {a b : Char} (h : a.toNat = b.toNat) : a = b := by
  apply Char.ext
  cases a with | mk va ha => cases b with | mk vb hb =>
  simp only [Char.toNat] at h
  cases va with | mk fa => cases vb with | mk fb =>
  simp only [UInt32.toNat] at h
  simp only
  congr 1
  exact BitVec.eq_of_toNat_eq h

theorem codeCrypto_authenticated : Authenticated codeCrypto where
  scrypt_injective := by
    intro pw1 pw2 salt hne h
    apply hne
    have h0 : Encodable.encode (pw1.toList.map Char.toNat) =
        Encodable.encode (pw2.toList.map Char.toNat) := by
      have := congrArg List.head? h
      simpa [codeCrypto, codeScrypt] using this
    exact String.ext (List.map_injective_iff.mpr (fun a b => char_toNat_inj)
      (Encodable.encode_injective h0))
  gcm_rejects := by
    intro key1 key2 iv p _ _ hne
    have h0 : Encodable.encode key1 ≠ Encodable.encode key2 :=
      fun e => hne (Encodable.encode_injective e)
    simp [codeCrypto, codeEncrypt, codeDecrypt, h0]

/-- C2, amended: with a key derivation that tells passwords apart and a decipher
that rejects what was sealed under another key, `decryptFile` with `k2` on the
envelope that `encryptFile(p, k1)` wrote throws whenever the effective
passphrases differ, where the effective passphrase of `k` is `k` itself, or the
deployment key `ENCRYPTION_KEY` when `k` is empty; and it returns `p` whenever
they are equal. -/
theorem decrypt_other_passphrase (c : Crypto) (hc : Authenticated c) (d : Disk)
    (inputPath outputPath k1 k2 : String)
    (p salt iv : Buffer) (hs : salt.length = SALT_LENGTH) (hi : iv.length = IV_LENGTH)
    (hread : readFile d inputPath = .ok p) :
    ∃ d1, encryptFile c d inputPath outputPath k1 salt iv = .ok (d1, true) ∧
      ((if k1 = "" then ENCRYPTION_KEY c else k1) ≠ (if k2 = "" then ENCRYPTION_KEY c else k2) →
        decryptFile c d1 outputPath k2 = .error .decipherFailed) ∧
      ((if k1 = "" then ENCRYPTION_KEY c else k1) = (if k2 = "" then ENCRYPTION_KEY c else k2) →
        decryptFile c d1 outputPath k2 = .ok p) := by
  refine ⟨writeFile d outputPath (envelope c p k1 salt iv), ?_, ?_, ?_⟩
  · simp [encryptFile, hread]
  · intro hne
    simp only [decryptFile, readFile_writeFile]
    rw [decryptBuffer_envelope c p k1 k2 salt iv hs hi,
      hc.gcm_rejects _ _ iv p (deriveKey_length c k1 salt) (deriveKey_length c k2 salt)
        (fun e => hc.scrypt_injective _ _ salt hne e)]
  · intro heq
    have hk : deriveKey c k2 salt = deriveKey c k1 salt := by
      simp only [deriveKey, heq]
    simp only [decryptFile, readFile_writeFile]
    rw [decryptBuffer_envelope c p k1 k2 salt iv hs hi, hk,
      c.gcm_open_seal _ iv p (deriveKey_length c k1 salt)]

theorem decrypt_other_passphrase_witness :
    ∃ d1, encryptFile codeCrypto [("tmp/a", [104, 105])] "tmp/a" "uploads/b" "alpha"
        (List.replicate 16 7) (List.replicate 16 9) = .ok (d1, true) ∧
      decryptFile codeCrypto d1 "uploads/b" "beta" = .error .decipherFailed :=
  match decrypt_other_passphrase codeCrypto codeCrypto_authenticated [("tmp/a", [104, 105])]
      "tmp/a" "uploads/b" "alpha" "beta" [104, 105] (List.replicate 16 7) (List.replicate 16 9)
      (by decide) (by decide) (by rfl) with
  | ⟨d1, h1, h2, _⟩ => ⟨d1, h1, h2 (by decide)⟩

/-- C3. Layout: the envelope `encryptFile` writes is
`salt || iv || authTag || ciphertext` with salt, iv and authTag 16 bytes each, so
its length is 48 plus the ciphertext length; and `decryptFile`, for every
passphrase `k2`, runs the decipher on the slices of that envelope at offsets 0,
16, 32 and 48 (the key is derived from the first slice), which are that salt,
iv, authTag and ciphertext again, and returns what the decipher returns. -/
theorem envelope_layout (c : Crypto) (d : Disk) (inputPath outputPath k : String)
    (p salt iv : Buffer) (hs : salt.length = SALT_LENGTH) (hi : iv.length = IV_LENGTH)
    (hread : readFile d inputPath = .ok p) :
    ∃ d1 env authTag ciphertext,
      (ciphertext, authTag) = c.gcmEncrypt (deriveKey c k salt) iv p ∧
      encryptFile c d inputPath outputPath k salt iv = .ok (d1, true) ∧
      readFile d1 outputPath = .ok env ∧
      env = salt ++ iv ++ authTag ++ ciphertext ∧
      salt.length = 16 ∧ iv.length = 16 ∧ authTag.length = 16 ∧
      env.length = 48 + ciphertext.length ∧
      slice env 0 16 = salt ∧ slice env 16 32 = iv ∧ slice env 32 48 = authTag ∧
      sliceFrom env 48 = ciphertext ∧
      extractComponents env = (salt, iv, authTag, ciphertext) ∧
      (∀ k2 : String, decryptFile c d1 outputPath k2 =
        match c.gcmDecrypt
            (c.scrypt (if k2 = "" then ENCRYPTION_KEY c else k2) (slice env 0 16) 32)
            (slice env 16 32) (slice env 32 48) (sliceFrom env 48) with
        | some decryptedData => .ok decryptedData
        | none => .error .decipherFailed) := by
  have ht := c.tag_length _ iv p (deriveKey_length c k salt)
  have hx := extract_envelope c p k salt iv hs hi
  refine ⟨writeFile d outputPath (envelope c p k salt iv), envelope c p k salt iv,
    (c.gcmEncrypt (deriveKey c k salt) iv p).2, (c.gcmEncrypt (deriveKey c k salt) iv p).1,
    rfl, ?_, readFile_writeFile _ _ _, rfl, hs, hi, ht, ?_, ?_⟩
  · simp [encryptFile, hread]
  · simp only [SALT_LENGTH, IV_LENGTH] at hs hi
    simp only [envelope, List.length_append, hs, hi, ht]
  · simp only [extractComponents, SALT_LENGTH, IV_LENGTH, TAG_LENGTH, Prod.mk.injEq] at hx
    obtain ⟨h1, h2, h3, h4⟩ := hx
    refine ⟨h1, h2, h3, h4, ?_, ?_⟩
    · simp only [extractComponents, SALT_LENGTH, IV_LENGTH, TAG_LENGTH, h1, h2, h3, h4]
    · intro k2
      simp only [decryptFile, readFile_writeFile]
      rfl

theorem envelope_layout_witness :
    ∃ d1 env authTag ciphertext,
      (ciphertext, authTag) = toyCrypto.gcmEncrypt
        (deriveKey toyCrypto "pw" (List.replicate 16 7)) (List.replicate 16 9) [104, 105] ∧
      encryptFile toyCrypto [("tmp/a", [104, 105])] "tmp/a" "uploads/b" "pw"
        (List.replicate 16 7) (List.replicate 16 9) = .ok (d1, true) ∧
      readFile d1 "uploads/b" = .ok env ∧
      env = List.replicate 16 7 ++ List.replicate 16 9 ++ authTag ++ ciphertext ∧
      (List.replicate 16 7 : Buffer).length = 16 ∧ (List.replicate 16 9 : Buffer).length = 16 ∧
      authTag.length = 16 ∧
      env.length = 48 + ciphertext.length ∧
      slice env 0 16 = List.replicate 16 7 ∧ slice env 16 32 = List.replicate 16 9 ∧
      slice env 32 48 = authTag ∧
      sliceFrom env 48 = ciphertext ∧
      extractComponents env = (List.replicate 16 7, List.replicate 16 9, authTag, ciphertext) ∧
      (∀ k2 : String, decryptFile toyCrypto d1 "uploads/b" k2 =
        match toyCrypto.gcmDecrypt
            (toyCrypto.scrypt (if k2 = "" then ENCRYPTION_KEY toyCrypto else k2)
              (slice env 0 16) 32)
            (slice env 16 32) (slice env 32 48) (sliceFrom env 48) with
        | some decryptedData => .ok decryptedData
        | none => .error .decipherFailed) :=
  envelope_layout toyCrypto [("tmp/a", [104, 105])] "tmp/a" "uploads/b" "pw"
    [104, 105] (List.replicate 16 7) (List.replicate 16 9) (by decide) (by decide) (by rfl)

/-- The read side of the layout, evaluated on 50 stored bytes: the bytes `0` to
`31`, then the 16 bytes the stand-in decipher expects as tag for the key derived
from `pw` and the bytes at offsets 0 to 15, then `48, 49`. `decryptFile` accepts
the tag it finds at offset 32 and returns the bytes from offset 48 on, which the
stand-in decipher reverses. -/
theorem decrypt_reads_offsets :
    decryptFile toyCrypto
      [("uploads/b", List.range 32 ++ (toyScrypt "pw" (List.range 16) 16 ++ [48, 49]))]
      "uploads/b" "pw" = .ok [49, 48] := by
  rfl

/-! ## Theorems: quota guard -/

/-- C4, as stated, fails: with limit 100 and 60 bytes used, an upload of 50 bytes
that names a folder which does not exist exceeds the quota, and is answered
`Invalid parent folder`, not `Storage quota exceeded`. -/
theorem quota_exceeded_other_answer :
    (mkUser 60 100).storageUsed + 50 > (mkUser 60 100).storageLimit ∧
    upload toyCrypto quotaState (mkUpload "more.bin" 50 (some 99)) =
      some (quotaState, ⟨400, "Invalid parent folder"⟩) := by
  decide

/-- C4, amended: for every upload that carries a stored file, whose parent folder
(the requested one, else the home folder) is a folder of the caller or absent,
and whose caller has a quota record `(storageUsed, storageLimit)`: the handler
answers `Storage quota exceeded` exactly when `storageUsed + s > storageLimit`,
and that answer leaves every node record, every folder size, every quota
record and the id counter as they were. -/
theorem upload_quota_guard (c : Crypto) (s : State) (req : UploadReq) (file : UploadedFile)
    (user : UserDoc) (hfile : req.file = some file)
    (hparent : ∀ pid, resolveParent s.files req.user req.folderId = some pid →
      (findOwnedFolder s.files req.user pid).isSome = true)
    (huser : s.users.find? (fun u => decide (u.id = req.user)) = some user)
    (htmp : existsSync s.disk file.path = true) :
    (user.storageUsed + file.size > user.storageLimit →
      ∃ disk1, upload c s req =
        some ({ s with disk := disk1 }, ⟨400, "Storage quota exceeded"⟩)) ∧
    (¬ user.storageUsed + file.size > user.storageLimit →
      ∀ s1 resp, upload c s req = some (s1, resp) →
        resp.message ≠ "Storage quota exceeded") := by
  have hpm : (match resolveParent s.files req.user req.folderId with
      | some pid => (findOwnedFolder s.files req.user pid).isNone
      | none => false) = false := by
    cases hr : resolveParent s.files req.user req.folderId with
    | none => rfl
    | some pid =>
      have := hparent pid hr
      cases hf : findOwnedFolder s.files req.user pid with
      | none => simp [hf] at this
      | some _ => simp [hf]
  constructor
  · intro hq
    refine ⟨s.disk.filter (fun e => e.1 ≠ file.path), ?_⟩
    simp only [upload, hfile, hpm, huser, hq, unlink, htmp]
    simp
  · intro hq s1 resp h
    simp only [upload, hfile, hpm, huser, hq] at h
    simp only [Bool.false_eq_true, if_false] at h
    revert h
    simp only [uploadCatch]
    repeat' split
    all_goals
      intro h
      simp only [Option.some.injEq, Prod.mk.injEq, reduceCtorEq] at h
      try (obtain ⟨-, rfl⟩ := h; decide)

/-- The example of the specification: limit 100, 60 bytes used, an upload of 50
bytes into the home folder is denied and `storageUsed` stays 60. -/
theorem upload_quota_guard_witness :
    ((mkUser 60 100).storageUsed + 50 > (mkUser 60 100).storageLimit →
      ∃ disk1, upload toyCrypto quotaState (mkUpload "more.bin" 50 none) =
        some ({ quotaState with disk := disk1 }, ⟨400, "Storage quota exceeded"⟩)) ∧
    (¬ (mkUser 60 100).storageUsed + 50 > (mkUser 60 100).storageLimit →
      ∀ s1 resp, upload toyCrypto quotaState (mkUpload "more.bin" 50 none) = some (s1, resp) →
        resp.message ≠ "Storage quota exceeded") :=
  upload_quota_guard toyCrypto quotaState (mkUpload "more.bin" 50 none)
    ⟨"more.bin", "text/plain", 50, "tmp/up"⟩ (mkUser 60 100) rfl (by decide) (by decide)
    (by decide)

/-! ## Theorems: the delete handler -/

/-- C6 at its failing input: the fresh account uploads the 5-byte `a.txt`
(`storageUsed` becomes 5, equal to the bytes of its files) and deletes it again;
the delete handler leaves `storageUsed` at 5 while the files of the user now
sum to 0. -/
theorem delete_keeps_storageUsed :
    afterUpload.map (fun s => (storageUsedOf s.users 7, calculateUserStorage s.files 7)) =
      some (some 5, 5) ∧
    afterUploadDelete.map (fun s => (storageUsedOf s.users 7, calculateUserStorage s.files 7)) =
      some (some 5, 0) := by
  decide

/-- C7 at its failing input: after the same upload and deletion the home folder
(node 1) has no child left, yet its stored size is still 5. -/
theorem delete_keeps_folder_size :
    afterUpload.map (fun s => (sizeOf s.files 1, childSum s.files 1)) = some (some 5, 5) ∧
    afterUploadDelete.map (fun s => (sizeOf s.files 1, findChildren s.files 1, childSum s.files 1)) =
      some (some 5, [], 0) := by
  decide

/-- C9 at its failing input: deleting the folder `docs` (node 2) of the tree
`home / docs / (a.txt, nested / b.txt)` removes `docs`, `a.txt` and `nested`, and
leaves the grandchild `b.txt` (node 5) in the collection. -/
theorem delete_leaves_grandchild :
    (deleteFile nestedState ⟨7, 2⟩).2 = ⟨200, "File deleted successfully"⟩ ∧
    (deleteFile nestedState ⟨7, 2⟩).1.files =
      [mkFolder 1 "home" 7 none 12 true, mkFile 5 "b.txt" 7 (some 4) 7] ∧
    findById (deleteFile nestedState ⟨7, 2⟩).1.files (some 5) =
      some (mkFile 5 "b.txt" 7 (some 4) 7) := by
  decide

/-! ## Theorems: shape of the collection -/

theorem eraseSize_saveSize (files : List FileDoc) (id v : Nat) :
    SameShape (saveSize files id v) files := by
  simp only [SameShape, saveSize, List.map_map]
  apply List.map_congr_left
  intro d _
  simp only [Function.comp, eraseSize]
  split <;> rfl

theorem SameShape.trans {a b c : List FileDoc} (h1 : SameShape a b) (h2 : SameShape b c) :
    SameShape a c := Eq.trans h1 h2

theorem sumChildren_shape (recurse : List FileDoc → FileDoc → Option (Nat × List FileDoc))
    (hrec : ∀ f c r, recurse f c = some r → SameShape r.2 f) :
    ∀ (children : List FileDoc) (total : Nat) (files : List FileDoc) (out : Nat × List FileDoc),
      sumChildren recurse children total files = some out → SameShape out.2 files := by
  intro children
  induction children with
  | nil =>
    intro total files out h
    simp only [sumChildren, Option.some.injEq] at h
    subst h
    rfl
  | cons ch rest ih =>
    intro total files out h
    simp only [sumChildren] at h
    split at h
    · split at h
      · exact absurd h (by simp)
      · rename_i sz files1 hr
        exact (ih _ _ _ h).trans (hrec _ _ _ hr)
    · exact ih _ _ _ h

theorem calculateFolderSizeAux_shape :
    ∀ (fuel : Nat) (files : List FileDoc) (this : FileDoc) (r : Nat × List FileDoc),
      calculateFolderSizeAux fuel files this = some r → SameShape r.2 files := by
  intro fuel
  induction fuel with
  | zero =>
    intro files this r h
    simp [calculateFolderSizeAux] at h
  | succ n ih =>
    intro files this r h
    simp only [calculateFolderSizeAux] at h
    split at h
    · simp only [Option.some.injEq] at h
      subst h
      rfl
    · split at h
      · exact absurd h (by simp)
      · rename_i total files1 hs
        simp only [Option.some.injEq] at h
        subst h
        exact (eraseSize_saveSize _ _ _).trans
          (sumChildren_shape _ (fun f c r hr => ih f c r hr) _ _ _ _ hs)

theorem updateFolderSizesAux_shape :
    ∀ (fuel : Nat) (files : List FileDoc) (x : Option Nat) (out : List FileDoc),
      updateFolderSizesAux fuel files x = some out → SameShape out files := by
  intro fuel
  induction fuel with
  | zero =>
    intro files x out h
    simp [updateFolderSizesAux] at h
  | succ n ih =>
    intro files x out h
    simp only [updateFolderSizesAux] at h
    split at h
    · simp only [Option.some.injEq] at h
      subst h
      rfl
    · split at h
      · exact absurd h (by simp)
      · rename_i v files1 hc
        exact (ih _ _ _ h).trans (calculateFolderSizeAux_shape _ _ _ _ hc)

theorem SameShape.mem {a b : List FileDoc} (h : SameShape a b) {d : FileDoc} (hd : d ∈ a) :
    ∃ e ∈ b, eraseSize e = eraseSize d := by
  have : eraseSize d ∈ b.map eraseSize := h ▸ List.mem_map_of_mem eraseSize hd
  obtain ⟨e, he, hee⟩ := List.mem_map.mp this
  exact ⟨e, he, hee⟩

theorem eraseSize_fields {d e : FileDoc} (h : eraseSize e = eraseSize d) :
    e.id = d.id ∧ e.originalName = d.originalName ∧ e.owner = d.owner ∧
    e.isFolder = d.isFolder ∧ e.parentFolder = d.parentFolder ∧
    e.isHomeFolder = d.isHomeFolder := by
  cases d; cases e
  simp only [eraseSize, FileDoc.mk.injEq] at h
  simp [h]

theorem siblingFoldersUnique_of_shape {a b : List FileDoc} (h : SameShape a b)
    (hb : SiblingFoldersUnique b) : SiblingFoldersUnique a := by
  intro x hx y hy fx fy ho hp hn
  obtain ⟨x1, hx1, ex⟩ := h.mem hx
  obtain ⟨y1, hy1, ey⟩ := h.mem hy
  have fx1 := eraseSize_fields ex
  have fy1 := eraseSize_fields ey
  have := hb x1 hx1 y1 hy1 (by rw [fx1.2.2.2.1]; exact fx) (by rw [fy1.2.2.2.1]; exact fy)
    (by rw [fx1.2.2.1, fy1.2.2.1]; exact ho)
    (by rw [fx1.2.2.2.2.1, fy1.2.2.2.2.1]; exact hp)
    (by rw [fx1.2.1, fy1.2.1]; exact hn)
  rw [← fx1.1, ← fy1.1]
  exact this

/-! ## Theorems: what one upload does to the database -/

/-- Every answer of the upload handler is of one of two kinds: a refusal or
failure that leaves the database as it was, or a 201 that appends the new file
document, commits its size to the quota record and only changes folder sizes. -/
theorem upload_cases (c : Crypto) (s : State) (req : UploadReq) (s1 : State) (resp : Response)
    (h : upload c s req = some (s1, resp)) :
    (resp.status ≠ 201 ∧ s1.files = s.files ∧ s1.users = s.users ∧ s1.nextId = s.nextId) ∨
    (∃ file user, req.file = some file ∧
      s.users.find? (fun u => decide (u.id = req.user)) = some user ∧
      user.storageUsed + file.size ≤ user.storageLimit ∧
      resp = ⟨201, "File uploaded successfully"⟩ ∧
      SameShape s1.files
        (s.files ++ [newFileDoc s req file (resolveParent s.files req.user req.folderId)]) ∧
      s1.users = (updateStorageUsed s.users user file.size).2 ∧
      s1.nextId = s.nextId + 1 ∧
      (∀ pid, resolveParent s.files req.user req.folderId = some pid →
        ∃ q ∈ s.files, q.id = pid ∧ q.owner = req.user ∧ q.isFolder = true) ∧
      (resolveParent s.files req.user req.folderId = none →
        s1.files =
          s.files ++ [newFileDoc s req file (resolveParent s.files req.user req.folderId)]) ∧
      (∀ pid, resolveParent s.files req.user req.folderId = some pid →
        updateFolderSizes
          (s.files ++ [newFileDoc s req file (resolveParent s.files req.user req.folderId)])
          pid = some s1.files)) := by
  have hfound : ∀ pid, (findOwnedFolder s.files req.user pid).isNone ≠ true →
      ∃ q ∈ s.files, q.id = pid ∧ q.owner = req.user ∧ q.isFolder = true := by
    intro pid hne
    cases hf : findOwnedFolder s.files req.user pid with
    | none => simp [hf] at hne
    | some q =>
      have h1 := List.find?_some hf
      simp only [Bool.and_eq_true, decide_eq_true_eq] at h1
      exact ⟨q, List.mem_of_find?_eq_some hf, h1.1.1, h1.1.2, h1.2⟩
  unfold upload at h
  split at h
  · simp only [Option.some.injEq, Prod.mk.injEq] at h
    obtain ⟨rfl, rfl⟩ := h
    left; simp
  · rename_i file hfile
    simp only at h
    split at h
    · simp only [Option.some.injEq, Prod.mk.injEq] at h
      obtain ⟨rfl, rfl⟩ := h
      left; simp
    · rename_i hpm
      have hpar : ∀ pid, resolveParent s.files req.user req.folderId = some pid →
          ∃ q ∈ s.files, q.id = pid ∧ q.owner = req.user ∧ q.isFolder = true := by
        intro pid hp
        rw [hp] at hpm
        exact hfound pid hpm
      split at h
      · simp only [uploadCatch, Option.some.injEq] at h
        split at h <;>
        · simp only [Prod.mk.injEq] at h
          obtain ⟨rfl, rfl⟩ := h
          left; simp
      · rename_i user huser
        split at h
        · split at h
          · simp only [uploadCatch, Option.some.injEq] at h
            split at h <;>
            · simp only [Prod.mk.injEq] at h
              obtain ⟨rfl, rfl⟩ := h
              left; simp
          · simp only [Option.some.injEq, Prod.mk.injEq] at h
            obtain ⟨rfl, rfl⟩ := h
            left; simp
        · rename_i hq
          split at h
          · simp only [uploadCatch, Option.some.injEq] at h
            split at h <;>
            · simp only [Prod.mk.injEq] at h
              obtain ⟨rfl, rfl⟩ := h
              left; simp
          · split at h
            · simp only [uploadCatch, Option.some.injEq] at h
              split at h <;>
              · simp only [Prod.mk.injEq] at h
                obtain ⟨rfl, rfl⟩ := h
                left; simp
            · split at h
              · simp only [uploadCatch, Option.some.injEq] at h
                split at h <;>
                · simp only [Prod.mk.injEq] at h
                  obtain ⟨rfl, rfl⟩ := h
                  left; simp
              · right
                refine ⟨file, user, hfile, huser, by omega, ?_⟩
                split at h
                · rename_i hp
                  simp only [Option.some.injEq, Prod.mk.injEq] at h
                  obtain ⟨rfl, rfl⟩ := h
                  exact ⟨rfl, rfl, rfl, rfl, hpar, fun _ => rfl,
                    fun pid e => absurd (hp.symm.trans e) (by simp)⟩
                · rename_i pid hp
                  split at h
                  · exact absurd h (by simp)
                  · rename_i files2 hu
                    simp only [Option.some.injEq, Prod.mk.injEq] at h
                    obtain ⟨rfl, rfl⟩ := h
                    refine ⟨rfl, updateFolderSizesAux_shape _ _ _ _ hu, rfl, rfl, hpar,
                      fun e => absurd (hp.symm.trans e) (by simp), ?_⟩
                    intro pid1 e
                    have : pid1 = pid := Option.some.inj (e.symm.trans hp)
                    subst this
                    exact hu

/-! ## Theorems: sibling names -/

theorem map_id_of_shape {a b : List FileDoc} (h : SameShape a b) :
    a.map (fun d => d.id) = b.map (fun d => d.id) := by
  have e : ∀ l : List FileDoc, l.map (fun d => d.id) = (l.map eraseSize).map (fun d => d.id) := by
    intro l
    simp [List.map_map, Function.comp, eraseSize]
  rw [e a, e b, h]

theorem idsFresh_append {files files1 : List FileDoc} {doc : FileDoc} {n : Nat}
    (hnd : (files.map (fun d => d.id)).Nodup) (hlt : ∀ d ∈ files, d.id < n)
    (hs : SameShape files1 (files ++ [doc])) (hdoc : doc.id = n) :
    (files1.map (fun d => d.id)).Nodup ∧ ∀ d ∈ files1, d.id < n + 1 := by
  have hm := map_id_of_shape hs
  constructor
  · rw [hm, List.map_append, List.nodup_append]
    refine ⟨hnd, by simp, ?_⟩
    intro x hx hy
    simp only [List.map_cons, List.map_nil, List.mem_singleton] at hy
    obtain ⟨d, hd, rfl⟩ := List.mem_map.mp hx
    have := hlt d hd
    omega
  · intro d hd
    have : d.id ∈ (files ++ [doc]).map (fun d => d.id) := hm ▸ List.mem_map_of_mem _ hd
    simp only [List.map_append, List.map_cons, List.map_nil, List.mem_append, List.mem_map,
      List.mem_singleton] at this
    rcases this with ⟨e, he, hee⟩ | h1
    · have := hlt e he
      omega
    · omega

theorem eq_of_id_eq {files : List FileDoc} (hnd : (files.map (fun d => d.id)).Nodup)
    {a b : FileDoc} (ha : a ∈ files) (hb : b ∈ files) (h : a.id = b.id) : a = b :=
  List.inj_on_of_nodup_map hnd ha hb h

theorem siblingFoldersUnique_append_file {files : List FileDoc} {doc : FileDoc}
    (hu : SiblingFoldersUnique files) (hdoc : doc.isFolder = false) :
    SiblingFoldersUnique (files ++ [doc]) := by
  intro a ha b hb fa fb ho hp hn
  simp only [List.mem_append, List.mem_singleton] at ha hb
  rcases ha with ha | rfl
  · rcases hb with hb | rfl
    · exact hu a ha b hb fa fb ho hp hn
    · rw [hdoc] at fb; exact absurd fb (by simp)
  · rw [hdoc] at fa; exact absurd fa (by simp)

/-- C10, as stated, fails: in the fresh account, uploading the file `notes`
into the home folder and then creating the folder `notes` there leaves two
distinct nodes (2 and 3) with the same owner, the same parent and the same name. -/
theorem same_name_file_and_folder :
    afterUploadCreate.map (fun s => s.files.map
      (fun d => (d.id, d.owner, d.parentFolder, d.originalName, d.isFolder))) =
      some [(1, 7, none, "home", true), (2, 7, some 1, "notes", false),
        (3, 7, some 1, "notes", true)] := by
  rfl

theorem createFolder_preserves (s : State) (req : CreateFolderReq) (hid : IdsFresh s)
    (hu : SiblingFoldersUnique s.files) :
    IdsFresh (createFolder s req).1 ∧ SiblingFoldersUnique (createFolder s req).1.files := by
  unfold createFolder
  simp only
  split
  · exact ⟨hid, hu⟩
  · rename_i name _
    split
    · exact ⟨hid, hu⟩
    · split
      · exact ⟨hid, hu⟩
      · rename_i hnone
        rw [List.find?_eq_none] at hnone
        constructor
        · exact idsFresh_append hid.1 hid.2 rfl rfl
        · intro a ha b hb fa fb ho hp hn
          simp only [List.mem_append, List.mem_singleton] at ha hb
          rcases ha with ha | rfl
          · rcases hb with hb | rfl
            · exact hu a ha b hb fa fb ho hp hn
            · exact absurd (by simp [ho, hp, hn, fa]) (hnone a ha)
          · rcases hb with hb | rfl
            · exact absurd (by simp [← ho, ← hp, ← hn, fb]) (hnone b hb)
            · rfl

theorem rename_preserves (s : State) (req : RenameReq) (hid : IdsFresh s)
    (hu : SiblingFoldersUnique s.files) :
    IdsFresh (rename s req).1 ∧ SiblingFoldersUnique (rename s req).1.files ∧
    ((rename s req).2.status = 200 →
      ∀ a ∈ (rename s req).1.files, ∀ b ∈ (rename s req).1.files, a.id = req.id →
        b.id ≠ req.id → a.owner = b.owner → a.parentFolder = b.parentFolder →
        a.originalName ≠ b.originalName) := by
  unfold rename
  split
  · exact ⟨hid, hu, fun h => absurd h (by simp)⟩
  · rename_i newName _
    split
    · exact ⟨hid, hu, fun h => absurd h (by simp)⟩
    · split
      · exact ⟨hid, hu, fun h => absurd h (by simp)⟩
      · rename_i file hfile
        split
        · exact ⟨hid, hu, fun h => absurd h (by simp)⟩
        · rename_i hnone
          rw [List.find?_eq_none] at hnone
          have hfmem : file ∈ s.files := List.mem_of_find?_eq_some hfile
          have hfp := List.find?_some hfile
          simp only [Bool.and_eq_true, decide_eq_true_eq] at hfp
          simp only
          have hids : ∀ l : List FileDoc, (l.map (fun d =>
              if d.id = file.id then
                { d with originalName := newName
                         encryptedName := if file.isFolder then newName else d.encryptedName }
              else d)).map (fun d => d.id) = l.map (fun d => d.id) := by
            intro l
            rw [List.map_map]
            apply List.map_congr_left
            intro d _
            simp only [Function.comp]
            split <;> rfl
          have key : ∀ a ∈ s.files, ∀ b ∈ s.files, a.id = file.id → b.id ≠ file.id →
              a.owner = b.owner → a.parentFolder = b.parentFolder →
              b.originalName ≠ newName := by
            intro a ha b hb hai hbi ho hp hn
            have : a = file := eq_of_id_eq hid.1 ha hfmem hai
            subst this
            exact hnone b hb (by simp [← ho, ← hp, hn, hbi, hfp.2])
          refine ⟨⟨?_, ?_⟩, ?_, ?_⟩
          · rw [hids]; exact hid.1
          · intro d hd
            obtain ⟨e, he, rfl⟩ := List.mem_map.mp hd
            have := hid.2 e he
            split <;> exact this
          · intro a ha b hb fa fb ho hp hn
            obtain ⟨a0, ha0, rfl⟩ := List.mem_map.mp ha
            obtain ⟨b0, hb0, rfl⟩ := List.mem_map.mp hb
            by_cases ea : a0.id = file.id <;> by_cases eb : b0.id = file.id
            · simp only [ea, eb, if_true]
            · simp only [ea, eb, if_true, if_false] at fa fb ho hp hn ⊢
              exact absurd hn.symm (key a0 ha0 b0 hb0 ea eb ho hp)
            · simp only [ea, eb, if_true, if_false] at fa fb ho hp hn ⊢
              exact absurd hn (key b0 hb0 a0 ha0 eb ea ho.symm hp.symm)
            · simp only [ea, eb, if_false] at fa fb ho hp hn ⊢
              exact hu a0 ha0 b0 hb0 fa fb ho hp hn
          · intro _ a ha b hb hai hbi ho hp hn
            obtain ⟨a0, ha0, rfl⟩ := List.mem_map.mp ha
            obtain ⟨b0, hb0, rfl⟩ := List.mem_map.mp hb
            have ea : a0.id = file.id := by
              have : a0.id = req.id := by
                revert hai; split <;> exact id
              rw [this, hfp.1]
            have eb : ¬ b0.id = file.id := by
              intro h
              apply hbi
              simp only [h, if_true]
              rw [hfp.1]
            simp only [ea, eb, if_true, if_false] at ho hp hn
            exact key a0 ha0 b0 hb0 ea eb ho hp hn.symm

theorem upload_preserves (c : Crypto) (s : State) (req : UploadReq) (s1 : State)
    (resp : Response) (hid : IdsFresh s) (hu : SiblingFoldersUnique s.files)
    (h : upload c s req = some (s1, resp)) :
    IdsFresh s1 ∧ SiblingFoldersUnique s1.files := by
  rcases upload_cases c s req s1 resp h with
    ⟨-, hf, -, hn⟩ | ⟨file, user, -, -, -, -, hs, -, hn, -⟩
  · unfold IdsFresh
    rw [hf, hn]
    exact ⟨hid, hu⟩
  · constructor
    · unfold IdsFresh
      rw [hn]
      exact idsFresh_append hid.1 hid.2 hs rfl
    · exact siblingFoldersUnique_of_shape hs (siblingFoldersUnique_append_file hu rfl)

/-- C10, amended: upload, create-folder and rename keep sibling folder names
unique: from a state with unique ids in which no two distinct folders with the
same owner and the same `parentFolder` have the same `originalName` (compared
exactly), each of the three handlers leads to such a state again; and a rename
that succeeds leaves the renamed node with a name that no other node with its
owner and parent has. Names of files are not kept apart from each other or
from folder names. -/
theorem sibling_folder_names_preserved (c : Crypto) (s : State) (hid : IdsFresh s)
    (hu : SiblingFoldersUnique s.files) :
    (∀ req s1 resp, upload c s req = some (s1, resp) →
      IdsFresh s1 ∧ SiblingFoldersUnique s1.files) ∧
    (∀ req, IdsFresh (createFolder s req).1 ∧
      SiblingFoldersUnique (createFolder s req).1.files) ∧
    (∀ req, IdsFresh (rename s req).1 ∧ SiblingFoldersUnique (rename s req).1.files ∧
      ((rename s req).2.status = 200 →
        ∀ a ∈ (rename s req).1.files, ∀ b ∈ (rename s req).1.files, a.id = req.id →
          b.id ≠ req.id → a.owner = b.owner → a.parentFolder = b.parentFolder →
          a.originalName ≠ b.originalName)) :=
  ⟨fun req s1 resp h => upload_preserves c s req s1 resp hid hu h,
    fun req => createFolder_preserves s req hid hu,
    fun req => rename_preserves s req hid hu⟩

theorem sibling_folder_names_preserved_witness :
    (∀ req s1 resp, upload toyCrypto nestedState req = some (s1, resp) →
      IdsFresh s1 ∧ SiblingFoldersUnique s1.files) ∧
    (∀ req, IdsFresh (createFolder nestedState req).1 ∧
      SiblingFoldersUnique (createFolder nestedState req).1.files) ∧
    (∀ req, IdsFresh (rename nestedState req).1 ∧
      SiblingFoldersUnique (rename nestedState req).1.files ∧
      ((rename nestedState req).2.status = 200 →
        ∀ a ∈ (rename nestedState req).1.files, ∀ b ∈ (rename nestedState req).1.files,
          a.id = req.id → b.id ≠ req.id → a.owner = b.owner →
          a.parentFolder = b.parentFolder → a.originalName ≠ b.originalName)) :=
  sibling_folder_names_preserved toyCrypto nestedState
    (by unfold IdsFresh; decide) (by unfold SiblingFoldersUnique; decide)

/-! ## Theorems: the size recomputation comes back -/

theorem SameShape.symm {a b : List FileDoc} (h : SameShape a b) : SameShape b a := Eq.symm h

theorem SameShape.length_eq {a b : List FileDoc} (h : SameShape a b) : a.length = b.length := by
  have := congrArg List.length h
  simpa using this

theorem rankedBy_of_shape {r : Nat → Nat} {bound : Nat} {a b : List FileDoc}
    (h : SameShape a b) (hb : RankedBy r bound b) : RankedBy r bound a := by
  intro d hd
  obtain ⟨d1, hd1, ed⟩ := h.mem hd
  have fd := eraseSize_fields ed
  refine ⟨by rw [← fd.1]; exact (hb d1 hd1).1, ?_⟩
  intro q hq hp
  obtain ⟨q1, hq1, eq1⟩ := h.mem hq
  have fq := eraseSize_fields eq1
  rw [← fd.1, ← fq.1]
  exact (hb d1 hd1).2 q1 hq1 (by rw [fd.2.2.2.2.1, fq.1]; exact hp)

theorem sumChildren_returns (r : Nat → Nat) (bound fuel : Nat) (files : List FileDoc)
    (hr : RankedBy r bound files)
    (ih : ∀ (files1 : List FileDoc) (this : FileDoc), RankedBy r bound files1 →
      (∃ q ∈ files1, q.id = this.id) → bound ≤ fuel + r this.id →
      ∃ out, calculateFolderSizeAux fuel files1 this = some out) :
    ∀ (children : List FileDoc),
      (∀ ch ∈ children, (∃ q ∈ files, q.id = ch.id) ∧ bound ≤ fuel + r ch.id) →
      ∀ (total : Nat) (files1 : List FileDoc), SameShape files1 files →
      ∃ out, sumChildren (calculateFolderSizeAux fuel) children total files1 = some out := by
  intro children
  induction children with
  | nil =>
    intro _ total files1 _
    exact ⟨_, rfl⟩
  | cons ch rest ihc =>
    intro hch total files1 hs
    have hrest : ∀ x ∈ rest, (∃ q ∈ files, q.id = x.id) ∧ bound ≤ fuel + r x.id :=
      fun x hx => hch x (List.mem_cons_of_mem _ hx)
    simp only [sumChildren]
    split
    · obtain ⟨⟨q, hq, hqi⟩, hb⟩ := hch ch (List.mem_cons_self _ _)
      obtain ⟨q1, hq1, eq1⟩ := hs.symm.mem hq
      obtain ⟨out, ho⟩ := ih files1 ch (rankedBy_of_shape hs hr)
        ⟨q1, hq1, by rw [(eraseSize_fields eq1).1]; exact hqi⟩ hb
      rw [ho]
      exact ihc hrest _ _ ((calculateFolderSizeAux_shape _ _ _ _ ho).trans hs)
    · exact ihc hrest _ _ hs

theorem calculateFolderSizeAux_returns (r : Nat → Nat) (bound : Nat) :
    ∀ (fuel : Nat) (files : List FileDoc) (this : FileDoc), RankedBy r bound files →
      (∃ q ∈ files, q.id = this.id) → bound ≤ fuel + r this.id →
      ∃ out, calculateFolderSizeAux fuel files this = some out := by
  intro fuel
  induction fuel with
  | zero =>
    intro files this hr ⟨q, hq, hqi⟩ hb
    have := (hr q hq).1
    rw [hqi] at this
    omega
  | succ n ih =>
    intro files this hr ⟨q, hq, hqi⟩ hb
    simp only [calculateFolderSizeAux]
    split
    · exact ⟨_, rfl⟩
    · have hch : ∀ ch ∈ findChildren files this.id,
          (∃ q ∈ files, q.id = ch.id) ∧ bound ≤ n + r ch.id := by
        intro ch hc
        simp only [findChildren, List.mem_filter, decide_eq_true_eq] at hc
        refine ⟨⟨ch, hc.1, rfl⟩, ?_⟩
        have := (hr ch hc.1).2 q hq (by rw [hqi]; exact hc.2)
        rw [hqi] at this
        omega
      obtain ⟨out, ho⟩ := sumChildren_returns r bound n files hr ih _ hch 0 files rfl
      rw [ho]
      exact ⟨_, rfl⟩

theorem updateFolderSizesAux_returns (r : Nat → Nat) :
    ∀ (fuel : Nat) (files : List FileDoc) (x : Option Nat),
      RankedBy r files.length files → 1 ≤ fuel →
      (∀ q ∈ files, x = some q.id → r q.id + 2 ≤ fuel) →
      ∃ out, updateFolderSizesAux fuel files x = some out := by
  intro fuel
  induction fuel with
  | zero =>
    intro files x _ h1 _
    omega
  | succ n ih =>
    intro files x hr _ hx
    simp only [updateFolderSizesAux]
    split
    · exact ⟨_, rfl⟩
    · rename_i cur hcur
      have hmem : cur ∈ files := by
        cases x with
        | none => simp [findById] at hcur
        | some i => exact List.mem_of_find?_eq_some hcur
      have hxi : x = some cur.id := by
        cases x with
        | none => simp [findById] at hcur
        | some i =>
          have := List.find?_some hcur
          simp only [decide_eq_true_eq] at this
          rw [this]
      have hn := hx cur hmem hxi
      obtain ⟨out, ho⟩ := calculateFolderSizeAux_returns r files.length (files.length + 1)
        files cur hr ⟨cur, hmem, rfl⟩ (by omega)
      simp only [calculateFolderSize, ho]
      have hs := calculateFolderSizeAux_shape _ _ _ _ ho
      have hr1 : RankedBy r out.2.length out.2 := by
        rw [hs.length_eq]
        exact rankedBy_of_shape hs hr
      refine ih out.2 cur.parentFolder hr1 (by omega) ?_
      intro q hq hp
      obtain ⟨q1, hq1, eq1⟩ := hs.mem hq
      have fq := eraseSize_fields eq1
      have := (hr cur hmem).2 q1 hq1 (by rw [fq.1]; exact hp)
      rw [fq.1] at this
      omega

theorem updateFolderSizes_returns (files : List FileDoc) (pid : Nat) (h : Acyclic files) :
    ∃ out, updateFolderSizes files pid = some out := by
  obtain ⟨r, hr⟩ := h
  refine updateFolderSizesAux_returns r _ files (some pid) hr (by omega) ?_
  intro q hq _
  have := (hr q hq).1
  omega

/-! ## Theorems: uploads keep the tree well formed and always answer -/

theorem acyclic_append_leaf {files : List FileDoc} {doc : FileDoc} {n : Nat}
    (hfresh : ∀ d ∈ files, d.id < n ∧ ∀ p, d.parentFolder = some p → p < n)
    (hac : Acyclic files) (hid : doc.id = n)
    (hpar : ∀ pid, doc.parentFolder = some pid → ∃ q ∈ files, q.id = pid) :
    Acyclic (files ++ [doc]) := by
  obtain ⟨r, hr⟩ := hac
  refine ⟨fun i => if i = n then
    (match doc.parentFolder with
      | some pid => r pid + 1
      | none => 0) else r i, ?_⟩
  intro d hd
  simp only [List.mem_append, List.mem_singleton] at hd
  rcases hd with hd | rfl
  · have hdn : d.id ≠ n := by have := (hfresh d hd).1; omega
    constructor
    · simp only [hdn, if_false, List.length_append, List.length_singleton]
      have := (hr d hd).1
      omega
    · intro q hq hp
      simp only [List.mem_append, List.mem_singleton] at hq
      rcases hq with hq | rfl
      · have hqn : q.id ≠ n := by have := (hfresh q hq).1; omega
        simp only [hdn, hqn, if_false]
        exact (hr d hd).2 q hq hp
      · have := (hfresh d hd).2 q.id hp
        omega
  · constructor
    · simp only [hid, if_true, List.length_append, List.length_singleton]
      cases hp : d.parentFolder with
      | none => simp
      | some pid =>
        obtain ⟨q, hq, rfl⟩ := hpar pid hp
        have := (hr q hq).1
        simp only
        omega
    · intro q hq hp
      obtain ⟨q1, hq1, hq1i⟩ := hpar q.id hp
      have hq1n : q1.id < n := (hfresh q1 hq1).1
      have hqn : q.id ≠ n := by omega
      simp only [hid, hqn, if_true, if_false, hp]
      omega

theorem wellFormed_of_shape_append {s : State} {files1 : List FileDoc} {doc : FileDoc}
    (hwf : WellFormed s) (hs : SameShape files1 (s.files ++ [doc])) (hid : doc.id = s.nextId)
    (hpar : ∀ pid, doc.parentFolder = some pid → ∃ q ∈ s.files, q.id = pid) :
    (∀ d ∈ files1, d.id < s.nextId + 1 ∧ ∀ p, d.parentFolder = some p → p < s.nextId + 1) ∧
      Acyclic files1 := by
  constructor
  · intro d hd
    obtain ⟨e, he, hee⟩ := hs.mem hd
    have fe := eraseSize_fields hee
    rw [← fe.1, ← fe.2.2.2.2.1]
    simp only [List.mem_append, List.mem_singleton] at he
    rcases he with he | rfl
    · have := hwf.1 e he
      exact ⟨by omega, fun p hp => by have := this.2 p hp; omega⟩
    · refine ⟨by omega, fun p hp => ?_⟩
      obtain ⟨q, hq, rfl⟩ := hpar p hp
      have := (hwf.1 q hq).1
      omega
  · obtain ⟨r, hr⟩ := acyclic_append_leaf hwf.1 hwf.2 hid hpar
    exact ⟨r, by rw [hs.length_eq]; exact rankedBy_of_shape hs hr⟩

theorem upload_wellFormed (c : Crypto) (s : State) (req : UploadReq) (s1 : State)
    (resp : Response) (hwf : WellFormed s) (h : upload c s req = some (s1, resp)) :
    WellFormed s1 := by
  rcases upload_cases c s req s1 resp h with
    ⟨-, hf, -, hn⟩ | ⟨file, user, -, -, -, -, hs, -, hn, hpar, -⟩
  · unfold WellFormed
    rw [hf, hn]
    exact hwf
  · unfold WellFormed
    rw [hn]
    refine wellFormed_of_shape_append hwf hs rfl ?_
    intro pid hp
    obtain ⟨q, hq, hqi, -⟩ := hpar pid hp
    exact ⟨q, hq, hqi⟩

theorem upload_returns (c : Crypto) (s : State) (req : UploadReq) (hwf : WellFormed s) :
    ∃ out, upload c s req = some out := by
  unfold upload
  split
  · exact ⟨_, rfl⟩
  · rename_i file hfile
    simp only
    split
    · exact ⟨_, rfl⟩
    · rename_i hpm
      split
      · exact ⟨_, rfl⟩
      · split
        · split <;> exact ⟨_, rfl⟩
        · split
          · exact ⟨_, rfl⟩
          · split
            · exact ⟨_, rfl⟩
            · split
              · exact ⟨_, rfl⟩
              · split
                · exact ⟨_, rfl⟩
                · rename_i pid hp
                  have hac : Acyclic
                      (s.files ++ [newFileDoc s req file
                        (resolveParent s.files req.user req.folderId)]) := by
                    refine acyclic_append_leaf hwf.1 hwf.2 rfl ?_
                    intro p hpp
                    have hpp1 : resolveParent s.files req.user req.folderId = some p := hpp
                    rw [hpp1] at hpm
                    cases hf : findOwnedFolder s.files req.user p with
                    | none => simp [hf] at hpm
                    | some q =>
                      have h1 := List.find?_some hf
                      simp only [Bool.and_eq_true, decide_eq_true_eq] at h1
                      exact ⟨q, List.mem_of_find?_eq_some hf, h1.1.1⟩
                  obtain ⟨out, ho⟩ := updateFolderSizes_returns _ pid hac
                  rw [ho]
                  exact ⟨_, rfl⟩

/-! ## Theorems: quota conservation -/

theorem find_user_updateStorageUsed (users : List UserDoc) (this : UserDoc) (n : Nat) (u : Nat) :
    (updateStorageUsed users this (n : Int)).2.find? (fun x => decide (x.id = u)) =
      (users.find? (fun x => decide (x.id = u))).map
        (fun x => if x.id = this.id then { x with storageUsed := this.storageUsed + n } else x) := by
  have hv : ((this.storageUsed : Int) + (n : Int)).toNat = this.storageUsed + n := by omega
  simp only [updateStorageUsed, hv, List.find?_map]
  congr 1
  apply congrArg (fun p => List.find? p users)
  funext x
  simp only [Function.comp]
  split <;> rfl

theorem uploads_quota (c : Crypto) (u : Nat) :
    ∀ (reqs : List UploadReq) (s : State) (user : UserDoc) (s1 : State)
      (resps : List Response),
      s.users.find? (fun x => decide (x.id = u)) = some user →
      user.storageUsed ≤ user.storageLimit →
      uploads c s reqs = some (s1, resps) →
      resps.length = reqs.length ∧
      ∃ user1, s1.users.find? (fun x => decide (x.id = u)) = some user1 ∧
        user1.storageLimit = user.storageLimit ∧
        user1.storageUsed = user.storageUsed + admittedTotal u reqs resps ∧
        user1.storageUsed ≤ user.storageLimit := by
  intro reqs
  induction reqs with
  | nil =>
    intro s user s1 resps hu hle hrun
    simp only [uploads, Option.some.injEq, Prod.mk.injEq] at hrun
    obtain ⟨rfl, rfl⟩ := hrun
    exact ⟨rfl, user, hu, rfl, by simp [admittedTotal], hle⟩
  | cons req rest ih =>
    intro s user s2 resps hu hle hrun
    simp only [uploads] at hrun
    cases h : upload c s req with
    | none => rw [h] at hrun; exact absurd hrun (by simp)
    | some out =>
      obtain ⟨s1, resp⟩ := out
      rw [h] at hrun
      simp only at hrun
      cases hrest : uploads c s1 rest with
      | none => rw [hrest] at hrun; exact absurd hrun (by simp)
      | some out2 =>
        obtain ⟨s3, resps1⟩ := out2
        rw [hrest] at hrun
        simp only [Option.some.injEq, Prod.mk.injEq] at hrun
        obtain ⟨rfl, rfl⟩ := hrun
        have hid : user.id = u := by
          have := List.find?_some hu
          simpa using this
        rcases upload_cases c s req s1 resp h with
          ⟨hst, -, hus, -⟩ | ⟨file, user0, hfile, hu0, hq, hresp, -, hus, -, -⟩
        · obtain ⟨hlen, user2, hf2, hl2, hs2, hle2⟩ :=
            ih s1 user s3 resps1 (by rw [hus]; exact hu) hle hrest
          refine ⟨by simp [hlen], user2, hf2, hl2, ?_, hle2⟩
          simp only [admittedTotal, hst, and_false, if_false, Nat.zero_add]
          exact hs2
        · by_cases hru : req.user = u
          · have hsame : user0 = user := by
              rw [hru] at hu0
              rw [hu0] at hu
              exact Option.some.inj hu
            subst hsame
            have hf1 : s1.users.find? (fun x => decide (x.id = u)) =
                some { user0 with storageUsed := user0.storageUsed + file.size } := by
              rw [hus, find_user_updateStorageUsed, hu]
              simp
            obtain ⟨hlen, user2, hf2, hl2, hs2, hle2⟩ := ih s1 _ s3 resps1 hf1 hq hrest
            refine ⟨by simp [hlen], user2, hf2, hl2, ?_, hle2⟩
            simp only [admittedTotal, hru, hresp, hfile, true_and, if_true, Option.map_some',
              Option.getD_some]
            rw [hs2]
            simp only
            omega
          · have hne : user.id ≠ user0.id := by
              have := List.find?_some hu0
              simp only [decide_eq_true_eq] at this
              rw [hid, this]
              exact fun e => hru e.symm
            have hf1 : s1.users.find? (fun x => decide (x.id = u)) = some user := by
              rw [hus, find_user_updateStorageUsed, hu]
              simp [hne]
            obtain ⟨hlen, user2, hf2, hl2, hs2, hle2⟩ := ih s1 user s3 resps1 hf1 hle hrest
            refine ⟨by simp [hlen], user2, hf2, hl2, ?_, hle2⟩
            simp only [admittedTotal, hru, false_and, if_false, Nat.zero_add]
            exact hs2

theorem uploads_returns (c : Crypto) :
    ∀ (reqs : List UploadReq) (s : State), WellFormed s → ∃ out, uploads c s reqs = some out := by
  intro reqs
  induction reqs with
  | nil => intro s _; exact ⟨_, rfl⟩
  | cons req rest ih =>
    intro s hwf
    obtain ⟨⟨s1, resp⟩, h⟩ := upload_returns c s req hwf
    obtain ⟨⟨s2, resps⟩, h2⟩ := ih s1 (upload_wellFormed c s req s1 resp hwf h)
    exact ⟨(s2, resp :: resps), by simp only [uploads, h, h2]⟩

/-- C5. Quota conservation: from a quota record with `storageUsed = 0` and limit
`L`, after any run of upload requests handled one after another (one answer per
request), `storageUsed` of that owner is at most `L` and equals the sum of the
sizes of the owner's uploads that were answered 201 (the ones that passed the
quota check and were committed by `updateStorageUsed`); and when the tree has no
parent cycle and its ids are below the id counter, every such run comes back. -/
theorem quota_conservation (c : Crypto) (s : State) (u L : Nat) (user : UserDoc)
    (reqs : List UploadReq)
    (hu : s.users.find? (fun x => decide (x.id = u)) = some user)
    (h0 : user.storageUsed = 0) (hL : user.storageLimit = L) :
    (∀ s1 resps, uploads c s reqs = some (s1, resps) →
      resps.length = reqs.length ∧
      ∃ user1, s1.users.find? (fun x => decide (x.id = u)) = some user1 ∧
        user1.storageLimit = L ∧
        user1.storageUsed ≤ L ∧
        user1.storageUsed = admittedTotal u reqs resps) ∧
    (WellFormed s → ∃ out, uploads c s reqs = some out) := by
  refine ⟨?_, uploads_returns c reqs s⟩
  intro s1 resps hrun
  obtain ⟨hlen, user1, hf, hl, hs, hle⟩ :=
    uploads_quota c u reqs s user s1 resps hu (by omega) hrun
  exact ⟨hlen, user1, hf, by rw [hl, hL], by rw [← hL]; exact hle, by rw [hs, h0]; omega⟩

theorem wellFormed_quotaRunState : WellFormed quotaRunState := by
  refine ⟨by decide, fun _ => 0, ?_⟩
  unfold RankedBy
  decide

theorem quota_conservation_witness :
    (∀ s1 resps, uploads toyCrypto quotaRunState quotaRun = some (s1, resps) →
      resps.length = quotaRun.length ∧
      ∃ user1, s1.users.find? (fun x => decide (x.id = 7)) = some user1 ∧
        user1.storageLimit = 100 ∧
        user1.storageUsed ≤ 100 ∧
        user1.storageUsed = admittedTotal 7 quotaRun resps) ∧
    (WellFormed quotaRunState → ∃ out, uploads toyCrypto quotaRunState quotaRun = some out) :=
  quota_conservation toyCrypto quotaRunState 7 100 (mkUser 0 100) quotaRun
    (by decide) (by decide) (by decide)

/-- The run of the witness, evaluated: 60 bytes are admitted, 50 more are
refused at 60 of 100, 30 more are admitted, and `storageUsed` ends at 90. -/
theorem quota_run_evaluates :
    (uploads toyCrypto quotaRunState quotaRun).map
      (fun x => (x.2.map (fun resp => resp.status), storageUsedOf x.1.users 7,
        x.1.files.map (fun d => (d.id, d.size)))) =
      some ([201, 400, 201], some 90, [(1, 90), (2, 60), (3, 30)]) := by
  decide

/-! ## Theorems: lookups and sums after a size is saved -/

theorem findById_of_mem {files : List FileDoc} (hnd : (files.map (fun d => d.id)).Nodup)
    {d : FileDoc} (hd : d ∈ files) : findById files (some d.id) = some d := by
  simp only [findById]
  cases hf : files.find? (fun e => decide (e.id = d.id)) with
  | none =>
    rw [List.find?_eq_none] at hf
    exact absurd (by simp) (hf d hd)
  | some e =>
    have h1 := List.find?_some hf
    simp only [decide_eq_true_eq] at h1
    rw [eq_of_id_eq hnd (List.mem_of_find?_eq_some hf) hd h1]

theorem findById_some {files : List FileDoc} {x : Option Nat} {d : FileDoc}
    (h : findById files x = some d) : d ∈ files ∧ x = some d.id := by
  cases x with
  | none => simp [findById] at h
  | some i =>
    have h1 := List.find?_some h
    simp only [decide_eq_true_eq] at h1
    exact ⟨List.mem_of_find?_eq_some h, by rw [h1]⟩

theorem findById_saveSize (files : List FileDoc) (i v : Nat) (x : Option Nat) :
    findById (saveSize files i v) x =
      (findById files x).map (fun d => if d.id = i then { d with size := v } else d) := by
  cases x with
  | none => rfl
  | some j =>
    simp only [findById, saveSize, List.find?_map]
    congr 1
    apply congrArg (fun p => List.find? p files)
    funext d
    simp only [Function.comp]
    split <;> rfl

theorem saveSize_same {files : List FileDoc} (hnd : (files.map (fun d => d.id)).Nodup)
    {d : FileDoc} (hd : d ∈ files) : saveSize files d.id d.size = files := by
  simp only [saveSize]
  conv_rhs => rw [← List.map_id files]
  apply List.map_congr_left
  intro e he
  split
  · rename_i h
    rw [eq_of_id_eq hnd he hd h]
    rfl
  · rfl

theorem childSum_saveSize_other {files : List FileDoc}
    (cur : FileDoc) (v y : Nat)
    (h : ∀ d ∈ files, d.id = cur.id → d.parentFolder ≠ some y) :
    childSum (saveSize files cur.id v) y = childSum files y := by
  induction files with
  | nil => rfl
  | cons d rest ih =>
    have ihr := ih (fun e he => h e (List.mem_cons_of_mem _ he))
    simp only [childSum, findChildren, saveSize] at ihr ⊢
    simp only [List.map_cons, List.filter_cons]
    by_cases hdi : d.id = cur.id
    · have hp := h d (List.mem_cons_self _ _) hdi
      simp only [hdi, if_true, hp, decide_False]
      exact ihr
    · simp only [hdi, if_false]
      by_cases hp : d.parentFolder = some y
      · simp only [hp, decide_True, if_true, List.map_cons, List.sum_cons]
        rw [ihr]
      · simp only [hp, decide_False]
        exact ihr

theorem childSum_saveSize_child {files : List FileDoc}
    (hnd : (files.map (fun d => d.id)).Nodup) (cur : FileDoc) (hc : cur ∈ files) (v y : Nat)
    (hp : cur.parentFolder = some y) :
    childSum (saveSize files cur.id v) y + cur.size = childSum files y + v := by
  induction files with
  | nil => exact absurd hc (by simp)
  | cons d rest ih =>
    simp only [List.map_cons, List.nodup_cons] at hnd
    by_cases hdi : d.id = cur.id
    · have hnot : ∀ e ∈ rest, e.id = cur.id → e.parentFolder ≠ some y := by
        intro e he hei
        have hm : e.id ∈ rest.map (fun d => d.id) := List.mem_map_of_mem (fun d => d.id) he
        rw [hei, ← hdi] at hm
        exact absurd hm hnd.1
      have hrest := childSum_saveSize_other cur v y hnot
      have hdc : d = cur := by
        rcases List.mem_cons.mp hc with h | h
        · exact h.symm
        · have hm : cur.id ∈ rest.map (fun d => d.id) := List.mem_map_of_mem (fun d => d.id) h
          rw [← hdi] at hm
          exact absurd hm hnd.1
      simp only [childSum, findChildren, saveSize] at hrest ⊢
      simp only [List.map_cons, List.filter_cons, hdi, if_true]
      subst hdc
      simp only [hp, decide_True, if_true, List.map_cons, List.sum_cons]
      rw [hrest]
      omega
    · have hcr : cur ∈ rest := by
        rcases List.mem_cons.mp hc with h | h
        · exact absurd (by rw [h]) hdi
        · exact h
      have ihr := ih hnd.2 hcr
      simp only [childSum, findChildren, saveSize] at ihr ⊢
      simp only [List.map_cons, List.filter_cons, hdi, if_false]
      by_cases hpd : d.parentFolder = some y
      · simp only [hpd, decide_True, if_true, List.map_cons, List.sum_cons]
        omega
      · simp only [hpd, decide_False]
        exact ihr

/-! ## Theorems: recomputing a consistent subtree changes nothing below its root -/

theorem sumChildren_stable (fuel : Nat) (files : List FileDoc) :
    ∀ (children : List FileDoc),
      (∀ ch ∈ children, ch.isFolder = true →
        calculateFolderSizeAux fuel files ch = some (ch.size, files)) →
      ∀ total, sumChildren (calculateFolderSizeAux fuel) children total files =
        some (total + (children.map (fun d => d.size)).sum, files) := by
  intro children
  induction children with
  | nil =>
    intro _ total
    simp [sumChildren]
  | cons ch rest ih =>
    intro hch total
    have hrest := ih (fun x hx => hch x (List.mem_cons_of_mem _ hx))
    simp only [sumChildren, List.map_cons, List.sum_cons]
    split
    · rename_i hf
      rw [hch ch (List.mem_cons_self _ _) hf]
      simp only
      rw [hrest]
      simp only [Nat.add_assoc]
    · rw [hrest]
      simp only [Nat.add_assoc]

theorem calculateFolderSizeAux_stable (r : Nat → Nat) (bound : Nat) :
    ∀ (fuel : Nat) (files : List FileDoc) (this : FileDoc),
      (files.map (fun d => d.id)).Nodup → RankedBy r bound files → this ∈ files →
      this.isFolder = true →
      (∀ g ∈ files, g.isFolder = true → r this.id < r g.id → g.size = childSum files g.id) →
      bound ≤ fuel + r this.id →
      calculateFolderSizeAux fuel files this =
        some (childSum files this.id, saveSize files this.id (childSum files this.id)) := by
  intro fuel
  induction fuel with
  | zero =>
    intro files this _ hr hm _ _ hb
    have := (hr this hm).1
    omega
  | succ n ih =>
    intro files this hnd hr hm hfold hinv hb
    simp only [calculateFolderSizeAux, hfold, Bool.not_true, Bool.false_eq_true, if_false]
    have hch : ∀ ch ∈ findChildren files this.id, ch.isFolder = true →
        calculateFolderSizeAux n files ch = some (ch.size, files) := by
      intro ch hc hcf
      simp only [findChildren, List.mem_filter, decide_eq_true_eq] at hc
      have hrk : r this.id < r ch.id := (hr ch hc.1).2 this hm hc.2
      have hsz : ch.size = childSum files ch.id := hinv ch hc.1 hcf hrk
      rw [ih files ch hnd hr hc.1 hcf
        (fun g hg hgf hgr => hinv g hg hgf (by omega)) (by omega), ← hsz,
        saveSize_same hnd hc.1]
    rw [sumChildren_stable n files _ hch 0]
    simp only [Nat.zero_add, childSum]

/-! ## Theorems: the parent chain -/

theorem parentsAreFolders_of_shape {a b : List FileDoc} (h : SameShape a b)
    (hb : ParentsAreFolders b) : ParentsAreFolders a := by
  intro d hd q hq hp
  obtain ⟨e, he, hee⟩ := h.mem hd
  obtain ⟨q1, hq1, hqq⟩ := h.mem hq
  have fe := eraseSize_fields hee
  have fq := eraseSize_fields hqq
  rw [← fq.2.2.2.1]
  exact hb e he q1 hq1 (by rw [fe.2.2.2.2.1, fq.1]; exact hp)

theorem findById_shape {a b : List FileDoc} (h : SameShape a b) (x : Option Nat) :
    (findById a x).map eraseSize = (findById b x).map eraseSize := by
  cases x with
  | none => rfl
  | some i =>
    have e : ∀ l : List FileDoc, (findById l (some i)).map eraseSize =
        (l.map eraseSize).find? (fun d => decide (d.id = i)) := by
      intro l
      simp only [findById, List.find?_map]
      rfl
    rw [e a, e b, h]

theorem ancestorChainAux_shape {a b : List FileDoc} (h : SameShape a b) :
    ∀ (n : Nat) (x : Option Nat), ancestorChainAux n a x = ancestorChainAux n b x := by
  intro n
  induction n with
  | zero => intro x; rfl
  | succ m ih =>
    intro x
    have hf := findById_shape h x
    simp only [ancestorChainAux]
    cases ha : findById a x with
    | none =>
      cases hb : findById b x with
      | none => rfl
      | some e => rw [ha, hb] at hf; simp at hf
    | some d =>
      cases hb : findById b x with
      | none => rw [ha, hb] at hf; simp at hf
      | some e =>
        rw [ha, hb] at hf
        simp only [Option.map_some', Option.some.injEq] at hf
        have fe := eraseSize_fields hf
        simp only [fe.1, fe.2.2.2.2.1, ih]

theorem ancestorChainAux_none (n : Nat) (files : List FileDoc) (x : Option Nat)
    (h : findById files x = none) : ancestorChainAux n files x = [] := by
  cases n with
  | zero => rfl
  | succ m => simp only [ancestorChainAux, h]

theorem ancestorChainAux_rank {r : Nat → Nat} {bound : Nat} {files : List FileDoc}
    (hr : RankedBy r bound files) :
    ∀ (n : Nat) (x : Option Nat) (q : FileDoc), q ∈ files → x = some q.id →
      ∀ i ∈ ancestorChainAux n files x, r i ≤ r q.id := by
  intro n
  induction n with
  | zero =>
    intro x q _ _ i hi
    simp [ancestorChainAux] at hi
  | succ m ih =>
    intro x q hq hx i hi
    simp only [ancestorChainAux] at hi
    cases hf : findById files x with
    | none => rw [hf] at hi; simp at hi
    | some d =>
      rw [hf] at hi
      obtain ⟨hd, hxd⟩ := findById_some hf
      have hdq : d.id = q.id := by
        rw [hx] at hxd
        exact (Option.some.inj hxd).symm
      rcases List.mem_cons.mp hi with h1 | h1
      · rw [h1, hdq]
      · cases hp : findById files d.parentFolder with
        | none =>
          rw [ancestorChainAux_none _ _ _ hp] at h1
          simp at h1
        | some e =>
          obtain ⟨he, hpe⟩ := findById_some hp
          have h2 := ih d.parentFolder e he hpe i h1
          have h3 := (hr d hd).2 e he hpe
          rw [hdq] at h3
          omega

theorem ancestorChainAux_fuel {r : Nat → Nat} {bound : Nat} {files : List FileDoc}
    (hr : RankedBy r bound files) :
    ∀ (m k : Nat) (x : Option Nat),
      (∀ q ∈ files, x = some q.id → r q.id + 2 ≤ m ∧ r q.id + 2 ≤ k) →
      ancestorChainAux m files x = ancestorChainAux k files x := by
  intro m
  induction m with
  | zero =>
    intro k x hx
    cases hf : findById files x with
    | none => rw [ancestorChainAux_none _ _ _ hf, ancestorChainAux_none _ _ _ hf]
    | some d =>
      obtain ⟨hd, hxd⟩ := findById_some hf
      have := hx d hd hxd
      omega
  | succ a ih =>
    intro k x hx
    cases hf : findById files x with
    | none => rw [ancestorChainAux_none _ _ _ hf, ancestorChainAux_none _ _ _ hf]
    | some d =>
      obtain ⟨hd, hxd⟩ := findById_some hf
      have hb := hx d hd hxd
      cases k with
      | zero => omega
      | succ b =>
        simp only [ancestorChainAux, hf]
        rw [ih b d.parentFolder]
        intro q hq hp
        have := (hr d hd).2 q hq hp
        omega

theorem findById_append_of_ne (files : List FileDoc) (doc : FileDoc) (x : Option Nat)
    (hx : x ≠ some doc.id) : findById (files ++ [doc]) x = findById files x := by
  cases x with
  | none => rfl
  | some i =>
    have hne : ¬ doc.id = i := fun e => hx (by rw [e])
    simp only [findById, List.find?_append, List.find?_cons, hne, decide_False,
      List.find?_nil, Option.or_none]

theorem ancestorChainAux_append (files : List FileDoc) (doc : FileDoc)
    (hp : ∀ d ∈ files, d.parentFolder ≠ some doc.id) :
    ∀ (n : Nat) (x : Option Nat), x ≠ some doc.id →
      ancestorChainAux n (files ++ [doc]) x = ancestorChainAux n files x := by
  intro n
  induction n with
  | zero => intro x _; rfl
  | succ m ih =>
    intro x hx
    simp only [ancestorChainAux, findById_append_of_ne files doc x hx]
    cases hf : findById files x with
    | none => rfl
    | some d =>
      simp only
      rw [ih d.parentFolder (hp d (findById_some hf).1)]

/-! ## Theorems: `updateFolderSizes` adds the new bytes along the parent chain -/

theorem mem_saveSize {files : List FileDoc} {i v : Nat} {g : FileDoc} (hg : g ∈ files) :
    (if g.id = i then { g with size := v } else g) ∈ saveSize files i v :=
  List.mem_map_of_mem (fun d => if d.id = i then { d with size := v } else d) hg

theorem sizeOf_saveSize {files : List FileDoc} (hnd : (files.map (fun d => d.id)).Nodup)
    {g : FileDoc} (hg : g ∈ files) (i v : Nat) :
    sizeOf (saveSize files i v) g.id = some (if g.id = i then v else g.size) := by
  simp only [sizeOf, findById_saveSize, findById_of_mem hnd hg, Option.map_some']
  split <;> rfl

theorem saveSize_consistent {files : List FileDoc} (hnd : (files.map (fun d => d.id)).Nodup)
    {cur : FileDoc} (hc : cur ∈ files) (v : Nat)
    (hsum : childSum files cur.id = v)
    (hself : cur.parentFolder ≠ some cur.id)
    (hinv : ∀ g ∈ files, g.isFolder = true → g.id ≠ cur.id → g.size = childSum files g.id) :
    ∀ g1 ∈ saveSize files cur.id v, g1.isFolder = true → some g1.id ≠ cur.parentFolder →
      g1.size = childSum (saveSize files cur.id v) g1.id := by
  intro g1 hg1 hf hne
  obtain ⟨g, hg, rfl⟩ := List.mem_map.mp hg1
  have hother : ∀ y, cur.parentFolder ≠ some y →
      childSum (saveSize files cur.id v) y = childSum files y := by
    intro y hy
    apply childSum_saveSize_other
    intro d hd hdi
    rw [eq_of_id_eq hnd hd hc hdi]
    exact hy
  by_cases hgi : g.id = cur.id
  · have hgc : g = cur := eq_of_id_eq hnd hg hc hgi
    subst hgc
    simp only [if_true]
    rw [hother g.id hself, hsum]
  · simp only [hgi, if_false] at hf hne ⊢
    rw [hother g.id (fun e => hne e.symm)]
    exact hinv g hg hf hgi

theorem updateFolderSizesAux_propagates (r : Nat → Nat) (sz : Nat) :
    ∀ (n : Nat) (files : List FileDoc) (cur : FileDoc),
      (files.map (fun d => d.id)).Nodup → RankedBy r files.length files →
      ParentsAreFolders files → cur ∈ files → cur.isFolder = true →
      childSum files cur.id = cur.size + sz →
      (∀ g ∈ files, g.isFolder = true → g.id ≠ cur.id → g.size = childSum files g.id) →
      r cur.id + 2 ≤ n →
      ∃ out, updateFolderSizesAux n files (some cur.id) = some out ∧ SizesConsistent out ∧
        ∀ g ∈ files, sizeOf out g.id =
          some (g.size + if g.id ∈ ancestorChainAux n files (some cur.id) then sz else 0) := by
  intro n
  induction n with
  | zero =>
    intro files cur _ _ _ _ _ _ _ hn
    omega
  | succ m ih =>
    intro files cur hnd hr hpf hc hfold hsum hinv hn
    have hfind := findById_of_mem hnd hc
    have hcalc : calculateFolderSize files cur =
        some (cur.size + sz, saveSize files cur.id (cur.size + sz)) := by
      unfold calculateFolderSize
      rw [calculateFolderSizeAux_stable r files.length (files.length + 1) files cur hnd hr hc
        hfold (fun g hg hgf hgr => hinv g hg hgf (fun e => by rw [e] at hgr; omega))
        (by omega), hsum]
    have hs1 : SameShape (saveSize files cur.id (cur.size + sz)) files := eraseSize_saveSize _ _ _
    have hnd1 : ((saveSize files cur.id (cur.size + sz)).map (fun d => d.id)).Nodup := by
      rw [map_id_of_shape hs1]; exact hnd
    have hself : cur.parentFolder ≠ some cur.id := by
      intro e
      have := (hr cur hc).2 cur hc e
      omega
    simp only [updateFolderSizesAux, hfind, hcalc, ancestorChainAux]
    cases hp : findById files cur.parentFolder with
    | none =>
      have hm : 1 ≤ m := by omega
      obtain ⟨k, rfl⟩ : ∃ k, m = k + 1 := ⟨m - 1, by omega⟩
      refine ⟨saveSize files cur.id (cur.size + sz), ?_, ?_, ?_⟩
      · simp only [updateFolderSizesAux, findById_saveSize, hp, Option.map_none']
      · intro g1 hg1 hf
        refine saveSize_consistent hnd hc _ hsum hself hinv g1 hg1 hf ?_
        intro e
        obtain ⟨g, hg, rfl⟩ := List.mem_map.mp hg1
        have hgi : (if g.id = cur.id then { g with size := cur.size + sz } else g).id = g.id := by
          split <;> rfl
        rw [hgi] at e
        rw [← e, findById_of_mem hnd hg] at hp
        exact absurd hp (by simp)
      · intro g hg
        rw [sizeOf_saveSize hnd hg, ancestorChainAux_none _ _ _ hp]
        simp only [List.mem_singleton]
        by_cases hgi : g.id = cur.id
        · rw [eq_of_id_eq hnd hg hc hgi]; simp
        · simp [hgi]
    | some q =>
      obtain ⟨hq, hpq⟩ := findById_some hp
      have hqf : q.isFolder = true := hpf cur hc q hq hpq
      have hrk : r q.id < r cur.id := (hr cur hc).2 q hq hpq
      have hqc : q.id ≠ cur.id := fun e => by rw [e] at hrk; omega
      have hq1 : q ∈ saveSize files cur.id (cur.size + sz) := by
        have := mem_saveSize (i := cur.id) (v := cur.size + sz) hq
        simpa [hqc] using this
      have hsumq : childSum (saveSize files cur.id (cur.size + sz)) q.id = q.size + sz := by
        have h1 := childSum_saveSize_child hnd cur hc (cur.size + sz) q.id hpq
        have h2 := hinv q hq hqf hqc
        omega
      have hinv1 : ∀ g ∈ saveSize files cur.id (cur.size + sz), g.isFolder = true →
          g.id ≠ q.id → g.size = childSum (saveSize files cur.id (cur.size + sz)) g.id := by
        intro g1 hg1 hf hne
        exact saveSize_consistent hnd hc _ hsum hself hinv g1 hg1 hf
          (by rw [hpq]; exact fun e => hne (Option.some.inj e))
      obtain ⟨out, hout, hcons, hsizes⟩ := ih (saveSize files cur.id (cur.size + sz)) q hnd1
        (by rw [hs1.length_eq]; exact rankedBy_of_shape hs1 hr)
        (parentsAreFolders_of_shape hs1 hpf) hq1 hqf hsumq hinv1
        (by omega)
      rw [hpq]
      refine ⟨out, hout, hcons, ?_⟩
      intro g hg
      have h3 := hsizes _ (mem_saveSize (i := cur.id) (v := cur.size + sz) hg)
      rw [ancestorChainAux_shape hs1] at h3
      have hnot : cur.id ∉ ancestorChainAux m files (some q.id) := by
        intro hin
        have := ancestorChainAux_rank hr m (some q.id) q hq rfl cur.id hin
        omega
      by_cases hgi : g.id = cur.id
      · have hgc : g = cur := eq_of_id_eq hnd hg hc hgi
        subst hgc
        simp only [if_true, hnot, if_false, Nat.add_zero] at h3
        simp only [List.mem_cons, true_or, if_true]
        exact h3
      · simp only [hgi, if_false] at h3
        simp only [List.mem_cons, hgi, false_or]
        exact h3

theorem childSum_append (files : List FileDoc) (doc : FileDoc) (y : Nat) :
    childSum (files ++ [doc]) y =
      childSum files y + if doc.parentFolder = some y then doc.size else 0 := by
  simp only [childSum, findChildren, List.filter_append, List.map_append, List.sum_append,
    List.filter_cons, List.filter_nil]
  by_cases h : doc.parentFolder = some y <;> simp [h]

/-- C8, amended: in a tree with unique ids, without a parent cycle, in which
only folders have children and every folder size is the sum of its children,
the upload handler always answers, and an upload that is admitted (answered
201) of a file of size `s` into the folder `f` (the requested folder, else the
home folder) leaves every node on the `parentFolder` chain from `f` up to the
root, `f` included, with its previous size plus `s`, leaves the size of every
other node of the tree unchanged, and re-establishes the folder-size invariant. -/
theorem upload_propagates_size (c : Crypto) (s : State) (req : UploadReq)
    (hnd : (s.files.map (fun d => d.id)).Nodup) (hwf : WellFormed s)
    (hpf : ParentsAreFolders s.files) (hinv : SizesConsistent s.files) :
    (∃ out, upload c s req = some out) ∧
    ∀ s1 resp, upload c s req = some (s1, resp) → resp.status = 201 →
      ∃ file, req.file = some file ∧ SizesConsistent s1.files ∧
        ∀ g ∈ s.files, sizeOf s1.files g.id =
          some (g.size +
            if g.id ∈ ancestorChain s.files (resolveParent s.files req.user req.folderId)
            then file.size else 0) := by
  have hfresh := hwf.1
  have hac := hwf.2
  have hlt : ∀ d ∈ s.files, d.id < s.nextId := fun d hd => (hfresh d hd).1
  refine ⟨upload_returns c s req hwf, ?_⟩
  intro s1 resp h h201
  rcases upload_cases c s req s1 resp h with
    ⟨hst, -⟩ | ⟨file, user, hfile, -, -, -, -, -, -, hpar, hnone, hsome⟩
  · exact absurd h201 hst
  refine ⟨file, hfile, ?_⟩
  have hdocid : ∀ g ∈ s.files,
      g.id ≠ (newFileDoc s req file (resolveParent s.files req.user req.folderId)).id := by
    intro g hg
    have := hlt g hg
    exact fun e => by rw [e] at this; exact absurd this (by simp [newFileDoc])
  cases hp : resolveParent s.files req.user req.folderId with
  | none =>
    have hfiles := hnone hp
    rw [hp] at hfiles hdocid
    rw [hfiles]
    constructor
    · intro g hg hf
      simp only [List.mem_append, List.mem_singleton] at hg
      rcases hg with hg | rfl
      · rw [childSum_append]
        simp only [newFileDoc, reduceCtorEq, if_false, Nat.add_zero]
        exact hinv g hg hf
      · simp [newFileDoc] at hf
    · intro g hg
      simp only [ancestorChain, ancestorChainAux, findById, if_false, List.not_mem_nil,
        Nat.add_zero]
      have e : sizeOf (s.files ++ [newFileDoc s req file none]) g.id = sizeOf s.files g.id := by
        simp only [sizeOf]
        rw [findById_append_of_ne _ _ _ (fun e => hdocid g hg (Option.some.inj e))]
      rw [e]
      simp only [sizeOf, findById_of_mem hnd hg, Option.map_some']
  | some f =>
    obtain ⟨qf, hqf, hqfi, -, hqff⟩ := hpar f hp
    subst hqfi
    have hrun := hsome qf.id hp
    rw [hp] at hrun hdocid
    have hmem0 : ∀ g ∈ s.files, g ∈ s.files ++ [newFileDoc s req file (some qf.id)] :=
      fun g hg => List.mem_append_left _ hg
    have hnd0 : ((s.files ++ [newFileDoc s req file (some qf.id)]).map
        (fun d => d.id)).Nodup := (idsFresh_append hnd hlt rfl rfl).1
    have hac0 : Acyclic (s.files ++ [newFileDoc s req file (some qf.id)]) :=
      acyclic_append_leaf hfresh hac rfl (fun pid e => ⟨qf, hqf, (Option.some.inj e)⟩)
    obtain ⟨r0, hr0⟩ := hac0
    have hpf0 : ParentsAreFolders (s.files ++ [newFileDoc s req file (some qf.id)]) := by
      intro d hd q hq hdp
      simp only [List.mem_append, List.mem_singleton] at hd hq
      rcases hq with hq | rfl
      · rcases hd with hd | rfl
        · exact hpf d hd q hq hdp
        · have e : qf.id = q.id := Option.some.inj hdp
          rw [← eq_of_id_eq hnd hqf hq e]
          exact hqff
      · rcases hd with hd | rfl
        · have := (hfresh d hd).2 _ hdp
          simp [newFileDoc] at this
        · have e : qf.id = s.nextId := Option.some.inj hdp
          have := hlt qf hqf
          omega
    have hsum0 : childSum (s.files ++ [newFileDoc s req file (some qf.id)]) qf.id =
        qf.size + file.size := by
      rw [childSum_append, ← hinv qf hqf hqff]
      simp [newFileDoc]
    have hinv0 : ∀ g ∈ s.files ++ [newFileDoc s req file (some qf.id)], g.isFolder = true →
        g.id ≠ qf.id →
        g.size = childSum (s.files ++ [newFileDoc s req file (some qf.id)]) g.id := by
      intro g hg hf hne
      simp only [List.mem_append, List.mem_singleton] at hg
      rcases hg with hg | rfl
      · rw [childSum_append]
        have : ¬ (newFileDoc s req file (some qf.id)).parentFolder = some g.id := by
          simp only [newFileDoc, Option.some.injEq]
          exact fun e => hne e.symm
        simp only [this, if_false, Nat.add_zero]
        exact hinv g hg hf
      · simp [newFileDoc] at hf
    obtain ⟨out, hout, hcons, hsizes⟩ := updateFolderSizesAux_propagates r0 file.size
      ((s.files ++ [newFileDoc s req file (some qf.id)]).length + 1) _ qf hnd0 hr0 hpf0
      (hmem0 qf hqf) hqff hsum0 hinv0
      (by have := (hr0 qf (hmem0 qf hqf)).1; omega)
    have hout1 : s1.files = out := by
      have := hrun.symm.trans hout
      exact Option.some.inj this
    rw [hout1]
    refine ⟨hcons, fun g hg => ?_⟩
    rw [hsizes g (hmem0 g hg)]
    obtain ⟨r, hr⟩ := hac
    have hchain : ancestorChainAux
        ((s.files ++ [newFileDoc s req file (some qf.id)]).length + 1)
        (s.files ++ [newFileDoc s req file (some qf.id)]) (some qf.id) =
        ancestorChain s.files (some qf.id) := by
      rw [ancestorChainAux_append s.files _
        (fun d hd e => by
          have := (hfresh d hd).2 _ e
          simp [newFileDoc] at this)
        _ _ (fun e => hdocid qf hqf (Option.some.inj e))]
      unfold ancestorChain
      apply ancestorChainAux_fuel hr
      intro q hq _
      have := (hr q hq).1
      simp only [List.length_append, List.length_singleton]
      omega
    rw [hchain]

theorem upload_propagates_size_witness :
    (∃ out, upload toyCrypto docsState (mkUpload "a.txt" 5 (some 2)) = some out) ∧
    ∀ s1 resp, upload toyCrypto docsState (mkUpload "a.txt" 5 (some 2)) = some (s1, resp) →
      resp.status = 201 →
      ∃ file, (mkUpload "a.txt" 5 (some 2)).file = some file ∧ SizesConsistent s1.files ∧
        ∀ g ∈ docsState.files, sizeOf s1.files g.id =
          some (g.size +
            if g.id ∈ ancestorChain docsState.files
              (resolveParent docsState.files (mkUpload "a.txt" 5 (some 2)).user
                (mkUpload "a.txt" 5 (some 2)).folderId)
            then file.size else 0) :=
  upload_propagates_size toyCrypto docsState (mkUpload "a.txt" 5 (some 2))
    (by decide) ⟨by decide, fun i => i - 1, by unfold RankedBy; decide⟩
    (by unfold ParentsAreFolders; decide) (by unfold SizesConsistent; decide)

/-- The example of the specification, evaluated: uploading the 5-byte `a.txt`
into the empty folder `docs` is answered 201, and afterwards `docs` and the
home folder above it have size 5. -/
theorem upload_into_docs_evaluates :
    (upload toyCrypto docsState (mkUpload "a.txt" 5 (some 2))).map
      (fun x => (x.2.status, ancestorChain docsState.files (some 2),
        x.1.files.map (fun d => (d.id, d.originalName, d.size)))) =
      some (201, [2, 1], [(1, "home", 5), (2, "docs", 5), (3, "a.txt", 5)]) := by
  rfl

/-- C8, as stated, fails: create-folder accepts a file as parent, so the fresh
account reaches the tree `home / a.txt / sub`, which is finite, has no cycle and
satisfies the folder-size invariant (`home` has size 10, the size of its only
child `a.txt`; `sub` is empty). The upload of the 5-byte `b.txt` into `sub` is
admitted; the chain from `sub` to the root is `sub`, `a.txt`, `home`, and the
folder `home` keeps size 10 instead of 15. -/
theorem upload_below_file_skips_root :
    (upload toyCrypto quotaRunState uploadA).map
      (fun x => (createFolder x.1 ⟨7, some "sub", some 2⟩).1) = some fileParentState ∧
    ((fileParentState.files.map (fun d => d.id)).Nodup ∧
      RankedBy (fun i => i - 1) fileParentState.files.length fileParentState.files ∧
      SizesConsistent fileParentState.files) ∧
    ancestorChain fileParentState.files (some 3) = [3, 2, 1] ∧
    (findById fileParentState.files (some 1)).map (fun d => (d.isFolder, d.size)) =
      some (true, 10) ∧
    (upload toyCrypto fileParentState uploadB).map
      (fun x => (x.2.status, sizeOf x.1.files 3, sizeOf x.1.files 2, sizeOf x.1.files 1)) =
      some (201, some 5, some 10, some 10) := by
  refine ⟨by rfl, ⟨by decide, by unfold RankedBy; decide, by unfold SizesConsistent; decide⟩,
    by rfl, by rfl, by rfl⟩

/-! ## Theorems: the home folder -/

/-- C11 at its failing input: `ann` registers (user 0, home folder 1), then
deletes node 1 through the delete handler, which answers 200 and removes it:
the owner still exists and has no home folder, and a later login does not
create one, because `ensureHomeFolder` only looks at `user.homeFolder`, which
still holds the id of the deleted node. -/
theorem delete_removes_home_folder :
    (homeFoldersOf registeredState.files 0).map (fun d => (d.id, d.parentFolder)) =
      [(1, none)] ∧
    (deleteFile registeredState ⟨0, 1⟩).2 = ⟨200, "File deleted successfully"⟩ ∧
    homeDeletedState.users.map (fun u => (u.id, u.homeFolder)) = [(0, some 1)] ∧
    homeFoldersOf homeDeletedState.files 0 = [] ∧
    (login toyBcrypt homeDeletedState ⟨"ann@example.org", "secret"⟩).2 = ⟨200, ""⟩ ∧
    homeFoldersOf (login toyBcrypt homeDeletedState ⟨"ann@example.org", "secret"⟩).1.files 0
      = [] := by
  refine ⟨by rfl, by rfl, by rfl, by rfl, by rfl, by rfl⟩

/-! ## Theorems: rename -/

/-- C12, as stated, fails for folders: renaming the folder `docs` (node 2) to
`papers` also changes its `encryptedName` from `docs` to `papers`. -/
theorem rename_folder_changes_encryptedName :
    (findById docsState.files (some 2)).map (fun d => (d.originalName, d.encryptedName)) =
      some ("docs", "docs") ∧
    (rename docsState ⟨7, 2, some "papers"⟩).2 = ⟨200, ""⟩ ∧
    (findById (rename docsState ⟨7, 2, some "papers"⟩).1.files (some 2)).map
      (fun d => (d.originalName, d.encryptedName)) = some ("papers", "papers") := by
  refine ⟨by rfl, by rfl, by rfl⟩

/-- C12, amended: in a collection with unique ids, for every node owned by the
caller and every valid `newName` that no other node with the same owner and
parent has, rename answers 200, sets the `originalName` of that node to
`newName`, sets its `encryptedName` to `newName` too when the node is a folder,
and changes nothing else: every other field of the node, every other node, the
quota records and the disk are unchanged. -/
theorem rename_frame (s : State) (req : RenameReq) (file : FileDoc) (newName : String)
    (hnd : (s.files.map (fun d => d.id)).Nodup)
    (hname : req.newName = some newName)
    (hvalid : newName ≠ "" ∧ hasReservedChar newName = false)
    (hfile : s.files.find? (fun d => decide (d.id = req.id) && decide (d.owner = req.user)) =
      some file)
    (hfree : ∀ d ∈ s.files, d.owner = req.user → d.parentFolder = file.parentFolder →
      d.originalName = newName → d.id = file.id) :
    rename s req =
      ({ s with files := s.files.map (fun d =>
          if d = file then
            { file with originalName := newName
                        encryptedName := if file.isFolder then newName else file.encryptedName }
          else d) }, ⟨200, ""⟩) := by
  have hmem : file ∈ s.files := List.mem_of_find?_eq_some hfile
  have hnone : s.files.find? (fun d => decide (d.owner = req.user) &&
      decide (d.parentFolder = file.parentFolder) && decide (d.originalName = newName) &&
      decide (d.id ≠ file.id)) = none := by
    rw [List.find?_eq_none]
    intro d hd hp
    simp only [Bool.and_eq_true, decide_eq_true_eq] at hp
    exact hp.2 (hfree d hd hp.1.1.1 hp.1.1.2 hp.1.2)
  unfold rename
  simp only [hname, hvalid.1, hvalid.2, hfile, hnone, decide_False, Bool.or_self,
    Bool.false_eq_true, if_false]
  congr 2
  apply List.map_congr_left
  intro d hd
  by_cases hdi : d.id = file.id
  · have : d = file := eq_of_id_eq hnd hd hmem hdi
    subst this
    simp
  · have : d ≠ file := fun e => hdi (by rw [e])
    simp [hdi, this]

theorem rename_frame_witness :
    rename nestedState ⟨7, 3, some "b.txt"⟩ =
      ({ nestedState with files := nestedState.files.map (fun d =>
          if d = mkFile 3 "a.txt" 7 (some 2) 5 then
            { mkFile 3 "a.txt" 7 (some 2) 5 with
                originalName := "b.txt"
                encryptedName :=
                  if (mkFile 3 "a.txt" 7 (some 2) 5).isFolder then "b.txt"
                  else (mkFile 3 "a.txt" 7 (some 2) 5).encryptedName }
          else d) }, ⟨200, ""⟩) :=
  rename_frame nestedState ⟨7, 3, some "b.txt"⟩ (mkFile 3 "a.txt" 7 (some 2) 5) "b.txt"
    (by decide) rfl (by decide) (by rfl) (by decide)

/-! ## Theorems: what holds in every reachable state -/

theorem parseIntOr_none_ne_zero (x : Option String) : parseIntOr x none ≠ some 0 := by
  unfold parseIntOr
  split
  · split
    · simp
    · rename_i n _ h
      simpa using h
  · simp

theorem invariants_append {files : List FileDoc} {n : Nat} (doc : FileDoc) (k : Nat)
    (hnd : (files.map (fun d => d.id)).Nodup) (hlt : ∀ d ∈ files, d.id < n)
    (hz : LimitsNonZero files) (hid : n ≤ doc.id) (hk : doc.id < k)
    (hdz : doc.maxDownloads ≠ some 0) :
    ((files ++ [doc]).map (fun d => d.id)).Nodup ∧ (∀ d ∈ files ++ [doc], d.id < k) ∧
      LimitsNonZero (files ++ [doc]) := by
  refine ⟨?_, ?_, ?_⟩
  · rw [List.map_append, List.nodup_append]
    refine ⟨hnd, by simp, ?_⟩
    intro x hx hy
    simp only [List.map_cons, List.map_nil, List.mem_singleton] at hy
    obtain ⟨d, hd, rfl⟩ := List.mem_map.mp hx
    have := hlt d hd
    omega
  · intro d hd
    simp only [List.mem_append, List.mem_singleton] at hd
    rcases hd with hd | rfl
    · have := hlt d hd
      omega
    · exact hk
  · intro d hd
    simp only [List.mem_append, List.mem_singleton] at hd
    rcases hd with hd | rfl
    · exact hz d hd
    · exact hdz

theorem invariants_map {files : List FileDoc} {n : Nat} (f : FileDoc → FileDoc)
    (hf : ∀ d, (f d).id = d.id ∧ (f d).maxDownloads = d.maxDownloads)
    (hnd : (files.map (fun d => d.id)).Nodup) (hlt : ∀ d ∈ files, d.id < n)
    (hz : LimitsNonZero files) :
    ((files.map f).map (fun d => d.id)).Nodup ∧ (∀ d ∈ files.map f, d.id < n) ∧
      LimitsNonZero (files.map f) := by
  refine ⟨?_, ?_, ?_⟩
  · have : (files.map f).map (fun d => d.id) = files.map (fun d => d.id) := by
      rw [List.map_map]
      apply List.map_congr_left
      intro d _
      exact (hf d).1
    rw [this]
    exact hnd
  · intro d hd
    obtain ⟨e, he, rfl⟩ := List.mem_map.mp hd
    rw [(hf e).1]
    exact hlt e he
  · intro d hd
    obtain ⟨e, he, rfl⟩ := List.mem_map.mp hd
    rw [(hf e).2]
    exact hz e he

theorem invariants_filter {files : List FileDoc} {n : Nat} (p : FileDoc → Bool)
    (hnd : (files.map (fun d => d.id)).Nodup) (hlt : ∀ d ∈ files, d.id < n)
    (hz : LimitsNonZero files) :
    ((files.filter p).map (fun d => d.id)).Nodup ∧ (∀ d ∈ files.filter p, d.id < n) ∧
      LimitsNonZero (files.filter p) := by
  refine ⟨?_, ?_, ?_⟩
  · exact List.Nodup.sublist ((List.filter_sublist files).map _) hnd
  · intro d hd
    exact hlt d (List.mem_filter.mp hd).1
  · intro d hd
    exact hz d (List.mem_filter.mp hd).1

theorem limitsNonZero_of_shape {a b : List FileDoc} (h : SameShape a b)
    (hb : LimitsNonZero b) : LimitsNonZero a := by
  intro d hd
  obtain ⟨e, he, hee⟩ := h.mem hd
  have : e.maxDownloads = d.maxDownloads := by
    cases d; cases e
    simp only [eraseSize, FileDoc.mk.injEq] at hee
    simp [hee]
  rw [← this]
  exact hb e he

theorem invariants_filter_state (s : State) (p : FileDoc → Bool) (d : Disk)
    (h : IdsFresh s ∧ LimitsNonZero s.files) :
    IdsFresh { s with files := s.files.filter p, disk := d } ∧
      LimitsNonZero (s.files.filter p) := by
  have := invariants_filter p h.1.1 h.1.2 h.2
  exact ⟨⟨this.1, this.2.1⟩, this.2.2⟩

theorem invariants_map_state (s : State) (f : FileDoc → FileDoc)
    (hf : ∀ d, (f d).id = d.id ∧ (f d).maxDownloads = d.maxDownloads)
    (h : IdsFresh s ∧ LimitsNonZero s.files) :
    IdsFresh { s with files := s.files.map f } ∧ LimitsNonZero (s.files.map f) := by
  have := invariants_map f hf h.1.1 h.1.2 h.2
  exact ⟨⟨this.1, this.2.1⟩, this.2.2⟩

/-- In every reachable state the ids of the nodes are unique and below the id
counter, and no stored download limit is 0. -/
theorem reachable_invariants (c : Crypto) (b : Bcrypt) (s : State) (h : Reachable c b s) :
    IdsFresh s ∧ LimitsNonZero s.files := by
  induction h with
  | init disk nextId =>
    exact ⟨⟨by simp, by simp⟩, by simp [LimitsNonZero]⟩
  | disk d _ ih => exact ih
  | @register s req _ ih =>
    obtain ⟨⟨hnd, hlt⟩, hz⟩ := ih
    unfold register
    split
    · exact ⟨⟨hnd, hlt⟩, hz⟩
    · split
      · exact ⟨⟨hnd, hlt⟩, hz⟩
      · have := invariants_append (n := s.nextId)
          { id := s.nextId + 1, originalName := req.name ++ "\x27s Home",
            encryptedName := req.name ++ "\x27s Home", mimeType := "folder", size := 0,
            owner := s.nextId, password := none, maxDownloads := none, downloadCount := 0,
            expiresAt := none, isFolder := true, isHomeFolder := true, parentFolder := none }
          (s.nextId + 2) hnd hlt hz (by simp) (by simp) (by simp)
        exact ⟨⟨this.1, this.2.1⟩, this.2.2⟩
  | @login s req _ ih =>
    obtain ⟨⟨hnd, hlt⟩, hz⟩ := ih
    unfold login
    split
    · exact ⟨⟨hnd, hlt⟩, hz⟩
    · rename_i user _
      split
      · exact ⟨⟨hnd, hlt⟩, hz⟩
      · unfold ensureHomeFolder
        split
        · exact ⟨⟨hnd, hlt⟩, hz⟩
        · have := invariants_append (n := s.nextId)
            { id := s.nextId, originalName := toString user.id,
              encryptedName := toString user.id, mimeType := "folder", size := 0,
              owner := user.id, password := none, maxDownloads := none, downloadCount := 0,
              expiresAt := none, isFolder := true, isHomeFolder := true, parentFolder := none }
            (s.nextId + 1) hnd hlt hz (by simp) (by simp) (by simp)
          exact ⟨⟨this.1, this.2.1⟩, this.2.2⟩
  | @upload s s1 req resp _ hup ih =>
    obtain ⟨⟨hnd, hlt⟩, hz⟩ := ih
    rcases upload_cases c s req s1 resp hup with
      ⟨-, hf, -, hn⟩ | ⟨file, user, -, -, -, -, hs, -, hn, -⟩
    · unfold IdsFresh
      rw [hf, hn]
      exact ⟨⟨hnd, hlt⟩, hz⟩
    · have h1 := idsFresh_append hnd hlt hs rfl
      have h2 := invariants_append (n := s.nextId)
        (newFileDoc s req file (resolveParent s.files req.user req.folderId)) (s.nextId + 1)
        hnd hlt hz (by simp [newFileDoc]) (by simp [newFileDoc])
        (by simp only [newFileDoc]; exact parseIntOr_none_ne_zero _)
      unfold IdsFresh
      rw [hn]
      exact ⟨h1, limitsNonZero_of_shape hs h2.2.2⟩
  | @createFolder s req _ ih =>
    obtain ⟨⟨hnd, hlt⟩, hz⟩ := ih
    unfold createFolder
    simp only
    split
    · exact ⟨⟨hnd, hlt⟩, hz⟩
    · rename_i name _
      split
      · exact ⟨⟨hnd, hlt⟩, hz⟩
      · split
        · exact ⟨⟨hnd, hlt⟩, hz⟩
        · have := invariants_append (n := s.nextId)
            { id := s.nextId, originalName := name, encryptedName := name,
              mimeType := "folder", size := 0, owner := req.user, password := none,
              maxDownloads := none, downloadCount := 0, expiresAt := none, isFolder := true,
              isHomeFolder := false,
              parentFolder := resolveParent s.files req.user req.parentFolderId }
            (s.nextId + 1) hnd hlt hz (by simp) (by simp) (by simp)
          exact ⟨⟨this.1, this.2.1⟩, this.2.2⟩
  | @rename s req _ ih =>
    obtain ⟨⟨hnd, hlt⟩, hz⟩ := ih
    unfold rename
    split
    · exact ⟨⟨hnd, hlt⟩, hz⟩
    · split
      · exact ⟨⟨hnd, hlt⟩, hz⟩
      · split
        · exact ⟨⟨hnd, hlt⟩, hz⟩
        · split
          · exact ⟨⟨hnd, hlt⟩, hz⟩
          · exact invariants_map_state s _ (fun d => by split <;> exact ⟨rfl, rfl⟩)
              ⟨⟨hnd, hlt⟩, hz⟩
  | @deleteFile s req _ ih =>
    obtain ⟨⟨hnd, hlt⟩, hz⟩ := ih
    unfold deleteFile
    split
    · exact ⟨⟨hnd, hlt⟩, hz⟩
    · split
      · exact invariants_filter_state s _ s.disk ⟨⟨hnd, hlt⟩, hz⟩
      · exact invariants_filter_state s _ _ ⟨⟨hnd, hlt⟩, hz⟩
  | @download s req _ ih =>
    obtain ⟨⟨hnd, hlt⟩, hz⟩ := ih
    unfold download
    split
    · exact ⟨⟨hnd, hlt⟩, hz⟩
    · split
      · exact ⟨⟨hnd, hlt⟩, hz⟩
      · split
        · exact ⟨⟨hnd, hlt⟩, hz⟩
        · split
          · exact ⟨⟨hnd, hlt⟩, hz⟩
          · split
            · exact ⟨⟨hnd, hlt⟩, hz⟩
            · unfold fetchAndDecrypt
              simp only
              split
              · exact ⟨⟨hnd, hlt⟩, hz⟩
              · split
                · exact ⟨⟨hnd, hlt⟩, hz⟩
                · exact invariants_map_state s _ (fun d => by split <;> exact ⟨rfl, rfl⟩)
                    ⟨⟨hnd, hlt⟩, hz⟩
  | @storageInfo s userId _ ih =>
    unfold storageInfo
    simp only
    split <;> exact ih

/-! ## Theorems: the download handler -/

theorem reachable_limitedState : Reachable toyCrypto toyBcrypt limitedState :=
  Reachable.upload limitedUpload ⟨201, "File uploaded successfully"⟩
    (Reachable.disk [("tmp/up", [7, 8, 9])]
      (Reachable.register registerAnn (Reachable.init [] 0))) (by rfl)

theorem limitedState_node :
    limitedState.files.find? (fun d => decide (d.id = 2) && decide (d.owner = 0)) =
      some { mkFile 2 "once.txt" 0 (some 1) 3 with
        maxDownloads := some 1, expiresAt := some 604801000 } := by
  rfl

theorem isExpired_iff (file : FileDoc) (now : Int) :
    isExpired file now = true ↔ ∃ e, file.expiresAt = some e ∧ e < now := by
  unfold isExpired
  cases file.expiresAt with
  | none => simp
  | some e => simp

theorem limitReached_iff (file : FileDoc) (hz : file.maxDownloads ≠ some 0) :
    limitReached file = true ↔
      ∃ m, file.maxDownloads = some m ∧ m ≤ (file.downloadCount : Int) := by
  unfold limitReached
  cases h : file.maxDownloads with
  | none => simp
  | some m =>
    have : m ≠ 0 := fun e => hz (by rw [h, e])
    simp [this]

/-- C14. In every reachable state, for every non-folder node of the caller that
passes the password check and every instant `now`: the download handler answers
`File has expired` or `Download limit reached` if and only if `expiresAt` is
set and `now` is after it, or `maxDownloads` is set and `downloadCount` has
reached it; otherwise it goes on to look up and decrypt the blob. -/
theorem download_availability (c : Crypto) (b : Bcrypt) (s : State) (req : DownloadReq)
    (file : FileDoc) (hr : Reachable c b s)
    (hfile : s.files.find? (fun d => decide (d.id = req.id) && decide (d.owner = req.user)) =
      some file)
    (hnf : file.isFolder = false) (hsecret : secretDenied file req.password = false) :
    (((download c s req).2.message = "File has expired" ∨
        (download c s req).2.message = "Download limit reached") ↔
      ((∃ e, file.expiresAt = some e ∧ e < req.now) ∨
        (∃ m, file.maxDownloads = some m ∧ m ≤ (file.downloadCount : Int)))) ∧
    (¬ ((∃ e, file.expiresAt = some e ∧ e < req.now) ∨
        (∃ m, file.maxDownloads = some m ∧ m ≤ (file.downloadCount : Int))) →
      download c s req = fetchAndDecrypt c s file) := by
  have hz : file.maxDownloads ≠ some 0 :=
    (reachable_invariants c b s hr).2 file (List.mem_of_find?_eq_some hfile)
  rw [← isExpired_iff, ← limitReached_iff file hz]
  have hfetch : (fetchAndDecrypt c s file).2.message ≠ "File has expired" ∧
      (fetchAndDecrypt c s file).2.message ≠ "Download limit reached" := by
    unfold fetchAndDecrypt
    simp only
    split
    · exact ⟨by simp, by simp⟩
    · split <;> exact ⟨by simp, by simp⟩
  unfold download
  simp only [hfile, hnf, hsecret, Bool.false_eq_true, if_false]
  cases he : isExpired file req.now with
  | true => simp
  | false =>
    cases hl : limitReached file with
    | true => simp
    | false =>
      simp only [Bool.false_eq_true, if_false, or_self, not_false_eq_true, true_implies,
        and_true, iff_false, not_or]
      exact hfetch

theorem download_availability_witness :
    (((download toyCrypto limitedState ⟨0, 2, none, 2000⟩).2.message = "File has expired" ∨
        (download toyCrypto limitedState ⟨0, 2, none, 2000⟩).2.message =
          "Download limit reached") ↔
      ((∃ e, ({ mkFile 2 "once.txt" 0 (some 1) 3 with
            maxDownloads := some 1, expiresAt := some 604801000 } : FileDoc).expiresAt =
          some e ∧ e < (⟨0, 2, none, 2000⟩ : DownloadReq).now) ∨
        (∃ m, ({ mkFile 2 "once.txt" 0 (some 1) 3 with
            maxDownloads := some 1, expiresAt := some 604801000 } : FileDoc).maxDownloads =
          some m ∧ m ≤ ((({ mkFile 2 "once.txt" 0 (some 1) 3 with
            maxDownloads := some 1, expiresAt := some 604801000 } : FileDoc).downloadCount :
              Nat) : Int)))) ∧
    (¬ ((∃ e, ({ mkFile 2 "once.txt" 0 (some 1) 3 with
            maxDownloads := some 1, expiresAt := some 604801000 } : FileDoc).expiresAt =
          some e ∧ e < (⟨0, 2, none, 2000⟩ : DownloadReq).now) ∨
        (∃ m, ({ mkFile 2 "once.txt" 0 (some 1) 3 with
            maxDownloads := some 1, expiresAt := some 604801000 } : FileDoc).maxDownloads =
          some m ∧ m ≤ ((({ mkFile 2 "once.txt" 0 (some 1) 3 with
            maxDownloads := some 1, expiresAt := some 604801000 } : FileDoc).downloadCount :
              Nat) : Int))) →
      download toyCrypto limitedState ⟨0, 2, none, 2000⟩ =
        fetchAndDecrypt toyCrypto limitedState
          { mkFile 2 "once.txt" 0 (some 1) 3 with
            maxDownloads := some 1, expiresAt := some 604801000 }) :=
  download_availability toyCrypto toyBcrypt limitedState ⟨0, 2, none, 2000⟩ _
    reachable_limitedState limitedState_node rfl rfl

/-- The downloads of `once.txt` (limit 1, expiry at 604801000), evaluated: the
first one at time 2000 returns the three bytes, the second one is refused
because the limit is reached, and one after the expiry is refused as expired. -/
theorem download_once_evaluates :
    (download toyCrypto limitedState ⟨0, 2, none, 2000⟩).2 = ⟨200, "", some [7, 8, 9]⟩ ∧
    (download toyCrypto (download toyCrypto limitedState ⟨0, 2, none, 2000⟩).1
      ⟨0, 2, none, 3000⟩).2 = ⟨400, "Download limit reached", none⟩ ∧
    (download toyCrypto limitedState ⟨0, 2, none, 604801001⟩).2 =
      ⟨400, "File has expired", none⟩ := by
  refine ⟨by rfl, by rfl, by rfl⟩

/-- Every answer of the download handler is of one of two kinds: an answer other
than 200 that leaves the state as it was, or a 200 with the bytes of a non-folder
node whose limit was not reached, which adds 1 to the count of that node. -/
theorem download_cases (c : Crypto) (s : State) (req : DownloadReq) :
    ((download c s req).2.status ≠ 200 ∧ (download c s req).1 = s) ∨
    (∃ file, s.files.find? (fun d => decide (d.id = req.id) && decide (d.owner = req.user)) =
        some file ∧
      limitReached file = false ∧ (download c s req).2.status = 200 ∧
      (download c s req).2.data.isSome = true ∧
      (download c s req).1.files = s.files.map (fun d =>
        if d.id = file.id then { d with downloadCount := file.downloadCount + 1 } else d)) := by
  unfold download
  split
  · left; simp
  · rename_i file hfile
    split
    · left; simp
    · split
      · left; simp
      · split
        · left; simp
        · split
          · left; simp
          · rename_i hl
            unfold fetchAndDecrypt
            simp only
            split
            · left; simp
            · split
              · left; simp
              · right
                exact ⟨file, hfile, by simpa using hl, rfl, rfl, rfl⟩

theorem downloads_count (c : Crypto) (b : Bcrypt) (m : Nat) (hpos : 0 < m) :
    ∀ (reqs : List DownloadReq) (s : State) (d : FileDoc), Reachable c b s → d ∈ s.files →
      d.maxDownloads = some (m : Int) → d.downloadCount ≤ m →
      ∃ d1 ∈ (downloads c s reqs).1.files, d1.id = d.id ∧
        d1.maxDownloads = some (m : Int) ∧ d1.downloadCount ≤ m ∧
        d1.downloadCount = d.downloadCount + servedCount d.id reqs (downloads c s reqs).2 := by
  intro reqs
  induction reqs with
  | nil =>
    intro s d _ hd hm hle
    exact ⟨d, hd, rfl, hm, hle, by simp [downloads, servedCount]⟩
  | cons req rest ih =>
    intro s d hr hd hm hle
    have hnd := (reachable_invariants c b s hr).1.1
    have hr1 : Reachable c b (download c s req).1 := Reachable.download req hr
    have hrun : downloads c s (req :: rest) =
        ((downloads c (download c s req).1 rest).1,
          (download c s req).2 :: (downloads c (download c s req).1 rest).2) := rfl
    rw [hrun]
    simp only [servedCount]
    rcases download_cases c s req with ⟨hst, hs1⟩ | ⟨file, hfile, hlim, hst, -, hfiles⟩
    · obtain ⟨d1, hd1, hi, hm1, hle1, hc⟩ := ih (download c s req).1 d hr1
        (by rw [hs1]; exact hd) hm hle
      refine ⟨d1, hd1, hi, hm1, hle1, ?_⟩
      rw [hc]
      simp [hst]
    · have hfmem : file ∈ s.files := List.mem_of_find?_eq_some hfile
      have hfid : file.id = req.id := by
        have := List.find?_some hfile
        simp only [Bool.and_eq_true, decide_eq_true_eq] at this
        exact this.1
      by_cases hreq : req.id = d.id
      · have hfd : file = d := eq_of_id_eq hnd hfmem hd (hfid.trans hreq)
        subst hfd
        have hlt : file.downloadCount < m := by
          unfold limitReached at hlim
          rw [hm] at hlim
          simp only [Bool.and_eq_false_imp, decide_eq_true_eq, decide_eq_false_iff_not] at hlim
          have := hlim (by omega)
          omega
        have hmem1 : ({ file with downloadCount := file.downloadCount + 1 } : FileDoc) ∈
            (download c s req).1.files := by
          rw [hfiles]
          have := List.mem_map_of_mem (fun d =>
            if d.id = file.id then { d with downloadCount := file.downloadCount + 1 } else d) hd
          simpa using this
        obtain ⟨d1, hd1, hi, hm1, hle1, hc⟩ := ih (download c s req).1 _ hr1 hmem1 hm
          (by simp only; omega)
        refine ⟨d1, hd1, hi, hm1, hle1, ?_⟩
        rw [hc]
        simp only [hreq, hst, and_self, if_true]
        omega
      · have hne : ¬ d.id = file.id := fun e => hreq (by rw [e, hfid])
        have hmem1 : d ∈ (download c s req).1.files := by
          rw [hfiles]
          have := List.mem_map_of_mem (fun x =>
            if x.id = file.id then { x with downloadCount := file.downloadCount + 1 } else x) hd
          simpa [hne] using this
        obtain ⟨d1, hd1, hi, hm1, hle1, hc⟩ := ih (download c s req).1 d hr1 hmem1 hm hle
        refine ⟨d1, hd1, hi, hm1, hle1, ?_⟩
        rw [hc]
        simp [hreq]

/-- C16. In every reachable state, for every node (non-folder nodes included)
with `maxDownloads` a positive integer `m` and `downloadCount ≤ m`, after any run
of download requests handled one after another the node still has
`downloadCount ≤ m`, and its count has grown by exactly the number of requests
for it that were answered 200 with the file: each such download adds exactly 1,
and every other answer (wrong password, expired, limit reached, blob missing,
failed decryption) adds nothing. -/
theorem download_count_bounded (c : Crypto) (b : Bcrypt) (s : State) (d : FileDoc) (m : Nat)
    (reqs : List DownloadReq) (hr : Reachable c b s) (hd : d ∈ s.files)
    (hm : d.maxDownloads = some (m : Int)) (hpos : 0 < m) (hle : d.downloadCount ≤ m) :
    ∃ d1 ∈ (downloads c s reqs).1.files, d1.id = d.id ∧
      d1.maxDownloads = some (m : Int) ∧ d1.downloadCount ≤ m ∧
      d1.downloadCount = d.downloadCount + servedCount d.id reqs (downloads c s reqs).2 :=
  downloads_count c b m hpos reqs s d hr hd hm hle

theorem download_count_bounded_witness :
    ∃ d1 ∈ (downloads toyCrypto limitedState
        [⟨0, 2, none, 2000⟩, ⟨0, 2, none, 3000⟩, ⟨0, 2, none, 4000⟩]).1.files,
      d1.id = ({ mkFile 2 "once.txt" 0 (some 1) 3 with
        maxDownloads := some 1, expiresAt := some 604801000 } : FileDoc).id ∧
      d1.maxDownloads = some ((1 : Nat) : Int) ∧ d1.downloadCount ≤ 1 ∧
      d1.downloadCount = ({ mkFile 2 "once.txt" 0 (some 1) 3 with
          maxDownloads := some 1, expiresAt := some 604801000 } : FileDoc).downloadCount +
        servedCount ({ mkFile 2 "once.txt" 0 (some 1) 3 with
          maxDownloads := some 1, expiresAt := some 604801000 } : FileDoc).id
          [⟨0, 2, none, 2000⟩, ⟨0, 2, none, 3000⟩, ⟨0, 2, none, 4000⟩]
          (downloads toyCrypto limitedState
            [⟨0, 2, none, 2000⟩, ⟨0, 2, none, 3000⟩, ⟨0, 2, none, 4000⟩]).2 :=
  download_count_bounded toyCrypto toyBcrypt limitedState _ 1
    [⟨0, 2, none, 2000⟩, ⟨0, 2, none, 3000⟩, ⟨0, 2, none, 4000⟩] reachable_limitedState
    (List.mem_of_find?_eq_some limitedState_node) rfl (by decide) (by decide)

/-- The run of the witness, evaluated: the first download is served, the next
two are refused, and the count ends at 1. -/
theorem download_run_evaluates :
    (downloads toyCrypto limitedState
      [⟨0, 2, none, 2000⟩, ⟨0, 2, none, 3000⟩, ⟨0, 2, none, 4000⟩]).2.map
        (fun res => (res.status, res.message)) =
      [(200, ""), (400, "Download limit reached"), (400, "Download limit reached")] ∧
    ((downloads toyCrypto limitedState
      [⟨0, 2, none, 2000⟩, ⟨0, 2, none, 3000⟩, ⟨0, 2, none, 4000⟩]).1.files.map
        (fun d => (d.id, d.downloadCount))) = [(1, 0), (2, 1)] := by
  refine ⟨by rfl, by rfl⟩

/-! ## Theorems: path resolution -/

theorem pathFromHome_not_home {files : List FileDoc} {d : FileDoc} {names : List String}
    (h : PathFromHome files d names) : d.isHomeFolder = false := by
  cases h with
  | child h1 _ _ => exact h1
  | step h1 _ _ => exact h1

theorem pathFromHome_unique {files : List FileDoc} {d : FileDoc} {a : List String}
    (ha : PathFromHome files d a) : ∀ b, PathFromHome files d b → a = b := by
  induction ha with
  | child h1 h2 h3 =>
    intro b hb
    cases hb with
    | child _ _ _ => rfl
    | step _ g2 g3 =>
      rw [h2] at g2
      have := pathFromHome_not_home g3
      rw [← Option.some.inj g2, h3] at this
      exact absurd this (by simp)
  | step h1 h2 h3 ih =>
    intro b hb
    cases hb with
    | child _ g2 g3 =>
      rw [h2] at g2
      have := pathFromHome_not_home h3
      rw [Option.some.inj g2, g3] at this
      exact absurd this (by simp)
    | step _ g2 g3 =>
      rw [h2] at g2
      rw [Option.some.inj g2] at ih
      rw [ih _ g3]

theorem pathFromHome_nodes {files : List FileDoc} {d : FileDoc} {names : List String}
    (h : PathFromHome files d names) (hd : d ∈ files) :
    ∃ nodes : List FileDoc, nodes.length = names.length ∧ nodes.Nodup ∧
      ∀ x ∈ nodes, x ∈ files ∧ ∃ n, PathFromHome files x n ∧ n.length ≤ names.length := by
  induction h with
  | @child d home h1 h2 h3 =>
    exact ⟨[d], rfl, by simp, fun x hx => by
      rw [List.mem_singleton.mp hx]
      exact ⟨hd, [d.originalName], PathFromHome.child h1 h2 h3, by simp⟩⟩
  | @step d q names h1 h2 h3 ih =>
    obtain ⟨nodes, hlen, hnodup, hall⟩ := ih (findById_some h2).1
    refine ⟨d :: nodes, by simp [hlen], ?_, ?_⟩
    · rw [List.nodup_cons]
      refine ⟨?_, hnodup⟩
      intro hin
      obtain ⟨-, n, hn, hnl⟩ := hall d hin
      have := pathFromHome_unique (PathFromHome.step h1 h2 h3) n hn
      rw [← this] at hnl
      simp at hnl
    · intro x hx
      rcases List.mem_cons.mp hx with rfl | hx
      · exact ⟨hd, _, PathFromHome.step h1 h2 h3, by simp⟩
      · obtain ⟨hxf, n, hn, hnl⟩ := hall x hx
        exact ⟨hxf, n, hn, by simp only [List.length_append, List.length_singleton]; omega⟩

theorem pathFromHome_length {files : List FileDoc} {d : FileDoc} {names : List String}
    (h : PathFromHome files d names) (hd : d ∈ files) : names.length ≤ files.length := by
  obtain ⟨nodes, hlen, hnodup, hall⟩ := pathFromHome_nodes h hd
  rw [← hlen]
  exact (List.subperm_of_subset hnodup (fun x hx => (hall x hx).1)).length_le

theorem getFullPathAux_of_path {files : List FileDoc} {d : FileDoc} {names : List String}
    (h : PathFromHome files d names) :
    ∀ (fuel : Nat) (path : List String), names.length + 1 ≤ fuel →
      getFullPathAux fuel files (some d) path = some (names ++ path) := by
  induction h with
  | @child d home h1 h2 h3 =>
    intro fuel path hf
    obtain ⟨g, rfl⟩ : ∃ g, fuel = g + 2 := ⟨fuel - 2, by simp at hf; omega⟩
    cases hp : d.parentFolder with
    | none => rw [hp] at h2; simp [findById] at h2
    | some p =>
      rw [hp] at h2
      simp [getFullPathAux, h1, hp, h2, h3]
  | @step d q names h1 h2 h3 ih =>
    intro fuel path hf
    obtain ⟨g, rfl⟩ : ∃ g, fuel = g + 1 := ⟨fuel - 1, by omega⟩
    cases hp : d.parentFolder with
    | none => rw [hp] at h2; simp [findById] at h2
    | some p =>
      rw [hp] at h2
      simp only [getFullPathAux, h1, Bool.false_eq_true, if_false, hp, h2]
      rw [ih g _ (by simp only [List.length_append, List.length_singleton] at hf; omega)]
      simp

/-- C13. `getFullPath` of a home folder returns `/`; and for every node of the
collection whose `parentFolder` chain reaches a home folder through nodes named
`n1` (child of the home folder), ..., `nk` (the node itself), `getFullPath`
returns `/` followed by `n1`, ..., `nk` joined with `/`. -/
theorem getFullPath_resolves (files : List FileDoc) (this : FileDoc) :
    (this.isHomeFolder = true → getFullPath files this = some "/") ∧
    (∀ names, this ∈ files → PathFromHome files this names →
      getFullPath files this = some ("/" ++ "/".intercalate names)) := by
  constructor
  · intro h
    simp [getFullPath, h]
  · intro names hd hp
    have hnh := pathFromHome_not_home hp
    have hlen := pathFromHome_length hp hd
    simp only [getFullPath, hnh, Bool.false_eq_true, if_false]
    rw [getFullPathAux_of_path hp _ _ (by omega)]
    simp

/-- The example of the specification: in the tree where the folder `docs` was
renamed to `papers`, the home folder resolves to `/` and `papers`, directly under
the home folder, resolves to `/papers`. -/
theorem getFullPath_resolves_witness :
    getFullPath (rename docsState ⟨7, 2, some "papers"⟩).1.files
      (mkFolder 1 "home" 7 none 0 true) = some "/" ∧
    getFullPath (rename docsState ⟨7, 2, some "papers"⟩).1.files
      (mkFolder 2 "papers" 7 (some 1) 0 false) = some ("/" ++ "/".intercalate ["papers"]) :=
  ⟨(getFullPath_resolves _ (mkFolder 1 "home" 7 none 0 true)).1 rfl,
    (getFullPath_resolves (rename docsState ⟨7, 2, some "papers"⟩).1.files
      (mkFolder 2 "papers" 7 (some 1) 0 false)).2 ["papers"] (by decide)
      (@PathFromHome.child _ _ (mkFolder 1 "home" 7 none 0 true) rfl (by rfl) rfl)⟩

/-- The same paths, evaluated. -/
theorem getFullPath_papers_evaluates :
    getFullPath (rename docsState ⟨7, 2, some "papers"⟩).1.files
      (mkFolder 1 "home" 7 none 0 true) = some "/" ∧
    getFullPath (rename docsState ⟨7, 2, some "papers"⟩).1.files
      (mkFolder 2 "papers" 7 (some 1) 0 false) = some "/papers" := by
  refine ⟨by rfl, by rfl⟩

/-! ## Theorems: descendants -/

theorem pathBelow_mem {files : List FileDoc} {a : Nat} {d : FileDoc} {p : String}
    (h : PathBelow files a d p) : d ∈ files := by
  cases h with
  | child h1 _ => exact h1
  | step h1 _ _ _ => exact h1

theorem pathBelow_trans {files : List FileDoc} {a : Nat} {q d : FileDoc} {pq p : String}
    (hq : q ∈ files) (hpq : PathBelow files a q pq) (h : PathBelow files q.id d p) :
    PathBelow files a d (pq ++ "/" ++ p) := by
  induction h with
  | child h1 h2 => exact PathBelow.step h1 hq h2 hpq
  | @step d q1 path h1 h2 h3 _ ih =>
    have := PathBelow.step h1 h2 h3 ih
    simpa only [String.append_assoc] using this

theorem pathBelow_compose {files : List FileDoc} {a : Nat} {ch d : FileDoc} {p : String}
    (hc : ch ∈ files) (hp : ch.parentFolder = some a) (h : PathBelow files ch.id d p) :
    PathBelow files a d (ch.originalName ++ "/" ++ p) :=
  pathBelow_trans hc (PathBelow.child hc hp) h

theorem pathBelow_top {files : List FileDoc} {a : Nat} {d : FileDoc} {p : String}
    (h : PathBelow files a d p) :
    d.parentFolder = some a ∨
      ∃ ch ∈ files, ch.parentFolder = some a ∧ ∃ p1, PathBelow files ch.id d p1 := by
  induction h with
  | child _ h2 => exact Or.inl h2
  | @step d q path h1 h2 h3 _ ih =>
    right
    rcases ih with hq | ⟨ch, hch, hcp, p1, hp1⟩
    · exact ⟨q, h2, hq, _, PathBelow.child h1 h3⟩
    · exact ⟨ch, hch, hcp, _, PathBelow.step h1 h2 h3 hp1⟩

theorem pathBelow_parent {files : List FileDoc} (hnd : (files.map (fun d => d.id)).Nodup)
    {a : Nat} {d q : FileDoc} {p : String} (h : PathBelow files a d p) (hq : q ∈ files)
    (hp : d.parentFolder = some q.id) : q.id = a ∨ ∃ p1, PathBelow files a q p1 := by
  cases h with
  | child _ h2 =>
    left
    rw [hp] at h2
    exact Option.some.inj h2
  | @step _ q1 path _ h2 h3 h4 =>
    right
    rw [hp] at h3
    have : q = q1 := eq_of_id_eq hnd hq h2 (Option.some.inj h3)
    rw [this]
    exact ⟨_, h4⟩

theorem inSubtree_below {files : List FileDoc} {root : Nat} {f d : FileDoc} {p : String}
    (hf : f ∈ files) (hsub : InSubtree files root f) (h : PathBelow files f.id d p) :
    ∃ p1, PathBelow files root d p1 := by
  rcases hsub with hfr | ⟨pf, hpf⟩
  · rw [hfr] at h
    exact ⟨_, h⟩
  · exact ⟨_, pathBelow_trans hf hpf h⟩

theorem inSubtree_child {files : List FileDoc} {root : Nat} {f ch : FileDoc}
    (hf : f ∈ files) (hsub : InSubtree files root f) (hc : ch ∈ files)
    (hp : ch.parentFolder = some f.id) : InSubtree files root ch :=
  Or.inr (inSubtree_below hf hsub (PathBelow.child hc hp))

theorem rank_below {r : Nat → Nat} {files : List FileDoc} {root : Nat}
    (hr : RankedBelow r files root) {f d : FileDoc} {p : String} (hf : f ∈ files)
    (hsub : InSubtree files root f) (h : PathBelow files f.id d p) : r f.id < r d.id := by
  induction h with
  | child h1 h2 => exact (hr _ h1 f hf h2 hsub).1
  | @step d q path h1 h2 h3 h4 ih =>
    have hq : InSubtree files root q := Or.inr (inSubtree_below hf hsub h4)
    have := (hr d h1 q h2 h3 hq).1
    omega

theorem not_below_sibling {r : Nat → Nat} {files : List FileDoc} {root : Nat}
    (hnd : (files.map (fun d => d.id)).Nodup) (hr : RankedBelow r files root)
    {f ch ch1 : FileDoc} (hf : f ∈ files) (hsub : InSubtree files root f)
    (hc : ch ∈ files) (hcp : ch.parentFolder = some f.id)
    (hc1p : ch1.parentFolder = some f.id) {p : String} :
    ¬ PathBelow files ch.id ch1 p := by
  intro h
  have hcsub := inSubtree_child hf hsub hc hcp
  have hedge := (hr ch hc f hf hcp hsub).1
  rcases pathBelow_parent hnd h hf hc1p with hfc | ⟨p1, hp1⟩
  · have : f = ch := eq_of_id_eq hnd hf hc hfc
    rw [this] at hedge
    omega
  · have := rank_below hr hc hcsub hp1
    omega

theorem below_siblings_disjoint {r : Nat → Nat} {files : List FileDoc} {root : Nat}
    (hnd : (files.map (fun d => d.id)).Nodup) (hr : RankedBelow r files root)
    {f ch ch1 : FileDoc} (hf : f ∈ files) (hsub : InSubtree files root f)
    (hc : ch ∈ files) (hcp : ch.parentFolder = some f.id)
    (hc1 : ch1 ∈ files) (hc1p : ch1.parentFolder = some f.id) (hne : ch ≠ ch1)
    {x : FileDoc} {p : String} (h : PathBelow files ch.id x p) :
    ∀ p1, ¬ PathBelow files ch1.id x p1 := by
  induction h with
  | child h1 h2 =>
    intro p1 h'
    rcases pathBelow_parent hnd h' hc h2 with hid | ⟨p2, hp2⟩
    · exact hne (eq_of_id_eq hnd hc hc1 hid)
    · exact not_below_sibling hnd hr hf hsub hc1 hc1p hcp hp2
  | @step d q path h1 h2 h3 h4 ih =>
    intro p1 h'
    rcases pathBelow_parent hnd h' h2 h3 with hid | ⟨p2, hp2⟩
    · have : q = ch1 := eq_of_id_eq hnd h2 hc1 hid
      rw [this] at h4
      exact not_below_sibling hnd hr hf hsub hc hcp hc1p h4
    · exact ih p2 hp2

/-! ## Theorems: the folder export -/

theorem append_ne_empty (x a : String) (h : a ≠ "") : x ++ "/" ++ a ≠ "" := by
  intro e
  have := congrArg String.length e
  simp only [String.length_append] at this
  have h2 : a.length = 0 := by
    simp at this
    omega
  apply h
  exact String.ext (by
    have := List.length_eq_zero.mp h2
    simpa using this)

theorem joinPath_ne_empty (cp name : String) (h : name ≠ "") : joinPath cp name ≠ "" := by
  unfold joinPath
  split
  · exact append_ne_empty cp name h
  · exact h

theorem joinPath_joinPath (cp name p : String) (h : name ≠ "") :
    joinPath (joinPath cp name) p = joinPath cp (name ++ "/" ++ p) := by
  unfold joinPath
  by_cases hcp : cp = ""
  · subst hcp
    simp [h]
  · have h1 := append_ne_empty cp name h
    simp only [String.append_assoc] at h1
    simp only [ne_eq, hcp, not_false_eq_true, if_true, h1, String.append_assoc]

theorem no_below_file {a : Archiver} {c : Crypto} {disk : Disk} {files : List FileDoc}
    {root : Nat} {r : Nat → Nat} (H : ExportReady a c disk files root r) {ch : FileDoc}
    {pc : String} (hc : PathBelow files root ch pc) (hnf : ch.isFolder = false) {d : FileDoc}
    {p : String} : ¬ PathBelow files ch.id d p := by
  intro h
  induction h with
  | child h1 h2 =>
    have := H.leaves ch pc hc _ h1 h2
    rw [hnf] at this
    exact absurd this (by simp)
  | step _ _ _ _ ih => exact ih

theorem archiveChildren_spec {a : Archiver} {c : Crypto} {disk : Disk} {files : List FileDoc}
    {root : Nat} {r : Nat → Nat} (H : ExportReady a c disk files root r) (fuel : Nat)
    (f : FileDoc) (hf : f ∈ files) (hsub : InSubtree files root f) (cp : String)
    (hk : ∀ d p, PathBelow files f.id d p → EntryKept a c disk d (joinPath cp p))
    (ih : ∀ ch cp1, ch ∈ files → ch.parentFolder = some f.id → ch.isFolder = true →
      (∀ d p, PathBelow files ch.id d p → EntryKept a c disk d (joinPath cp1 p)) →
      ∃ nodes entries, addFilesToArchiveAux a c disk files fuel ch cp1 = some (.done entries) ∧
        nodes.Nodup ∧ (∀ d, d ∈ nodes ↔ ∃ p, PathBelow files ch.id d p) ∧
        List.Forall₂ (fun d e => ∃ p, PathBelow files ch.id d p ∧
          EntryFor c disk d (joinPath cp1 p) e) nodes entries) :
    ∀ chs : List FileDoc, chs.Nodup →
      (∀ ch ∈ chs, ch ∈ files ∧ ch.parentFolder = some f.id) →
      ∃ nodes entries,
        archiveChildren a c disk (addFilesToArchiveAux a c disk files fuel) cp chs =
          some (.done entries) ∧
        nodes.Nodup ∧
        (∀ d, d ∈ nodes ↔ (d ∈ chs ∨ ∃ ch ∈ chs, ∃ p, PathBelow files ch.id d p)) ∧
        List.Forall₂ (fun d e => ∃ p, PathBelow files f.id d p ∧
          EntryFor c disk d (joinPath cp p) e) nodes entries := by
  intro chs
  induction chs with
  | nil =>
    intro _ _
    exact ⟨[], [], rfl, List.nodup_nil, by simp, List.Forall₂.nil⟩
  | cons ch rest ihr =>
    intro hnodup hall
    obtain ⟨hcnot, hrn⟩ := List.nodup_cons.mp hnodup
    obtain ⟨hc, hcp⟩ := hall ch (List.mem_cons_self _ _)
    have hallr : ∀ x ∈ rest, x ∈ files ∧ x.parentFolder = some f.id :=
      fun x hx => hall x (List.mem_cons_of_mem _ hx)
    obtain ⟨nodesr, entriesr, hrun, hndr, hmemr, hrelr⟩ := ihr hrn hallr
    obtain ⟨pc, hpc⟩ := inSubtree_below hf hsub (PathBelow.child hc hcp)
    have hcsub : InSubtree files root ch := Or.inr ⟨pc, hpc⟩
    have hname : ch.originalName ≠ "" := H.names ch pc hpc
    have hkc := hk ch ch.originalName (PathBelow.child hc hcp)
    have hnotr : ch ∉ nodesr := by
      intro hin
      rcases (hmemr ch).mp hin with h1 | ⟨ch1, hch1, p, hp⟩
      · exact hcnot h1
      · exact not_below_sibling H.ids H.ranked hf hsub (hallr ch1 hch1).1 (hallr ch1 hch1).2
          hcp hp
    have hfile : archiveChildren a c disk (addFilesToArchiveAux a c disk files fuel) cp
        (ch :: rest) =
        (if ch.isFolder then
          match a.append [] (joinPath cp ch.originalName ++ "/") with
          | none => some (.raised [])
          | some entry =>
            match addFilesToArchiveAux a c disk files fuel ch (joinPath cp ch.originalName) with
            | none => none
            | some (.raised queued) => some (.raised (entry :: queued))
            | some (.done below) =>
              match archiveChildren a c disk (addFilesToArchiveAux a c disk files fuel) cp
                  rest with
              | none => none
              | some (.raised queued) => some (.raised (entry :: below ++ queued))
              | some (.done after) => some (.done (entry :: below ++ after))
        else
          if !existsSync disk (storagePath ch.encryptedName) then
            archiveChildren a c disk (addFilesToArchiveAux a c disk files fuel) cp rest
          else
            match decryptFile c disk (storagePath ch.encryptedName) (ch.password.getD "") with
            | .error _ =>
              archiveChildren a c disk (addFilesToArchiveAux a c disk files fuel) cp rest
            | .ok decryptedData =>
              match a.append decryptedData (joinPath cp ch.originalName) with
              | none =>
                archiveChildren a c disk (addFilesToArchiveAux a c disk files fuel) cp rest
              | some entry =>
                match archiveChildren a c disk (addFilesToArchiveAux a c disk files fuel) cp
                    rest with
                | none => none
                | some (.raised queued) => some (.raised (entry :: queued))
                | some (.done after) => some (.done (entry :: after))) := by
      rfl
    rw [hfile, hrun]
    cases hfold : ch.isFolder with
    | true =>
      have hkept : a.append [] (joinPath cp ch.originalName ++ "/") =
          some ⟨joinPath cp ch.originalName ++ "/", []⟩ := by
        simpa [EntryKept, hfold] using hkc
      obtain ⟨nodesc, entriesc, hrunc, hndc, hmemc, hrelc⟩ :=
        ih ch (joinPath cp ch.originalName) hc hcp hfold (by
          intro d p hp
          rw [joinPath_joinPath cp ch.originalName p hname]
          exact hk d _ (pathBelow_compose hc hcp hp))
      rw [hrunc]
      simp only [if_true, hkept]
      refine ⟨ch :: (nodesc ++ nodesr), _, rfl, ?_, ?_, ?_⟩
      · rw [List.nodup_cons, List.nodup_append]
        refine ⟨?_, hndc, hndr, ?_⟩
        · intro hin
          rcases List.mem_append.mp hin with h1 | h1
          · obtain ⟨p, hp⟩ := (hmemc ch).mp h1
            have := rank_below H.ranked hc hcsub hp
            omega
          · exact hnotr h1
        · intro x hx1 hx2
          obtain ⟨p, hp⟩ := (hmemc x).mp hx1
          rcases (hmemr x).mp hx2 with h1 | ⟨ch1, hch1, p1, hp1⟩
          · exact not_below_sibling H.ids H.ranked hf hsub hc hcp (hallr x h1).2 hp
          · exact below_siblings_disjoint H.ids H.ranked hf hsub hc hcp (hallr ch1 hch1).1
              (hallr ch1 hch1).2 (fun e => hcnot (e ▸ hch1)) hp p1 hp1
      · intro d
        simp only [List.mem_cons, List.mem_append, hmemc, hmemr]
        constructor
        · rintro (h | ⟨p, hp⟩ | h | ⟨ch1, hch1, hp1⟩)
          · exact Or.inl (Or.inl h)
          · exact Or.inr ⟨ch, Or.inl rfl, p, hp⟩
          · exact Or.inl (Or.inr h)
          · exact Or.inr ⟨ch1, Or.inr hch1, hp1⟩
        · rintro ((h | h) | ⟨ch1, (rfl | hch1), hp1⟩)
          · exact Or.inl h
          · exact Or.inr (Or.inr (Or.inl h))
          · exact Or.inr (Or.inl hp1)
          · exact Or.inr (Or.inr (Or.inr ⟨ch1, hch1, hp1⟩))
      · refine List.Forall₂.cons ⟨ch.originalName, PathBelow.child hc hcp, ?_⟩
          (List.rel_append (hrelc.imp ?_) hrelr)
        · simp [EntryFor, hfold]
        · rintro d e ⟨p, hp, he⟩
          refine ⟨ch.originalName ++ "/" ++ p, pathBelow_compose hc hcp hp, ?_⟩
          rw [← joinPath_joinPath cp ch.originalName p hname]
          exact he
    | false =>
      obtain ⟨hex, data, hdata⟩ := H.blobs ch pc hpc hfold
      have hkept : a.append data (joinPath cp ch.originalName) =
          some ⟨joinPath cp ch.originalName, data⟩ := by
        have := hkc
        simp only [EntryKept, hfold, Bool.false_eq_true, if_false] at this
        exact this data hdata
      simp only [Bool.false_eq_true, if_false, hex, Bool.not_true, hdata, hkept]
      refine ⟨ch :: nodesr, _, rfl, List.nodup_cons.mpr ⟨hnotr, hndr⟩, ?_, ?_⟩
      · intro d
        simp only [List.mem_cons, hmemr]
        constructor
        · rintro (h | h | ⟨ch1, hch1, hp1⟩)
          · exact Or.inl (Or.inl h)
          · exact Or.inl (Or.inr h)
          · exact Or.inr ⟨ch1, Or.inr hch1, hp1⟩
        · rintro ((h | h) | ⟨ch1, (rfl | hch1), p1, hp1⟩)
          · exact Or.inl h
          · exact Or.inr (Or.inl h)
          · exact absurd hp1 (no_below_file H hpc hfold)
          · exact Or.inr (Or.inr ⟨ch1, hch1, p1, hp1⟩)
      · refine List.Forall₂.cons ⟨ch.originalName, PathBelow.child hc hcp, ?_⟩ hrelr
        simp [EntryFor, hfold, hdata]

theorem addFilesToArchiveAux_spec {a : Archiver} {c : Crypto} {disk : Disk}
    {files : List FileDoc} {root : Nat} {r : Nat → Nat}
    (H : ExportReady a c disk files root r) :
    ∀ (fuel : Nat) (f : FileDoc) (cp : String), f ∈ files → InSubtree files root f →
      1 ≤ fuel → files.length ≤ fuel + r f.id →
      (∀ d p, PathBelow files f.id d p → EntryKept a c disk d (joinPath cp p)) →
      ∃ nodes entries, addFilesToArchiveAux a c disk files fuel f cp = some (.done entries) ∧
        nodes.Nodup ∧ (∀ d, d ∈ nodes ↔ ∃ p, PathBelow files f.id d p) ∧
        List.Forall₂ (fun d e => ∃ p, PathBelow files f.id d p ∧
          EntryFor c disk d (joinPath cp p) e) nodes entries := by
  intro fuel
  induction fuel with
  | zero =>
    intro f cp _ _ h1 _
    omega
  | succ n ih =>
    intro f cp hf hsub _ hb hk
    have hfilesnd : files.Nodup := List.Nodup.of_map _ H.ids
    have hchs : ∀ ch ∈ findChildren files f.id, ch ∈ files ∧ ch.parentFolder = some f.id := by
      intro ch hc
      simp only [findChildren, List.mem_filter, decide_eq_true_eq] at hc
      exact hc
    obtain ⟨nodes, entries, hrun, hnd, hmem, hrel⟩ :=
      archiveChildren_spec H n f hf hsub cp hk
        (fun ch cp1 hc hcp _ hk1 => by
          have hrk := H.ranked ch hc f hf hcp hsub
          exact ih ch cp1 hc (inSubtree_child hf hsub hc hcp) (by omega) (by omega) hk1)
        (findChildren files f.id) (hfilesnd.filter _) hchs
    refine ⟨nodes, entries, hrun, hnd, ?_, hrel⟩
    intro d
    rw [hmem]
    constructor
    · rintro (h | ⟨ch, hch, p, hp⟩)
      · exact ⟨_, PathBelow.child (hchs d h).1 (hchs d h).2⟩
      · exact ⟨_, pathBelow_compose (hchs ch hch).1 (hchs ch hch).2 hp⟩
    · rintro ⟨p, hp⟩
      rcases pathBelow_top hp with h | ⟨ch, hch, hcp, p1, hp1⟩
      · left
        simp only [findChildren, List.mem_filter, decide_eq_true_eq]
        exact ⟨pathBelow_mem hp, h⟩
      · right
        refine ⟨ch, ?_, p1, hp1⟩
        simp only [findChildren, List.mem_filter, decide_eq_true_eq]
        exact ⟨hch, hcp⟩

/-- C15, amended: for a requested folder of the caller whose subtree has unique
ids, no cycle, only folders with children, no empty names, a blob that exists
and decrypts for every file, and entries that the archiver records under their
root-relative paths as they are appended, the folder export answers with a
finalised archive whose entries are, in order, the entries of a duplicate-free
list of exactly the proper descendants of the folder: for a descendant folder an
empty entry named by its root-relative path followed by `/`, for a descendant
file an entry named by its root-relative path whose content is the decrypted
plaintext. -/
theorem export_entries (a : Archiver) (c : Crypto) (s : State) (req : DeleteReq)
    (root : FileDoc) (r : Nat → Nat)
    (hroot : s.files.find? (fun d => decide (d.id = req.id) && decide (d.owner = req.user) &&
      d.isFolder) = some root)
    (H : ExportReady a c s.disk s.files root.id r) :
    ∃ nodes entries, downloadFolder a c s req = some (.archive entries) ∧ nodes.Nodup ∧
      (∀ d, d ∈ nodes ↔ ∃ p, PathBelow s.files root.id d p) ∧
      List.Forall₂ (fun d e => ∃ p, PathBelow s.files root.id d p ∧ EntryFor c s.disk d p e)
        nodes entries := by
  obtain ⟨nodes, entries, hrun, hnd, hmem, hrel⟩ :=
    addFilesToArchiveAux_spec H (s.files.length + 1) root ""
      (List.mem_of_find?_eq_some hroot) (Or.inl rfl) (by omega) (by omega)
      (fun d p hp => by simpa [joinPath] using H.kept d p hp)
  refine ⟨nodes, entries, ?_, hnd, hmem, hrel.imp ?_⟩
  · simp only [downloadFolder, hroot, addFilesToArchive, hrun]
  · rintro d e ⟨p, hp, he⟩
    refine ⟨p, hp, ?_⟩
    simpa [joinPath] using he

theorem pathBelow_exportState {d : FileDoc} {p : String}
    (h : PathBelow exportState.files 1 d p) :
    (d = mkFile 2 "x" 7 (some 1) 10 ∧ p = "x") ∨
    (d = mkFolder 3 "B" 7 (some 1) 20 false ∧ p = "B") ∨
    (d = mkFile 4 "y" 7 (some 3) 20 ∧ p = "B/y") := by
  induction h with
  | child hd hp =>
    simp only [exportState, List.mem_cons, List.mem_singleton, List.not_mem_nil, or_false] at hd
    rcases hd with rfl | rfl | rfl | rfl
    · exact absurd hp (by decide)
    · exact Or.inl ⟨rfl, rfl⟩
    · exact Or.inr (Or.inl ⟨rfl, rfl⟩)
    · exact absurd hp (by decide)
  | step hd _ hp _ ih =>
    simp only [exportState, List.mem_cons, List.mem_singleton, List.not_mem_nil, or_false] at hd
    rcases ih with ⟨rfl, rfl⟩ | ⟨rfl, rfl⟩ | ⟨rfl, rfl⟩
    · rcases hd with rfl | rfl | rfl | rfl <;> exact absurd hp (by decide)
    · rcases hd with rfl | rfl | rfl | rfl
      · exact absurd hp (by decide)
      · exact absurd hp (by decide)
      · exact absurd hp (by decide)
      · exact Or.inr (Or.inr ⟨rfl, by decide⟩)
    · rcases hd with rfl | rfl | rfl | rfl <;> exact absurd hp (by decide)

theorem exportReady_exportState :
    ExportReady zipArchiver toyCrypto exportState.disk exportState.files 1
      (fun i => if i = 1 then 0 else if i = 4 then 2 else 1) := by
  have hranked : ∀ d ∈ exportState.files, ∀ q ∈ exportState.files, d.parentFolder = some q.id →
      (fun i => if i = 1 then 0 else if i = 4 then 2 else 1) q.id <
        (fun i => if i = 1 then 0 else if i = 4 then 2 else 1) d.id ∧
      (fun i => if i = 1 then 0 else if i = 4 then 2 else 1) d.id < exportState.files.length := by
    decide
  have hleaves : ∀ q ∈ exportState.files, ∀ d ∈ exportState.files,
      d.parentFolder = some q.id → q.isFolder = true := by decide
  have hnames : ∀ d ∈ exportState.files, d.originalName ≠ "" := by decide
  have hblobs : ∀ d ∈ exportState.files, d.isFolder = false →
      existsSync exportState.disk (storagePath d.encryptedName) = true ∧
      ∃ data, decryptFile toyCrypto exportState.disk (storagePath d.encryptedName)
        (d.password.getD "") = .ok data := by
    intro d hd hnf
    simp only [exportState, List.mem_cons, List.mem_singleton, List.not_mem_nil, or_false] at hd
    rcases hd with rfl | rfl | rfl | rfl
    · exact absurd hnf (by decide)
    · exact ⟨by rfl, _, by rfl⟩
    · exact absurd hnf (by decide)
    · exact ⟨by rfl, _, by rfl⟩
  exact
    { ids := by decide
      ranked := fun d hd q hq hp _ => hranked d hd q hq hp
      leaves := fun q p hq d hd hp => hleaves q (pathBelow_mem hq) d hd hp
      names := fun d p hd => hnames d (pathBelow_mem hd)
      blobs := fun d p hd hnf => hblobs d (pathBelow_mem hd) hnf
      kept := by
        intro d p hd
        rcases pathBelow_exportState hd with ⟨rfl, rfl⟩ | ⟨rfl, rfl⟩ | ⟨rfl, rfl⟩
        · intro data _
          rfl
        · rfl
        · intro data _
          rfl }

theorem export_entries_witness :
    ∃ nodes entries, downloadFolder zipArchiver toyCrypto exportState ⟨7, 1⟩ =
        some (.archive entries) ∧
      nodes.Nodup ∧
      (∀ d, d ∈ nodes ↔ ∃ p, PathBelow exportState.files (mkFolder 1 "A" 7 none 30 false).id d p) ∧
      List.Forall₂ (fun d e => ∃ p,
        PathBelow exportState.files (mkFolder 1 "A" 7 none 30 false).id d p ∧
        EntryFor toyCrypto exportState.disk d p e) nodes entries :=
  export_entries zipArchiver toyCrypto exportState ⟨7, 1⟩ (mkFolder 1 "A" 7 none 30 false) _
    (by rfl) exportReady_exportState

/-- The example of the specification, evaluated: exporting `A` from the tree with
folders `A`, `A/B` and files `A/x`, `A/B/y` gives exactly the entries `x`, `B/`
and `B/y`, the files with their plaintext. -/
theorem export_example_evaluates :
    downloadFolder zipArchiver toyCrypto exportState ⟨7, 1⟩ =
      some (.archive [⟨"x", List.replicate 10 1⟩, ⟨"B/", []⟩, ⟨"B/y", List.replicate 20 2⟩]) := by
  rfl

/-- Names the archiver does not record as they are, evaluated: create-folder
accepts the name `..`; the export of a home folder that holds the folder `..`
and the file `c:x.txt` stops at the entry `../`, for which `append` raises, and
gives no archive; with the folder `..` gone, the file is archived as `x.txt`. -/
theorem export_dot_names_evaluates :
    (createFolder freshState ⟨7, some "..", none⟩).2.status = 201 ∧
    downloadFolder zipArchiver toyCrypto dotNamesState ⟨7, 1⟩ = some (.aborted []) ∧
    downloadFolder zipArchiver toyCrypto (deleteFile dotNamesState ⟨7, 2⟩).1 ⟨7, 1⟩ =
      some (.archive [⟨"x.txt", [1]⟩]) := by
  refine ⟨by rfl, by rfl, by rfl⟩

/-- C15, as stated, fails: in the reachable tree `home / a.txt / sub`, where the
folder `sub` has the file `a.txt` as parent, the subtree under `home` is finite
and has no cycle and the blob of its only file exists and decrypts; `sub` is a
proper descendant of `home` with the root-relative path `a.txt/sub`, and the
export of `home` holds the single entry `a.txt`, no entry for `sub`. -/
theorem export_skips_folder_below_file :
    (upload toyCrypto quotaRunState uploadA).map
      (fun x => (createFolder x.1 ⟨7, some "sub", some 2⟩).1) = some fileParentState ∧
    RankedBy (fun i => i - 1) fileParentState.files.length fileParentState.files ∧
    decryptFile toyCrypto fileParentState.disk (storagePath "0_00a.txt") "" = .ok [1] ∧
    PathBelow fileParentState.files 1 (mkFolder 3 "sub" 7 (some 2) 0 false) "a.txt/sub" ∧
    downloadFolder zipArchiver toyCrypto fileParentState ⟨7, 1⟩ =
      some (.archive [⟨"a.txt", [1]⟩]) := by
  refine ⟨by rfl, by unfold RankedBy; decide, by rfl, ?_, by rfl⟩
  exact @PathBelow.step _ _ (mkFolder 3 "sub" 7 (some 2) 0 false)
    (mkFile 2 "a.txt" 7 (some 1) 10) "a.txt" (by decide) (by decide) rfl
    (@PathBelow.child _ _ (mkFile 2 "a.txt" 7 (some 1) 10) (by decide) rfl)

end FileVault
